import Mathlib

/-!
# Text encoder / decoder (`encoder.c`): shallow embedding

Byte streams, C strings and files are lists of byte values (`Nat`, each below 256).
A C string held in a `char` buffer is the list of its bytes before the first NUL.
The global arrays `symbols[0 .. symbol_count)` and `codebook[0 .. codebook_size)` are
lists; the counters are their lengths.  The character constants used below are
`'0' = 48`, `'1' = 49`, `'\n' = 10`, `'\t' = 9`, `'\r' = 13`, `'\\' = 92`, `'n' = 110`,
`'t' = 116`, `'r' = 114`, `'[' = 91`, `']' = 93`, `',' = 44`, `'.' = 46`, `'-' = 45`.
-/

namespace TextCodec

/-! ## Data model -/

/-- Entry of the encoder's symbol table (`Symbol`, lines 6-11).  `probability` is the
quotient computed at line 118, kept exact as a rational number.  `count` is a C `int`
(as is `total_count`, line 66): the natural number here is the value of that `int` as
long as it is at most `INT_MAX`, which holds on every input shorter than `2^31` bytes. -/
structure Symbol where
  symbol : List Nat
  count : Nat
  probability : ℚ
  codeword : List Nat
deriving DecidableEq

/-- Entry of the decoder's codebook (`CodebookEntry`, lines 233-236). -/
structure CodebookEntry where
  symbol : List Nat
  code : List Nat
deriving DecidableEq

def TOTAL_SYMBOLS : Nat := 1024

def MAX_ENTRIES : Nat := 1024

def MAX_BITSTREAM_SIZE : Nat := 262144

/-- Largest value of the C type `int` (32 bits), the type of `count` (line 8) and of
`total_count` (line 66). -/
def INT_MAX : Nat := 2147483647

/-! ## C library helpers -/

/-- The C string stored in a buffer: the bytes before the first NUL. -/
def cstr (buf : List Nat) : List Nat :=
  buf.takeWhile (fun b => b != 0)

/-- Result of `fgetc` stored into a `char`: the next byte, or 0xFF (the truncation of
EOF = -1) when the stream is at its end, where it stays. -/
def fgetc_char : List Nat → Nat × List Nat
  | [] => (255, [])
  | b :: rest => (b, rest)

/-- Sign of `strcmp` on two C strings (bytes compared as `unsigned char`); the C standard
fixes only the sign of the result. -/
def strcmp : List Nat → List Nat → Int
  | [], [] => 0
  | [], _ :: _ => -1
  | _ :: _, [] => 1
  | a :: s, b :: t => if a = b then strcmp s t else if a < b then -1 else 1

/-- Decimal digits of `n`, most significant first (`fuel` bounds the number of digits). -/
def decimal_digits : Nat → Nat → List Nat → List Nat
  | 0, _, acc => acc
  | fuel + 1, n, acc =>
    if n < 10 then (48 + n) :: acc
    else decimal_digits fuel (n / 10) ((48 + n % 10) :: acc)

/-- Text printed by `%d` for a non-negative `int`. -/
def print_d (n : Nat) : List Nat :=
  decimal_digits (n + 1) n []

/-- The value `|q| * 10^7` rounded to the nearest integer, ties to even. -/
def round_f7 (q : ℚ) : Nat :=
  let scaled : ℚ := |q| * 10000000
  let fl : Nat := scaled.floor.toNat
  let frac : ℚ := scaled - fl
  if frac < 1 / 2 then fl
  else if 1 / 2 < frac then fl + 1
  else if fl % 2 = 0 then fl else fl + 1

/-- Text printed by `%.7f`: sign, integer part, `.` and seven decimals.  The rounding is
that of the exact rational value. -/
def print_f7 (q : ℚ) : List Nat :=
  let r := round_f7 q
  (if q < 0 then [45] else []) ++ print_d (r / 10000000) ++ [46] ++
    [48 + r / 1000000 % 10, 48 + r / 100000 % 10, 48 + r / 10000 % 10, 48 + r / 1000 % 10,
     48 + r / 100 % 10, 48 + r / 10 % 10, 48 + r % 10]

/-- Array returned by the C library `qsort` for the comparison function `cmp`: the
elements in ascending order of `cmp`.  The library routine is not part of the program; it
is represented by insertion sort, and `qsort_unique` shows that every correctly sorted
arrangement of a table with distinct symbols is this one. -/
def qsort {α : Type} (cmp : α → α → Int) (l : List α) : List α :=
  l.insertionSort (fun a b => cmp a b ≤ 0)

/-! ## Encoder -/

/-- Lines 71-88: the bytes put into `utf8_char` for leading byte `c`, and the rest of the
stream. -/
def read_symbol_freq (c : Nat) (rest : List Nat) : List Nat × List Nat :=
  if c &&& 0x80 = 0 then ([c], rest)
  else if c &&& 0xE0 = 0xC0 then
    let r1 := fgetc_char rest
    ([c, r1.1], r1.2)
  else if c &&& 0xF0 = 0xE0 then
    let r1 := fgetc_char rest
    let r2 := fgetc_char r1.2
    ([c, r1.1, r2.1], r2.2)
  else if c &&& 0xF8 = 0xF0 then
    let r1 := fgetc_char rest
    let r2 := fgetc_char r1.2
    let r3 := fgetc_char r2.2
    ([c, r1.1, r2.1, r3.1], r3.2)
  else ([], rest)

/-- Lines 92-94 and 191-193: LF, TAB and CR become the two-character tokens
backslash-n, backslash-t, backslash-r. -/
def escape_special (utf8_char : List Nat) : List Nat :=
  if strcmp utf8_char [10] = 0 then [92, 110]
  else if strcmp utf8_char [9] = 0 then [92, 116]
  else if strcmp utf8_char [13] = 0 then [92, 114]
  else utf8_char

/-- Lines 97-104: the first entry whose symbol equals `utf8_char` is incremented;
`none` when no entry matches (`found == 0`). -/
def increment_found (utf8_char : List Nat) : List Symbol → Option (List Symbol)
  | [] => none
  | e :: es =>
    if strcmp e.symbol utf8_char = 0 then some ({ e with count := e.count + 1 } :: es)
    else (increment_found utf8_char es).map (fun t => e :: t)

/-- Lines 96-111: one observation of a token.  A new entry is stored in the next
zero-initialised slot when the table has room. -/
def observe (symbols : List Symbol) (utf8_char : List Nat) : List Symbol :=
  match increment_found utf8_char symbols with
  | some t => t
  | none =>
    if symbols.length < TOTAL_SYMBOLS then symbols ++ [⟨utf8_char, 1, 0, []⟩]
    else symbols

/-- Lines 70-114: the reading loop, returning the table and `total_count`.  Every
iteration consumes at least one byte, so `fuel = input.length` suffices. -/
def calculate_frequency_loop : Nat → List Nat → List Symbol → Nat → List Symbol × Nat
  | 0, _, symbols, total_count => (symbols, total_count)
  | _ + 1, [], symbols, total_count => (symbols, total_count)
  | fuel + 1, c :: rest, symbols, total_count =>
    let r := read_symbol_freq c rest
    calculate_frequency_loop fuel r.2 (observe symbols (escape_special (cstr r.1)))
      (total_count + 1)

/-- Lines 65-120, started on the empty table. -/
def calculate_frequency (input : List Nat) : List Symbol :=
  let r := calculate_frequency_loop input.length input [] 0
  r.1.map (fun e => { e with probability := (e.count : ℚ) / (r.2 : ℚ) })

/-- Lines 125-136. -/
def compare (a b : Symbol) : Int :=
  if a.count ≠ b.count then (a.count : Int) - (b.count : Int)
  else strcmp a.symbol b.symbol

/-- Lines 145-148: `n` rounds of the inner loop; round `j` writes position
`bit_length - 1 - j`, so the characters written so far are `acc`. -/
def codeword_loop : Nat → Nat → List Nat → List Nat
  | 0, _, acc => acc
  | n + 1, codeword, acc =>
    codeword_loop n (codeword >>> 1) ((if codeword &&& 1 ≠ 0 then 49 else 48) :: acc)

/-- Codeword string written for rank `i` (lines 142-149). -/
def codeword_of (i : Nat) : List Nat :=
  codeword_loop 7 i []

/-- Lines 141-150, from rank `i` on. -/
def generate_codewords_from (i : Nat) : List Symbol → List Symbol
  | [] => []
  | e :: es => { e with codeword := codeword_of i } :: generate_codewords_from (i + 1) es

/-- Lines 140-151. -/
def generate_codewords (symbols : List Symbol) : List Symbol :=
  generate_codewords_from 0 symbols

/-- One line of the codebook file (line 162). -/
def codebook_line (e : Symbol) : List Nat :=
  [91] ++ e.symbol ++ [93, 44] ++ print_d e.count ++ [44] ++ print_f7 e.probability ++
    [44] ++ e.codeword ++ [10]

/-- Lines 154-165: the content of the codebook file. -/
def write_codebook : List Symbol → List Nat
  | [] => []
  | e :: es => codebook_line e ++ write_codebook es

/-- Lines 179-187: the tokenizer of the encoding pass. -/
def read_symbol_enc (c : Nat) (rest : List Nat) : List Nat × List Nat :=
  if c &&& 0x80 = 0 then ([c], rest)
  else if c &&& 0xF0 = 0xE0 then
    let r1 := fgetc_char rest
    let r2 := fgetc_char r1.2
    ([c, r1.1, r2.1], r2.2)
  else ([], rest)

/-- State of the bit packer: `buffer`, `buffer_len` and the bytes written so far. -/
structure BitWriter where
  buffer : Nat
  buffer_len : Nat
  out : List Nat
deriving DecidableEq

/-- Lines 201-210 for one codeword character `ch`.  `buffer` is an `unsigned char`, so
the assignment keeps the low 8 bits; `(ch + 208) % 256` is `ch - '0'` modulo 256. -/
def put_bit (w : BitWriter) (ch : Nat) : BitWriter :=
  let buffer := ((w.buffer <<< 1) % 256) ||| ((ch + 208) % 256)
  if w.buffer_len + 1 = 8 then ⟨0, 0, w.out ++ [buffer]⟩
  else ⟨buffer, w.buffer_len + 1, w.out⟩

/-- Lines 196-214: the codeword of the first entry whose symbol equals `utf8_char`. -/
def find_codeword (utf8_char : List Nat) : List Symbol → Option (List Nat)
  | [] => none
  | e :: es =>
    if strcmp e.symbol utf8_char = 0 then some e.codeword else find_codeword utf8_char es

/-- Lines 195-214 for one token. -/
def encode_symbol (symbols : List Symbol) (w : BitWriter) (utf8_char : List Nat) :
    BitWriter :=
  match find_codeword utf8_char symbols with
  | some cw => cw.foldl put_bit w
  | none => w

/-- Lines 178-215. -/
def encode_loop : Nat → List Nat → List Symbol → BitWriter → BitWriter
  | 0, _, _, w => w
  | _ + 1, [], _, w => w
  | fuel + 1, c :: rest, symbols, w =>
    let r := read_symbol_enc c rest
    encode_loop fuel r.2 symbols (encode_symbol symbols w (escape_special (cstr r.1)))

/-- Lines 168-225: the bytes of the encoded file. -/
def encode_to_binary (symbols : List Symbol) (input : List Nat) : List Nat :=
  let w := encode_loop input.length input symbols ⟨0, 0, []⟩
  if 0 < w.buffer_len then w.out ++ [(w.buffer <<< (8 - w.buffer_len)) % 256] else w.out

/-! ## Decoder -/

/-- Characters stored by `fgets` when `room` more characters fit: it stops after a
newline, at the end of the stream or when the room is used up.  Second component: the
rest of the stream. -/
def fgets_aux : Nat → List Nat → List Nat × List Nat
  | 0, stream => ([], stream)
  | _ + 1, [] => ([], [])
  | room + 1, c :: stream =>
    if c = 10 then ([c], stream)
    else ((c :: (fgets_aux room stream).1), (fgets_aux room stream).2)

/-- Buffer content after `fgets(line, size, file)` on a stream that is not at its end. -/
def fgets (size : Nat) (stream : List Nat) : List Nat × List Nat :=
  fgets_aux (size - 1) stream

/-- Line 315: the line cut at its first CR or LF. -/
def strip_eol (line : List Nat) : List Nat :=
  line.takeWhile (fun c => c != 13 && c != 10)

/-- Lines 318-322: the tokens returned by the successive `strtok(.., ",")` calls, which
are the maximal non-empty runs of characters other than `','`.  `cur` is the run being
scanned. -/
def strtok_fields : List Nat → List Nat → List (List Nat)
  | [], cur => if cur = [] then [] else [cur]
  | c :: s, cur =>
    if c = 44 then (if cur = [] then strtok_fields s [] else cur :: strtok_fields s [])
    else strtok_fields s (cur ++ [c])

/-- Index of the first occurrence of `c`, as found by `strchr`. -/
def strchr (c : Nat) : List Nat → Option Nat
  | [] => none
  | x :: s => if x = c then some 0 else (strchr c s).map (fun k => k + 1)

/-- Lines 274-295: the string left in `symbol`.  The `strncpy` of line 283 copies the
bracket text to the start of the buffer it lies in; the result given here is that of a
copy which reads each character before it is overwritten, as for the short symbols
(at most 4 bytes) that `write_codebook` writes. -/
def extract_symbol (symbol : List Nat) (default_symbol : Nat) : List Nat :=
  match strchr 91 symbol, strchr 93 symbol with
  | some start, some stop =>
    if start < stop then
      let length := stop - (start + 1)
      if 0 < length then (symbol.drop (start + 1)).take length
      else [default_symbol]
    else [default_symbol]
  | _, _ => [default_symbol]

/-- Lines 324-333: the entry stored for the fields of one line, if any.  Each `strncpy`
writes into a zero-initialised slot of the global array, so the stored string is the
first 31 characters of the source. -/
def entry_of_fields (fields : List (List Nat)) : Option CodebookEntry :=
  if 4 ≤ fields.length then
    let default_symbol := if fields.length = 4 then 93 else 44
    some ⟨(extract_symbol (fields.headD []) default_symbol).take 31,
          (fields.getLastD []).take 31⟩
  else none

/-- Fields of the line held in the buffer filled by `fgets` (lines 315-322). -/
def line_fields (chunk : List Nat) : List (List Nat) :=
  strtok_fields (strip_eol (cstr chunk)) []

/-- Lines 314-334.  `none` stands for a write outside `fields[10]` or outside
`codebook[MAX_ENTRIES]` (undefined behaviour), and for exhausted fuel; every iteration
consumes at least one character, so `fuel = stream.length + 1` suffices. -/
def load_codebook_loop : Nat → List Nat → List CodebookEntry → Option (List CodebookEntry)
  | 0, _, _ => none
  | _ + 1, [], codebook => some codebook
  | fuel + 1, c :: stream, codebook =>
    let r := fgets 1024 (c :: stream)
    let fields := line_fields r.1
    if 10 < fields.length then none
    else
      match entry_of_fields fields with
      | none => load_codebook_loop fuel r.2 codebook
      | some e =>
        if codebook.length < MAX_ENTRIES then load_codebook_loop fuel r.2 (codebook ++ [e])
        else none

/-- Lines 306-336 on the content of the codebook file. -/
def load_codebook (file : List Nat) : Option (List CodebookEntry) :=
  load_codebook_loop (file.length + 1) file []

/-- Lines 353-355: the eight characters appended to `bitstream` for one byte. -/
def byte_bits (byte : Nat) : List Nat :=
  [7, 6, 5, 4, 3, 2, 1, 0].map (fun i => if byte &&& (1 <<< i) ≠ 0 then 49 else 48)

/-- Lines 352-356: `bitstream[0 .. bit_index)`.  The array has `MAX_BITSTREAM_SIZE`
characters and is filled without a bound check: the list is the content of the array only
for files of at most `MAX_BITSTREAM_SIZE / 8` bytes (see `decode_binary`). -/
def expand_bits : List Nat → List Nat
  | [] => []
  | byte :: rest => byte_bits byte ++ expand_bits rest

/-- Lines 361-364: value of the window starting at `i`. -/
def window_value (bitstream : List Nat) (i : Nat) : Nat :=
  (List.range 7).foldl (fun value k => (value <<< 1) ||| (bitstream.getD (i + k) 0 - 48)) 0

/-- Value of a `char` holding byte `b` (signed, as on x86). -/
def char_value (b : Nat) : Int :=
  if b < 128 then (b : Int) else (b : Int) - 256

/-- Lines 373-376: `code_value` of a codebook entry; characters past the end of the string
are NUL.  A digit `code[m] - '0'` that is negative makes the `int` negative for good, and
a negative `code_value` equals no window value: this case is `none`. -/
def code_value (code : List Nat) : Option Nat :=
  (List.range 7).foldl
    (fun value m =>
      match value with
      | none => none
      | some v =>
        if char_value (code.getD m 0) - 48 < 0 then none
        else some ((v <<< 1) ||| (char_value (code.getD m 0) - 48).toNat))
    (some 0)

/-- Lines 372-404: the first entry whose `code_value` equals `value`. -/
def find_entry (value : Nat) : List CodebookEntry → Option CodebookEntry
  | [] => none
  | e :: es => if code_value e.code = some value then some e else find_entry value es

/-- Lines 381-401: the bytes written for a resolved entry and the value of `i`
afterwards. -/
def emit_symbol (bitstream : List Nat) (i : Nat) (e : CodebookEntry) : List Nat × Nat :=
  if strcmp e.symbol [92, 114] = 0 then
    ([], if bitstream.getD (i + 1) 0 = 10 then i + 1 else i)
  else if strcmp e.symbol [92, 110] = 0 then ([10], i)
  else if strcmp e.symbol [92, 116] = 0 then ([9], i)
  else (e.symbol, i)

/-- Lines 360-405: one iteration of the window loop, entered with loop index `i`.
`none` when the loop ends here, because the condition `i + 7 <= bit_index` fails or the
`break` of line 368 is taken; otherwise the bytes written by the iteration and the value
of `i` at the start of the next one (after `i += 7`). -/
def decode_step (bitstream : List Nat) (codebook : List CodebookEntry) (i : Nat) :
    Option (List Nat × Nat) :=
  if i + 7 ≤ bitstream.length then
    if window_value bitstream i = 0 ∧ i + 7 = bitstream.length then none
    else
      match find_entry (window_value bitstream i) codebook with
      | none => some ([], i + 7)
      | some e => some ((emit_symbol bitstream i e).1, (emit_symbol bitstream i e).2 + 7)
  else none

/-- Lines 360-405: the window loop from index `i`, with `out` written so far, as the
iteration of `decode_step`.  `none` only when the fuel runs out; `i` grows by at least 7
per iteration. -/
def decode_loop : Nat → List Nat → List CodebookEntry → Nat → List Nat → Option (List Nat)
  | 0, _, _, _, _ => none
  | fuel + 1, bitstream, codebook, i, out =>
    match decode_step bitstream codebook i with
    | none => some out
    | some r => decode_loop fuel bitstream codebook r.2 (out ++ r.1)

/-- Lines 339-408: the content of the output file.  `none` when the encoded file does not
fit `bitstream[MAX_BITSTREAM_SIZE]` (undefined behaviour). -/
def decode_binary (codebook : List CodebookEntry) (encoded : List Nat) :
    Option (List Nat) :=
  if MAX_BITSTREAM_SIZE < 8 * encoded.length then none
  else decode_loop (8 * encoded.length + 1) (expand_bits encoded) codebook 0 []

/-! ## The two programs -/

/-- The table after lines 46-53 of the encoder's `main`. -/
def ranked_table (input : List Nat) : List Symbol :=
  generate_codewords (qsort compare (calculate_frequency input))

/-- Encoder `main` (lines 28-63): the codebook file and the encoded file. -/
def encoder_main (input : List Nat) : List Nat × List Nat :=
  (write_codebook (ranked_table input), encode_to_binary (ranked_table input) input)

/-- Decoder `main` (lines 250-271): the output file. -/
def decoder_main (codebook_file encoded : List Nat) : Option (List Nat) :=
  match load_codebook codebook_file with
  | none => none
  | some codebook => decode_binary codebook encoded

/-! ## Notions used to state the properties -/

/-- Number denoted by a string of binary digit characters, most significant first. -/
def bits_value (cw : List Nat) : Nat :=
  cw.foldl (fun v c => 2 * v + (c - 48)) 0

/-- Token stream of the counting pass: the symbols that `calculate_frequency` looks up,
in order (lines 70-94). -/
def tokens_freq : Nat → List Nat → List (List Nat)
  | 0, _ => []
  | _ + 1, [] => []
  | fuel + 1, c :: rest =>
    escape_special (cstr (read_symbol_freq c rest).1) ::
      tokens_freq fuel (read_symbol_freq c rest).2

/-- Token stream of the counting pass for a whole input. -/
def freq_tokens (input : List Nat) : List (List Nat) :=
  tokens_freq input.length input

/-- Token stream of the encoding pass: the symbols that `encode_to_binary` looks up, in
order (lines 178-193). -/
def tokens_enc : Nat → List Nat → List (List Nat)
  | 0, _ => []
  | _ + 1, [] => []
  | fuel + 1, c :: rest =>
    escape_special (cstr (read_symbol_enc c rest).1) ::
      tokens_enc fuel (read_symbol_enc c rest).2

/-- Token stream of the encoding pass for a whole input. -/
def enc_tokens (input : List Nat) : List (List Nat) :=
  tokens_enc input.length input

/-- The distinct elements of a token stream, each once, in order of first occurrence. -/
def first_occurrences : List (List Nat) → List (List Nat)
  | [] => []
  | t :: ts => t :: (first_occurrences ts).filter (fun s => decide (s ≠ t))

/-- Sum of the counts of the entries of a table that carry symbol `s`. -/
def symbol_count_of (symbols : List Symbol) (s : List Nat) : Nat :=
  ((symbols.filter (fun e => decide (e.symbol = s))).map Symbol.count).sum

/-- Input with 1025 distinct two-byte tokens `0xC0 + i / 64`, `0x80 + i % 64`, for
`i = 0 .. 1024`: one more than the table holds. -/
def many_symbols_input : List Nat :=
  (List.range 1025).foldr (fun i acc => (0xC0 + i / 64) :: (0x80 + i % 64) :: acc) []

/-- The `n` low bits of `v` as characters `'0'`/`'1'`, most significant first. -/
def nat_bits : Nat → Nat → List Nat
  | 0, _ => []
  | n + 1, v => nat_bits n (v / 2) ++ [48 + v % 2]

/-- Bits held by the packer: the bytes written, expanded MSB-first, followed by the
`buffer_len` bits waiting in `buffer`. -/
def writer_bits (w : BitWriter) : List Nat :=
  expand_bits w.out ++ nat_bits w.buffer_len w.buffer

/-- Concatenation of a list of codewords (or of any list of byte strings). -/
def concat_codewords : List (List Nat) → List Nat
  | [] => []
  | cw :: rest => cw ++ concat_codewords rest

/-- Codewords of the tokens of the encoding pass that are found in the table, in input
order (tokens that are not found contribute nothing). -/
def found_codewords (symbols : List Symbol) (input : List Nat) : List (List Nat) :=
  (enc_tokens input).filterMap (fun t => find_codeword t symbols)

/-- A codeword as written by `generate_codewords`: seven characters `'0'` or `'1'`. -/
def is_codeword (cw : List Nat) : Prop :=
  cw.length = 7 ∧ ∀ c ∈ cw, c = 48 ∨ c = 49

/-- A text that `strtok` returns as one field of a codebook line: not empty, and free of
NUL, LF, CR and `','`. -/
def field_ok (f : List Nat) : Prop :=
  f ≠ [] ∧ ∀ c ∈ f, c ≠ 0 ∧ c ≠ 10 ∧ c ≠ 13 ∧ c ≠ 44

/-- Symbols that the bracket format of the codebook can carry: the single characters
`','` and `']'`, and every non-empty string without `','`, `']'`, LF and CR. -/
def serializable (s : List Nat) : Prop :=
  s = [44] ∨ s = [93] ∨ (s ≠ [] ∧ ∀ c ∈ s, c ≠ 44 ∧ c ≠ 93 ∧ c ≠ 10 ∧ c ≠ 13)

/-- The codebook entry that corresponds to a table entry. -/
def to_codebook_entry (e : Symbol) : CodebookEntry :=
  ⟨e.symbol, e.codeword⟩
/-- A table entry whose codebook line is read back unchanged: the symbol fits the bracket
format, the printed fields are plain, and the line fits the buffer of `fgets`. -/
def line_ok (e : Symbol) : Prop :=
  serializable e.symbol ∧ (∀ c ∈ e.symbol, c ≠ 0) ∧ e.symbol.length ≤ 31 ∧
  field_ok (print_d e.count) ∧ field_ok (print_f7 e.probability) ∧
  field_ok e.codeword ∧ e.codeword.length ≤ 31 ∧
  e.symbol.length + (print_d e.count).length + (print_f7 e.probability).length +
    e.codeword.length + 6 ≤ 1023

/-- Bytes written by `decode_binary` for a resolved symbol (lines 381-401). -/
def expand_symbol (symbol : List Nat) : List Nat :=
  if strcmp symbol [92, 114] = 0 then []
  else if strcmp symbol [92, 110] = 0 then [10]
  else if strcmp symbol [92, 116] = 0 then [9]
  else symbol

/-- A byte that may follow the leading byte of a three-byte token: any byte other than
NUL, LF, CR, `','` and `']'` (every UTF-8 continuation byte qualifies). -/
def plain_byte (b : Nat) : Prop :=
  b ≠ 0 ∧ b ≠ 10 ∧ b ≠ 13 ∧ b ≠ 44 ∧ b ≠ 93

/-- Inputs made of the tokens that both passes of the encoder read alike and that the
codebook format carries: single bytes `0x01 .. 0x7F`, and three-byte sequences whose
leading byte is `1110xxxx` and whose two other bytes are plain. -/
inductive encodable : List Nat → Prop
  | nil : encodable []
  | ascii (c : Nat) (rest : List Nat) :
      0 < c → c < 128 → encodable rest → encodable (c :: rest)
  | three (c b1 b2 : Nat) (rest : List Nat) :
      224 ≤ c → c < 240 → plain_byte b1 → plain_byte b2 → encodable rest →
      encodable (c :: b1 :: b2 :: rest)

/-- The first table entry that carries symbol `t`. -/
def lookup_symbol (symbols : List Symbol) (t : List Nat) : Option Symbol :=
  symbols.find? (fun e => decide (e.symbol = t))

/-- A full table: 1024 entries, one for each of the two-byte symbols `0xC0 + i / 64`,
`0x80 + i % 64` with `i < 1024`, each counted once. -/
def full_table : List Symbol :=
  (List.range 1024).map (fun i => (⟨[0xC0 + i / 64, 0x80 + i % 64], 1, 0, []⟩ : Symbol))

/-- Text between the first `'['` and the first `']'` of a field, when both occur and the
first `'['` comes before the first `']'` (the wording of the specification). -/
def bracket_text (f : List Nat) : Option (List Nat) :=
  if 91 ∈ f ∧ 93 ∈ f ∧ 93 ∉ f.takeWhile (fun c => c != 91) then
    some (((f.dropWhile (fun c => c != 91)).drop 1).takeWhile (fun c => c != 93))
  else none

/-- Symbol stored for the first field `f` of a line with placeholder `d`: the bracket
text when there is one and it is not empty, the placeholder otherwise. -/
def symbol_of_field (f : List Nat) (d : Nat) : List Nat :=
  match bracket_text f with
  | some t => if t = [] then [d] else t
  | none => [d]

/-- The windows examined by the loop of `decode_binary`, in order: the loop indices `i` of
the iterations that `decode_loop` runs through with `i + 7 <= bit_index`, each with the
flag that tells whether `decode_step` goes on to resolve the window against the codebook
(`true`) or ends the loop at the test of line 367 (`false`). -/
def decode_windows : Nat → List Nat → List CodebookEntry → Nat → List (Nat × Bool)
  | 0, _, _, _ => []
  | fuel + 1, bitstream, codebook, i =>
    if i + 7 ≤ bitstream.length then
      match decode_step bitstream codebook i with
      | none => [(i, false)]
      | some r => (i, true) :: decode_windows fuel bitstream codebook r.2
    else []

/-- Bytes written for the window at offset `7 * j` under the boundary rule: nothing for
an all-zero window that ends at the last bit, and otherwise the expansion of the first
codebook entry whose code has the value of the window, if there is one. -/
def window_output (codebook : List CodebookEntry) (bitstream : List Nat) (j : Nat) :
    List Nat :=
  if window_value bitstream (7 * j) = 0 ∧ 7 * j + 7 = bitstream.length then []
  else
    match find_entry (window_value bitstream (7 * j)) codebook with
    | none => []
    | some e => expand_symbol e.symbol

/-- The seven characters of the window that starts at index `i`. -/
def window_bits (bitstream : List Nat) (i : Nat) : List Nat :=
  (bitstream.drop i).take 7

/-- The windows of a trace of `decode_windows` that are resolved against the codebook,
as bit strings, in order. -/
def resolved_windows (trace : List (Nat × Bool)) (bitstream : List Nat) :
    List (List Nat) :=
  (trace.filter (fun p => p.2)).map (fun p => window_bits bitstream p.1)

/-- The tokens that are found in the table, in order: those equal to the symbol of some
entry of the table (the wording of the claim on the encoded format). -/
def tokens_in_table (symbols : List Symbol) (tokens : List (List Nat)) : List (List Nat) :=
  tokens.filter (fun t => decide (t ∈ symbols.map Symbol.symbol))

/-- The codewords of the tokens found in the table, in order: for each such token the
codeword of the first table entry that carries it. -/
def table_codewords (symbols : List Symbol) (tokens : List (List Nat)) :
    List (List Nat) :=
  (tokens_in_table symbols tokens).map
    (fun t => ((lookup_symbol symbols t).map Symbol.codeword).getD [])

/-- The first codebook entry whose code has the integer value `v` (the wording of the
boundary rule: a window is resolved against the codebook by integer value). -/
def entry_with_value (codebook : List CodebookEntry) (v : Nat) : Option CodebookEntry :=
  codebook.find? (fun e => decide (code_value e.code = some v))

/-- Bytes written for a window with bit string `w` that is resolved against the codebook:
for the first entry whose code has the integer value that `w` denotes, nothing when its
symbol is backslash-r, a newline for backslash-n, a tab for backslash-t and the symbol
itself otherwise; nothing when no entry has that value. -/
def resolved_output (codebook : List CodebookEntry) (w : List Nat) : List Nat :=
  match entry_with_value codebook (bits_value w) with
  | none => []
  | some e =>
    if e.symbol = [92, 114] then [] else if e.symbol = [92, 110] then [10]
    else if e.symbol = [92, 116] then [9] else e.symbol

/-- The lines of a codebook file as `load_codebook` reads them: what the successive calls
`fgets(line, 1024, file)` of line 314 store, up to the end of the file (a line of more
than 1023 characters is read in several pieces). -/
def file_lines : Nat → List Nat → List (List Nat)
  | 0, _ => []
  | _ + 1, [] => []
  | fuel + 1, c :: stream =>
    (fgets 1024 (c :: stream)).1 :: file_lines fuel (fgets 1024 (c :: stream)).2

/-- The entry that a line with the given fields adds to the codebook, in the words of the
claim: none when there are fewer than 4 fields; otherwise the entry whose code is the
first 31 characters of the last field and whose symbol is the bracket text of the first
field when there is one and it is not empty, and otherwise the placeholder `]` for
exactly 4 fields and `,` for more. -/
def line_entry (fields : List (List Nat)) : Option CodebookEntry :=
  if fields.length < 4 then none
  else
    some ⟨symbol_of_field (fields.headD []) (if fields.length = 4 then 93 else 44),
          (fields.getLastD []).take 31⟩

/-- The fields of a line in the words of the claim: the line, cut at its first NUL, CR or
LF, is split on `','`, and the empty pieces are left out (as `strtok` leaves them out). -/
def comma_fields (line : List Nat) : List (List Nat) :=
  ((line.takeWhile (fun c => c != 0 && c != 13 && c != 10)).splitOn 44).filter
    (fun f => f != [])

/-! # Theorems -/

/-! ## Codeword assignment -/

theorem codeword_of_eq (i : Nat) :
    codeword_of i =
      [48 + i / 64 % 2, 48 + i / 32 % 2, 48 + i / 16 % 2, 48 + i / 8 % 2, 48 + i / 4 % 2,
       48 + i / 2 % 2, 48 + i % 2] := by
  have key : ∀ n : Nat, (if n &&& 1 ≠ 0 then 49 else 48) = 48 + n % 2 := by
    intro n
    rw [Nat.and_one_is_mod]
    rcases Nat.mod_two_eq_zero_or_one n with h | h <;> simp [h]
  simp only [codeword_of, codeword_loop, key, Nat.shiftRight_eq_div_pow,
    Nat.div_div_eq_div_mul]

theorem bits_value_codeword_of (i : Nat) : bits_value (codeword_of i) = i % 128 := by
  rw [codeword_of_eq]
  have h : ∀ a b : Nat, 2 * a + (48 + b - 48) = 2 * a + b := by
    intro a b; omega
  simp only [bits_value, List.foldl, h]
  omega

theorem codeword_of_mod (i : Nat) : codeword_of (i % 128) = codeword_of i := by
  rw [codeword_of_eq, codeword_of_eq]
  have h1 : i % 128 / 64 % 2 = i / 64 % 2 := by omega
  have h2 : i % 128 / 32 % 2 = i / 32 % 2 := by omega
  have h3 : i % 128 / 16 % 2 = i / 16 % 2 := by omega
  have h4 : i % 128 / 8 % 2 = i / 8 % 2 := by omega
  have h5 : i % 128 / 4 % 2 = i / 4 % 2 := by omega
  have h6 : i % 128 / 2 % 2 = i / 2 % 2 := by omega
  have h7 : i % 128 % 2 = i % 2 := by omega
  rw [h1, h2, h3, h4, h5, h6, h7]

theorem codeword_of_eq_iff (i j : Nat) :
    codeword_of i = codeword_of j ↔ i % 128 = j % 128 := by
  constructor
  · intro h
    rw [← bits_value_codeword_of i, ← bits_value_codeword_of j, h]
  · intro h
    rw [← codeword_of_mod i, ← codeword_of_mod j, h]

theorem codeword_of_length (i : Nat) : (codeword_of i).length = 7 := by
  rw [codeword_of_eq]; rfl

theorem codeword_of_chars (i : Nat) : ∀ c ∈ codeword_of i, c = 48 ∨ c = 49 := by
  rw [codeword_of_eq]
  intro c hc
  simp only [List.mem_cons, List.mem_singleton, List.not_mem_nil, or_false] at hc
  omega

theorem generate_codewords_from_getElem? (k : Nat) (symbols : List Symbol) (i : Nat) :
    (generate_codewords_from k symbols)[i]? =
      symbols[i]?.map (fun e => { e with codeword := codeword_of (k + i) }) := by
  induction symbols generalizing k i with
  | nil => simp [generate_codewords_from]
  | cons e es ih =>
    cases i with
    | zero => simp [generate_codewords_from]
    | succ i =>
      simp only [generate_codewords_from, List.getElem?_cons_succ, ih]
      congr 2
      funext e
      congr 2
      omega

theorem generate_codewords_from_length (k : Nat) (symbols : List Symbol) :
    (generate_codewords_from k symbols).length = symbols.length := by
  induction symbols generalizing k with
  | nil => rfl
  | cons e es ih => simp [generate_codewords_from, ih]

theorem generate_codewords_getElem? (symbols : List Symbol) (i : Nat) :
    (generate_codewords symbols)[i]? =
      symbols[i]?.map (fun e => { e with codeword := codeword_of i }) := by
  simp [generate_codewords, generate_codewords_from_getElem?]

/-- C6: `generate_codewords` never rejects a table (the result has as many entries as the
input), and two ranks below `symbol_count` get the same codeword if and only if they are
congruent modulo 128; so distinct ranks up to 127 get distinct codewords and ranks from
128 on collide with earlier ones. -/
theorem generate_codewords_collision (symbols : List Symbol) (i j : Nat)
    (hi : i < symbols.length) (hj : j < symbols.length) :
    (generate_codewords symbols).length = symbols.length ∧
    (((generate_codewords symbols)[i]?.map Symbol.codeword =
        (generate_codewords symbols)[j]?.map Symbol.codeword) ↔ i % 128 = j % 128) := by
  refine ⟨generate_codewords_from_length 0 symbols, ?_⟩
  rw [generate_codewords_getElem?, generate_codewords_getElem?,
    List.getElem?_eq_getElem hi, List.getElem?_eq_getElem hj]
  simp only [Option.map_some', Option.some.injEq]
  exact codeword_of_eq_iff i j

theorem generate_codewords_collision_witness :
    (0 < (List.replicate 129 (⟨[97], 1, 0, []⟩ : Symbol)).length ∧
      128 < (List.replicate 129 (⟨[97], 1, 0, []⟩ : Symbol)).length) ∧
    ((generate_codewords (List.replicate 129 (⟨[97], 1, 0, []⟩ : Symbol))).length =
        (List.replicate 129 (⟨[97], 1, 0, []⟩ : Symbol)).length ∧
      (((generate_codewords (List.replicate 129 (⟨[97], 1, 0, []⟩ : Symbol)))[0]?.map
            Symbol.codeword =
          (generate_codewords (List.replicate 129 (⟨[97], 1, 0, []⟩ : Symbol)))[128]?.map
            Symbol.codeword) ↔ 0 % 128 = 128 % 128)) :=
  ⟨by simp, generate_codewords_collision _ 0 128 (by simp) (by simp)⟩

/-! ## The scenario of the specification -/

/-- C2: on the input `a b LF a b` the counting pass yields a:2, b:2, backslash-n:1; the
ranking yields backslash-n, a, b with codewords 0000000, 0000001, 0000010; the packer
emits the codewords of a, b, LF, a, b in input order, MSB-first with five zero padding
bits, as the bytes 02 08 00 10 40; and the decoder, with the matching codebook (also as
reloaded from the written codebook file), outputs `a b LF a b`. -/
theorem scenario_ab_lf_ab :
    (calculate_frequency [97, 98, 10, 97, 98]).map (fun e => (e.symbol, e.count)) =
      [([97], 2), ([98], 2), ([92, 110], 1)] ∧
    (qsort compare (calculate_frequency [97, 98, 10, 97, 98])).map Symbol.symbol =
      [[92, 110], [97], [98]] ∧
    (ranked_table [97, 98, 10, 97, 98]).map (fun e => (e.symbol, e.codeword)) =
      [([92, 110], [48, 48, 48, 48, 48, 48, 48]), ([97], [48, 48, 48, 48, 48, 48, 49]),
       ([98], [48, 48, 48, 48, 48, 49, 48])] ∧
    encode_to_binary (ranked_table [97, 98, 10, 97, 98]) [97, 98, 10, 97, 98] =
      [0x02, 0x08, 0x00, 0x10, 0x40] ∧
    expand_bits [0x02, 0x08, 0x00, 0x10, 0x40] =
      [48, 48, 48, 48, 48, 48, 49] ++ [48, 48, 48, 48, 48, 49, 48] ++
      [48, 48, 48, 48, 48, 48, 48] ++ [48, 48, 48, 48, 48, 48, 49] ++
      [48, 48, 48, 48, 48, 49, 48] ++ [48, 48, 48, 48, 48] ∧
    load_codebook (write_codebook (ranked_table [97, 98, 10, 97, 98])) =
      some [⟨[92, 110], [48, 48, 48, 48, 48, 48, 48]⟩, ⟨[97], [48, 48, 48, 48, 48, 48, 49]⟩,
        ⟨[98], [48, 48, 48, 48, 48, 49, 48]⟩] ∧
    decode_binary [⟨[92, 110], [48, 48, 48, 48, 48, 48, 48]⟩,
        ⟨[97], [48, 48, 48, 48, 48, 48, 49]⟩, ⟨[98], [48, 48, 48, 48, 48, 49, 48]⟩]
        [0x02, 0x08, 0x00, 0x10, 0x40] = some [97, 98, 10, 97, 98] := by
  decide!

/-! ## String comparison -/

theorem strcmp_self (s : List Nat) : strcmp s s = 0 := by
  induction s with
  | nil => rfl
  | cons a s ih => simp [strcmp, ih]

theorem strcmp_eq_zero_iff (s t : List Nat) : strcmp s t = 0 ↔ s = t := by
  constructor
  · intro h
    induction s generalizing t with
    | nil => cases t with
      | nil => rfl
      | cons b t => simp [strcmp] at h
    | cons a s ih => cases t with
      | nil => simp [strcmp] at h
      | cons b t =>
        simp only [strcmp] at h
        by_cases hab : a = b
        · simp only [hab, if_true] at h
          rw [hab, ih t h]
        · simp only [hab, if_false] at h
          split at h <;> simp at h
  · intro h
    rw [h]; exact strcmp_self t

theorem strcmp_lt_iff_lex (s t : List Nat) :
    strcmp s t < 0 ↔ List.Lex (fun a b => a < b) s t := by
  induction s generalizing t with
  | nil => cases t with
    | nil => simp [strcmp]
    | cons b t => simp [strcmp, List.Lex.nil]
  | cons a s ih => cases t with
    | nil => simp [strcmp]
    | cons b t =>
      simp only [strcmp]
      by_cases hab : a = b
      · subst hab
        simp only [if_true, ih t]
        constructor
        · intro h; exact List.Lex.cons h
        · intro h
          cases h with
          | cons h => exact h
          | rel h => exact absurd h (Nat.lt_irrefl _)
      · simp only [hab, if_false]
        by_cases hlt : a < b
        · simp only [hlt, if_true]
          constructor
          · intro _; exact List.Lex.rel hlt
          · intro _; decide
        · simp only [hlt, if_false]
          constructor
          · intro h; exact absurd h (by decide)
          · intro h
            cases h with
            | cons h => exact absurd rfl hab
            | rel h => exact absurd h hlt

theorem strcmp_total (s t : List Nat) : strcmp s t ≤ 0 ∨ strcmp t s ≤ 0 := by
  induction s generalizing t with
  | nil => cases t <;> simp [strcmp]
  | cons a s ih => cases t with
    | nil => simp [strcmp]
    | cons b t =>
      simp only [strcmp]
      by_cases hab : a = b
      · subst hab; simpa using ih t
      · have hba : ¬ b = a := fun h => hab h.symm
        simp only [hab, hba, if_false]
        by_cases hlt : a < b
        · simp [hlt]
        · have : b < a := by omega
          simp [hlt, this]

theorem strcmp_trans (s t u : List Nat) (h1 : strcmp s t ≤ 0) (h2 : strcmp t u ≤ 0) :
    strcmp s u ≤ 0 := by
  induction s generalizing t u with
  | nil => cases u <;> simp [strcmp]
  | cons a s ih => cases t with
    | nil => simp [strcmp] at h1
    | cons b t => cases u with
      | nil => simp [strcmp] at h2
      | cons c u =>
        simp only [strcmp] at h1 h2 ⊢
        by_cases hab : a = b
        · subst hab
          simp only [if_true] at h1
          by_cases hac : a = c
          · subst hac
            simp only [if_true] at h2 ⊢
            exact ih t u h1 h2
          · simp only [hac, if_false] at h2 ⊢
            exact h2
        · simp only [hab, if_false] at h1
          have hlt : a < b := by
            by_contra hn
            simp [hn] at h1
          by_cases hbc : b = c
          · subst hbc
            simp [hab, hlt]
          · simp only [hbc, if_false] at h2
            have hlt2 : b < c := by
              by_contra hn
              simp [hn] at h2
            have hac : a < c := by omega
            have hne : ¬ a = c := by omega
            simp [hne, hac]

theorem strcmp_antisymm (s t : List Nat) (h1 : strcmp s t ≤ 0) (h2 : strcmp t s ≤ 0) :
    s = t := by
  induction s generalizing t with
  | nil => cases t with
    | nil => rfl
    | cons b t => simp [strcmp] at h2
  | cons a s ih => cases t with
    | nil => simp [strcmp] at h1
    | cons b t =>
      simp only [strcmp] at h1 h2
      by_cases hab : a = b
      · subst hab
        simp only [if_true] at h1 h2
        rw [ih t h1 h2]
      · have hba : ¬ b = a := fun h => hab h.symm
        simp only [hab, hba, if_false] at h1 h2
        exfalso
        by_cases hlt : a < b
        · have : ¬ b < a := by omega
          simp [this] at h2
        · simp [hlt] at h1

/-! ## Ranking -/

theorem compare_le_iff (a b : Symbol) :
    compare a b ≤ 0 ↔
      a.count < b.count ∨ (a.count = b.count ∧ strcmp a.symbol b.symbol ≤ 0) := by
  unfold compare
  by_cases h : a.count = b.count
  · simp [h]
  · simp only [ne_eq, h, not_false_eq_true, if_true, false_and, or_false]
    omega

theorem compare_total (a b : Symbol) : compare a b ≤ 0 ∨ compare b a ≤ 0 := by
  rw [compare_le_iff, compare_le_iff]
  rcases Nat.lt_trichotomy a.count b.count with h | h | h
  · exact Or.inl (Or.inl h)
  · rcases strcmp_total a.symbol b.symbol with h2 | h2
    · exact Or.inl (Or.inr ⟨h, h2⟩)
    · exact Or.inr (Or.inr ⟨h.symm, h2⟩)
  · exact Or.inr (Or.inl h)

theorem compare_trans (a b c : Symbol) (h1 : compare a b ≤ 0) (h2 : compare b c ≤ 0) :
    compare a c ≤ 0 := by
  rw [compare_le_iff] at h1 h2 ⊢
  rcases h1 with h1 | ⟨h1, h1s⟩
  · rcases h2 with h2 | ⟨h2, _⟩
    · exact Or.inl (by omega)
    · exact Or.inl (by omega)
  · rcases h2 with h2 | ⟨h2, h2s⟩
    · exact Or.inl (by omega)
    · exact Or.inr ⟨by omega, strcmp_trans _ _ _ h1s h2s⟩

theorem compare_isTotal : IsTotal Symbol (fun a b => compare a b ≤ 0) :=
  ⟨compare_total⟩

theorem compare_isTrans : IsTrans Symbol (fun a b => compare a b ≤ 0) :=
  ⟨compare_trans⟩

/-- Strict ranking order: smaller count, or equal count and lexicographically smaller
symbol. -/
theorem compare_strict_of_le (a b : Symbol) (h : compare a b ≤ 0)
    (hne : a.symbol ≠ b.symbol) :
    a.count < b.count ∨
      (a.count = b.count ∧ List.Lex (fun x y => x < y) a.symbol b.symbol) := by
  rw [compare_le_iff] at h
  rcases h with h | ⟨h, hs⟩
  · exact Or.inl h
  · refine Or.inr ⟨h, ?_⟩
    rw [← strcmp_lt_iff_lex]
    have : strcmp a.symbol b.symbol ≠ 0 := fun h0 => hne ((strcmp_eq_zero_iff _ _).1 h0)
    omega

theorem qsort_perm (symbols : List Symbol) : (qsort compare symbols).Perm symbols :=
  List.perm_insertionSort _ symbols

theorem qsort_sorted (symbols : List Symbol) :
    (qsort compare symbols).Pairwise (fun a b => compare a b ≤ 0) :=
  haveI := compare_isTotal
  haveI := compare_isTrans
  List.sorted_insertionSort _ symbols

/-- A table with distinct symbols holds each entry once, and two different entries have
different symbols. -/
theorem pairwise_symbol_ne (l : List Symbol) (hnd : (l.map Symbol.symbol).Nodup) :
    l.Pairwise (fun a b => a.symbol ≠ b.symbol) := by
  rw [List.Nodup, List.pairwise_map] at hnd
  exact hnd

/-- Every arrangement of a table with distinct symbols that is sorted for `compare` is the
one returned by `qsort`: the result does not depend on the sorting algorithm. -/
theorem qsort_unique (symbols sorted : List Symbol)
    (hnd : (symbols.map Symbol.symbol).Nodup) (hperm : sorted.Perm symbols)
    (hsorted : sorted.Pairwise (fun a b => compare a b ≤ 0)) :
    sorted = qsort compare symbols := by
  have hp : sorted.Perm (qsort compare symbols) := hperm.trans (qsort_perm symbols).symm
  have hnd1 : (sorted.map Symbol.symbol).Nodup := (hperm.map _).nodup_iff.2 hnd
  have hnd2 : ((qsort compare symbols).map Symbol.symbol).Nodup :=
    ((qsort_perm symbols).map _).nodup_iff.2 hnd
  have s1 : sorted.Pairwise (fun a b => compare a b ≤ 0 ∧ a.symbol ≠ b.symbol) :=
    hsorted.and (pairwise_symbol_ne _ hnd1)
  have s2 : (qsort compare symbols).Pairwise
      (fun a b => compare a b ≤ 0 ∧ a.symbol ≠ b.symbol) :=
    (qsort_sorted symbols).and (pairwise_symbol_ne _ hnd2)
  haveI : IsAntisymm Symbol (fun a b => compare a b ≤ 0 ∧ a.symbol ≠ b.symbol) :=
    ⟨fun a b h1 h2 => by
      exfalso
      have e1 := (compare_le_iff a b).1 h1.1
      have e2 := (compare_le_iff b a).1 h2.1
      have : a.symbol = b.symbol := by
        rcases e1 with e1 | ⟨_, e1⟩
        · rcases e2 with e2 | ⟨e2, _⟩ <;> omega
        · rcases e2 with e2 | ⟨_, e2⟩
          · omega
          · exact strcmp_antisymm _ _ e1 e2
      exact h1.2 this⟩
  exact List.eq_of_perm_of_sorted hp s1 s2

/-- C7: for a table with pairwise distinct symbols, sorting with `compare` yields a
permutation of the entries (no entry is changed) in which, for all positions `i < j`,
either the count at `i` is smaller, or the counts are equal and the symbol at `i` is
strictly smaller in the lexicographic order of unsigned bytes. -/
theorem qsort_compare_ranked (symbols : List Symbol)
    (hnd : (symbols.map Symbol.symbol).Nodup) :
    (qsort compare symbols).Perm symbols ∧
    ∀ i j, i < j → j < (qsort compare symbols).length →
      ∃ a b, (qsort compare symbols)[i]? = some a ∧ (qsort compare symbols)[j]? = some b ∧
        (a.count < b.count ∨
          (a.count = b.count ∧ List.Lex (fun x y => x < y) a.symbol b.symbol)) := by
  refine ⟨qsort_perm symbols, ?_⟩
  intro i j hij hj
  have hnd2 : ((qsort compare symbols).map Symbol.symbol).Nodup :=
    ((qsort_perm symbols).map _).nodup_iff.2 hnd
  have hp := (qsort_sorted symbols).and (pairwise_symbol_ne _ hnd2)
  have hi : i < (qsort compare symbols).length := by omega
  refine ⟨(qsort compare symbols)[i], (qsort compare symbols)[j],
    List.getElem?_eq_getElem hi, List.getElem?_eq_getElem hj, ?_⟩
  have := List.pairwise_iff_getElem.1 hp i j hi hj hij
  exact compare_strict_of_le _ _ this.1 this.2

theorem qsort_compare_ranked_witness :
    (([(⟨[97], 2, 2 / 5, []⟩ : Symbol), ⟨[98], 2, 2 / 5, []⟩,
        ⟨[92, 110], 1, 1 / 5, []⟩].map Symbol.symbol).Nodup) ∧
    ((qsort compare [(⟨[97], 2, 2 / 5, []⟩ : Symbol), ⟨[98], 2, 2 / 5, []⟩,
        ⟨[92, 110], 1, 1 / 5, []⟩]).Perm
        [(⟨[97], 2, 2 / 5, []⟩ : Symbol), ⟨[98], 2, 2 / 5, []⟩, ⟨[92, 110], 1, 1 / 5, []⟩] ∧
      ∀ i j, i < j → j < (qsort compare [(⟨[97], 2, 2 / 5, []⟩ : Symbol),
          ⟨[98], 2, 2 / 5, []⟩, ⟨[92, 110], 1, 1 / 5, []⟩]).length →
        ∃ a b, (qsort compare [(⟨[97], 2, 2 / 5, []⟩ : Symbol), ⟨[98], 2, 2 / 5, []⟩,
            ⟨[92, 110], 1, 1 / 5, []⟩])[i]? = some a ∧
          (qsort compare [(⟨[97], 2, 2 / 5, []⟩ : Symbol), ⟨[98], 2, 2 / 5, []⟩,
            ⟨[92, 110], 1, 1 / 5, []⟩])[j]? = some b ∧
          (a.count < b.count ∨
            (a.count = b.count ∧ List.Lex (fun x y => x < y) a.symbol b.symbol))) :=
  ⟨by decide, qsort_compare_ranked _ (by decide)⟩

/-- C8: two tables holding the same entries with pairwise distinct symbols, in any two
insertion orders, are ranked into the same sequence, so `generate_codewords` gives every
symbol the same codeword in both runs. -/
theorem ranking_deterministic (t1 t2 : List Symbol) (hperm : t1.Perm t2)
    (hnd : (t1.map Symbol.symbol).Nodup) :
    qsort compare t1 = qsort compare t2 ∧
    generate_codewords (qsort compare t1) = generate_codewords (qsort compare t2) := by
  have h : qsort compare t1 = qsort compare t2 := by
    have hnd2 : (t2.map Symbol.symbol).Nodup := (hperm.map _).nodup_iff.1 hnd
    exact qsort_unique t2 (qsort compare t1) hnd2 ((qsort_perm t1).trans hperm)
      (qsort_sorted t1)
  exact ⟨h, by rw [h]⟩

theorem ranking_deterministic_witness :
    ([(⟨[97], 2, 2 / 5, []⟩ : Symbol), ⟨[98], 2, 2 / 5, []⟩, ⟨[92, 110], 1, 1 / 5, []⟩].Perm
        [(⟨[92, 110], 1, 1 / 5, []⟩ : Symbol), ⟨[98], 2, 2 / 5, []⟩, ⟨[97], 2, 2 / 5, []⟩] ∧
      ([(⟨[97], 2, 2 / 5, []⟩ : Symbol), ⟨[98], 2, 2 / 5, []⟩,
        ⟨[92, 110], 1, 1 / 5, []⟩].map Symbol.symbol).Nodup) ∧
    (qsort compare [(⟨[97], 2, 2 / 5, []⟩ : Symbol), ⟨[98], 2, 2 / 5, []⟩,
        ⟨[92, 110], 1, 1 / 5, []⟩] =
      qsort compare [(⟨[92, 110], 1, 1 / 5, []⟩ : Symbol), ⟨[98], 2, 2 / 5, []⟩,
        ⟨[97], 2, 2 / 5, []⟩] ∧
    generate_codewords (qsort compare [(⟨[97], 2, 2 / 5, []⟩ : Symbol),
        ⟨[98], 2, 2 / 5, []⟩, ⟨[92, 110], 1, 1 / 5, []⟩]) =
      generate_codewords (qsort compare [(⟨[92, 110], 1, 1 / 5, []⟩ : Symbol),
        ⟨[98], 2, 2 / 5, []⟩, ⟨[97], 2, 2 / 5, []⟩])) :=
  ⟨⟨by decide!, by decide⟩, ranking_deterministic _ _ (by decide!) (by decide)⟩

/-! ## Token streams -/

theorem read_symbol_freq_length_le (c : Nat) (rest : List Nat) :
    (read_symbol_freq c rest).2.length ≤ rest.length := by
  unfold read_symbol_freq
  split
  · exact le_refl _
  · split
    · cases rest <;> simp [fgetc_char]
    · split
      · rcases rest with _ | ⟨a, _ | ⟨b, r⟩⟩ <;> simp [fgetc_char]
        omega
      · split
        · rcases rest with _ | ⟨a, _ | ⟨b, _ | ⟨d, r⟩⟩⟩ <;> simp [fgetc_char]
          omega
        · exact le_refl _

theorem read_symbol_enc_length_le (c : Nat) (rest : List Nat) :
    (read_symbol_enc c rest).2.length ≤ rest.length := by
  unfold read_symbol_enc
  split
  · exact le_refl _
  · split
    · rcases rest with _ | ⟨a, _ | ⟨b, r⟩⟩ <;> simp [fgetc_char]
      omega
    · exact le_refl _

/-- More fuel than bytes changes nothing: the token stream is that of `freq_tokens`. -/
theorem tokens_freq_fuel (fuel : Nat) (input : List Nat) (h : input.length ≤ fuel) :
    tokens_freq fuel input = freq_tokens input := by
  unfold freq_tokens
  induction fuel using Nat.strong_induction_on generalizing input with
  | _ fuel ih =>
    cases input with
    | nil => cases fuel <;> rfl
    | cons c rest =>
      cases fuel with
      | zero => simp at h
      | succ fuel =>
        simp only [List.length_cons, tokens_freq]
        have hl := read_symbol_freq_length_le c rest
        simp only [List.length_cons] at h
        rw [ih fuel (by omega) _ (by omega), ih rest.length (by omega) _ hl]

theorem freq_tokens_nil : freq_tokens [] = [] := rfl

theorem freq_tokens_cons (c : Nat) (rest : List Nat) :
    freq_tokens (c :: rest) =
      escape_special (cstr (read_symbol_freq c rest).1) ::
        freq_tokens (read_symbol_freq c rest).2 := by
  show tokens_freq (rest.length + 1) (c :: rest) = _
  simp only [tokens_freq]
  rw [tokens_freq_fuel _ _ (read_symbol_freq_length_le c rest)]

theorem tokens_enc_fuel (fuel : Nat) (input : List Nat) (h : input.length ≤ fuel) :
    tokens_enc fuel input = enc_tokens input := by
  unfold enc_tokens
  induction fuel using Nat.strong_induction_on generalizing input with
  | _ fuel ih =>
    cases input with
    | nil => cases fuel <;> rfl
    | cons c rest =>
      cases fuel with
      | zero => simp at h
      | succ fuel =>
        simp only [List.length_cons, tokens_enc]
        have hl := read_symbol_enc_length_le c rest
        simp only [List.length_cons] at h
        rw [ih fuel (by omega) _ (by omega), ih rest.length (by omega) _ hl]

theorem enc_tokens_nil : enc_tokens [] = [] := rfl

theorem enc_tokens_cons (c : Nat) (rest : List Nat) :
    enc_tokens (c :: rest) =
      escape_special (cstr (read_symbol_enc c rest).1) ::
        enc_tokens (read_symbol_enc c rest).2 := by
  show tokens_enc (rest.length + 1) (c :: rest) = _
  simp only [tokens_enc]
  rw [tokens_enc_fuel _ _ (read_symbol_enc_length_le c rest)]

/-- The reading loop of `calculate_frequency` observes the tokens of `tokens_freq` one
after the other and counts them in `total_count`. -/
theorem calculate_frequency_loop_eq (fuel : Nat) (input : List Nat) (symbols : List Symbol)
    (total : Nat) :
    calculate_frequency_loop fuel input symbols total =
      ((tokens_freq fuel input).foldl observe symbols,
        total + (tokens_freq fuel input).length) := by
  induction fuel generalizing input symbols total with
  | zero => simp [calculate_frequency_loop, tokens_freq]
  | succ fuel ih =>
    cases input with
    | nil => simp [calculate_frequency_loop, tokens_freq]
    | cons c rest =>
      simp only [calculate_frequency_loop, tokens_freq, ih, List.foldl_cons,
        List.length_cons, Prod.mk.injEq, true_and]
      omega

theorem calculate_frequency_eq (input : List Nat) :
    calculate_frequency input =
      ((freq_tokens input).foldl observe []).map
        (fun e => { e with probability := (e.count : ℚ) / ((freq_tokens input).length : ℚ) }) := by
  simp [calculate_frequency, calculate_frequency_loop_eq, freq_tokens]

/-! ## Frequency counting -/

theorem increment_found_eq_none (t : List Nat) (symbols : List Symbol) :
    increment_found t symbols = none ↔ t ∉ symbols.map Symbol.symbol := by
  induction symbols with
  | nil => simp [increment_found]
  | cons e es ih =>
    simp only [increment_found, strcmp_eq_zero_iff, List.map_cons, List.mem_cons, not_or]
    by_cases h : e.symbol = t
    · simp [h]
    · have h' : ¬ t = e.symbol := fun x => h x.symm
      simp [h, h', ih]

theorem symbol_count_of_cons (e : Symbol) (es : List Symbol) (s : List Nat) :
    symbol_count_of (e :: es) s =
      (if e.symbol = s then e.count else 0) + symbol_count_of es s := by
  unfold symbol_count_of
  by_cases h : e.symbol = s <;> simp [List.filter_cons, h]

theorem symbol_count_of_append (l1 l2 : List Symbol) (s : List Nat) :
    symbol_count_of (l1 ++ l2) s = symbol_count_of l1 s + symbol_count_of l2 s := by
  simp [symbol_count_of, List.filter_append]

theorem increment_found_some (t : List Nat) (symbols result : List Symbol)
    (h : increment_found t symbols = some result) :
    result.map Symbol.symbol = symbols.map Symbol.symbol ∧
    (∀ s, symbol_count_of result s = symbol_count_of symbols s + if s = t then 1 else 0) ∧
    (result.map Symbol.count).sum = (symbols.map Symbol.count).sum + 1 := by
  induction symbols generalizing result with
  | nil => simp [increment_found] at h
  | cons e es ih =>
    simp only [increment_found, strcmp_eq_zero_iff] at h
    by_cases he : e.symbol = t
    · simp only [he, if_true, Option.some.injEq] at h
      subst h
      subst he
      refine ⟨by simp, ?_, by simp; omega⟩
      intro s
      simp only [symbol_count_of_cons]
      by_cases hs : s = e.symbol
      · subst hs
        simp only [if_true]; omega
      · have hs' : ¬ e.symbol = s := fun x => hs x.symm
        simp [hs, hs']
    · simp only [he, if_false, Option.map_eq_some'] at h
      obtain ⟨r, hr, rfl⟩ := h
      obtain ⟨h1, h2, h3⟩ := ih r hr
      refine ⟨by simp [h1], ?_, by simp [h3]; omega⟩
      intro s
      simp only [symbol_count_of_cons, h2 s]
      omega

theorem observe_symbols (symbols : List Symbol) (t : List Nat) :
    (observe symbols t).map Symbol.symbol =
      if t ∈ symbols.map Symbol.symbol then symbols.map Symbol.symbol
      else if symbols.length < TOTAL_SYMBOLS then symbols.map Symbol.symbol ++ [t]
      else symbols.map Symbol.symbol := by
  unfold observe
  cases h : increment_found t symbols with
  | none =>
    have hn := (increment_found_eq_none t symbols).1 h
    simp only [hn, if_false]
    split <;> simp
  | some r =>
    have hn : t ∈ symbols.map Symbol.symbol := by
      by_contra hc
      rw [(increment_found_eq_none t symbols).2 hc] at h
      exact absurd h (by simp)
    simp only [hn, if_true]
    exact (increment_found_some t symbols r h).1

theorem observe_symbol_count (symbols : List Symbol) (t s : List Nat)
    (hroom : t ∈ symbols.map Symbol.symbol ∨ symbols.length < TOTAL_SYMBOLS) :
    symbol_count_of (observe symbols t) s =
      symbol_count_of symbols s + if s = t then 1 else 0 := by
  unfold observe
  cases h : increment_found t symbols with
  | none =>
    have hn := (increment_found_eq_none t symbols).1 h
    have hlen : symbols.length < TOTAL_SYMBOLS := hroom.resolve_left hn
    simp only [hlen, if_true, symbol_count_of_append, symbol_count_of_cons]
    by_cases hs : s = t
    · subst hs
      simp [symbol_count_of]
    · have hs' : ¬ t = s := fun x => hs x.symm
      simp [hs, hs', symbol_count_of]
  | some r => exact (increment_found_some t symbols r h).2.1 s

theorem observe_symbol_count_le (symbols : List Symbol) (t s : List Nat) :
    symbol_count_of (observe symbols t) s ≤
      symbol_count_of symbols s + if s = t then 1 else 0 := by
  by_cases hroom : t ∈ symbols.map Symbol.symbol ∨ symbols.length < TOTAL_SYMBOLS
  · exact le_of_eq (observe_symbol_count symbols t s hroom)
  · have h1 : increment_found t symbols = none :=
      (increment_found_eq_none t symbols).2 (fun h => hroom (Or.inl h))
    have h2 : ¬ symbols.length < TOTAL_SYMBOLS := fun h => hroom (Or.inr h)
    simp [observe, h1, h2]

theorem observe_count_sum (symbols : List Symbol) (t : List Nat)
    (hroom : t ∈ symbols.map Symbol.symbol ∨ symbols.length < TOTAL_SYMBOLS) :
    ((observe symbols t).map Symbol.count).sum = (symbols.map Symbol.count).sum + 1 := by
  unfold observe
  cases h : increment_found t symbols with
  | none =>
    have hn := (increment_found_eq_none t symbols).1 h
    have hlen : symbols.length < TOTAL_SYMBOLS := hroom.resolve_left hn
    simp [hlen]
  | some r => exact (increment_found_some t symbols r h).2.2

theorem observe_nodup (symbols : List Symbol) (t : List Nat)
    (hnd : (symbols.map Symbol.symbol).Nodup) :
    ((observe symbols t).map Symbol.symbol).Nodup := by
  rw [observe_symbols]
  split
  · exact hnd
  · split
    · rw [List.nodup_append]
      refine ⟨hnd, List.nodup_singleton t, ?_⟩
      intro a ha hb
      simp only [List.mem_singleton] at hb
      subst hb
      contradiction
    · exact hnd

theorem observe_length_le (symbols : List Symbol) (t : List Nat)
    (h : symbols.length ≤ TOTAL_SYMBOLS) : (observe symbols t).length ≤ TOTAL_SYMBOLS := by
  have := congrArg List.length (observe_symbols symbols t)
  simp only [List.length_map] at this
  rw [this]
  split
  · simpa using h
  · split
    · simp; omega
    · simpa using h

theorem foldl_observe_nodup (ts : List (List Nat)) (symbols : List Symbol)
    (hnd : (symbols.map Symbol.symbol).Nodup) :
    ((ts.foldl observe symbols).map Symbol.symbol).Nodup := by
  induction ts generalizing symbols with
  | nil => exact hnd
  | cons t ts ih => exact ih _ (observe_nodup symbols t hnd)

theorem foldl_observe_length_le (ts : List (List Nat)) (symbols : List Symbol)
    (h : symbols.length ≤ TOTAL_SYMBOLS) :
    (ts.foldl observe symbols).length ≤ TOTAL_SYMBOLS := by
  induction ts generalizing symbols with
  | nil => exact h
  | cons t ts ih => exact ih _ (observe_length_le symbols t h)

theorem foldl_observe_symbol_count_le (ts : List (List Nat)) (symbols : List Symbol)
    (s : List Nat) :
    symbol_count_of (ts.foldl observe symbols) s ≤ symbol_count_of symbols s + ts.count s := by
  induction ts generalizing symbols with
  | nil => simp
  | cons t ts ih =>
    have h1 := ih (observe symbols t)
    have h2 := observe_symbol_count_le symbols t s
    simp only [List.foldl_cons, List.count_cons]
    by_cases hs : s = t
    · subst hs
      simp only [if_true, beq_self_eq_true] at h2 ⊢
      omega
    · have hs' : (t == s) = false := by simpa using fun x => hs x.symm
      simp only [hs, if_false, hs'] at h2 ⊢
      simp at h2 ⊢
      omega

/-! ### First occurrences -/

theorem mem_first_occurrences (ts : List (List Nat)) (s : List Nat) :
    s ∈ first_occurrences ts ↔ s ∈ ts := by
  induction ts with
  | nil => simp [first_occurrences]
  | cons t ts ih =>
    simp only [first_occurrences, List.mem_cons, List.mem_filter, ih, decide_eq_true_eq]
    by_cases h : s = t <;> simp [h]

theorem first_occurrences_nodup (ts : List (List Nat)) : (first_occurrences ts).Nodup := by
  induction ts with
  | nil => simp [first_occurrences]
  | cons t ts ih =>
    simp only [first_occurrences, List.nodup_cons, List.mem_filter, decide_eq_true_eq,
      ne_eq, not_true_eq_false, and_false, not_false_eq_true, true_and]
    exact ih.filter _

theorem first_occurrences_length (ts : List (List Nat)) :
    (first_occurrences ts).length = ts.toFinset.card := by
  rw [← List.toFinset_card_of_nodup (first_occurrences_nodup ts)]
  congr 1
  ext s
  simp [mem_first_occurrences]

/-- Symbols of the table after observing `ts`, starting from a table with symbols `S`,
as long as the capacity is not exceeded. -/
theorem foldl_observe_symbols (ts : List (List Nat)) (symbols : List Symbol)
    (hcap : (symbols.map Symbol.symbol ++
      (first_occurrences ts).filter (fun s => decide (s ∉ symbols.map Symbol.symbol))).length
        ≤ TOTAL_SYMBOLS) :
    (ts.foldl observe symbols).map Symbol.symbol =
      symbols.map Symbol.symbol ++
        (first_occurrences ts).filter (fun s => decide (s ∉ symbols.map Symbol.symbol)) ∧
    (∀ s, symbol_count_of (ts.foldl observe symbols) s =
      symbol_count_of symbols s + ts.count s) ∧
    ((ts.foldl observe symbols).map Symbol.count).sum =
      (symbols.map Symbol.count).sum + ts.length := by
  induction ts generalizing symbols with
  | nil => simp [first_occurrences]
  | cons t ts ih =>
    simp only [List.foldl_cons]
    by_cases ht : t ∈ symbols.map Symbol.symbol
    · have hsym : (observe symbols t).map Symbol.symbol = symbols.map Symbol.symbol := by
        rw [observe_symbols]; simp only [ht, if_true]
      have hfil : (first_occurrences (t :: ts)).filter
            (fun s => decide (s ∉ symbols.map Symbol.symbol)) =
          (first_occurrences ts).filter (fun s => decide (s ∉ symbols.map Symbol.symbol)) := by
        simp only [first_occurrences, List.filter_cons, ht, not_true_eq_false, decide_False,
          List.filter_filter]
        simp only [Bool.false_eq_true, if_false]
        apply List.filter_congr
        intro s _
        by_cases hs : s = t
        · subst hs; simp [ht]
        · simp [hs]
      rw [hfil] at hcap ⊢
      have := ih (observe symbols t) (by rw [hsym]; exact hcap)
      rw [hsym] at this
      refine ⟨this.1, ?_, ?_⟩
      · intro s
        rw [this.2.1 s, observe_symbol_count symbols t s (Or.inl ht), List.count_cons]
        by_cases hs : s = t
        · subst hs; simp; omega
        · have hs' : (t == s) = false := by simpa using fun x => hs x.symm
          simp [hs, hs']
      · rw [this.2.2, observe_count_sum symbols t (Or.inl ht), List.length_cons]
        omega
    · have hfil : (first_occurrences (t :: ts)).filter
            (fun s => decide (s ∉ symbols.map Symbol.symbol)) =
          t :: (first_occurrences ts).filter
            (fun s => decide (s ∉ symbols.map Symbol.symbol ++ [t])) := by
        simp only [first_occurrences, List.filter_cons, ht, not_false_eq_true, decide_True,
          if_true, List.filter_filter, List.cons.injEq, true_and]
        apply List.filter_congr
        intro s _
        by_cases hs : s = t
        · subst hs; simp
        · simp [hs]
      rw [hfil] at hcap ⊢
      have hlen : symbols.length < TOTAL_SYMBOLS := by
        simp only [List.length_append, List.length_map, List.length_cons] at hcap
        omega
      have hsym : (observe symbols t).map Symbol.symbol = symbols.map Symbol.symbol ++ [t] := by
        rw [observe_symbols]; simp only [ht, if_false, hlen, if_true]
      have := ih (observe symbols t) (by rw [hsym]; simpa using hcap)
      rw [hsym] at this
      refine ⟨by rw [this.1]; simp, ?_, ?_⟩
      · intro s
        rw [this.2.1 s, observe_symbol_count symbols t s (Or.inr hlen), List.count_cons]
        by_cases hs : s = t
        · subst hs; simp; omega
        · have hs' : (t == s) = false := by simpa using fun x => hs x.symm
          simp [hs, hs']
      · rw [this.2.2, observe_count_sum symbols t (Or.inr hlen), List.length_cons]
        omega

/-- In a table with distinct symbols the count of an entry is the count recorded for its
symbol. -/
theorem symbol_count_of_mem (symbols : List Symbol)
    (hnd : (symbols.map Symbol.symbol).Nodup) (e : Symbol) (he : e ∈ symbols) :
    symbol_count_of symbols e.symbol = e.count := by
  induction symbols with
  | nil => simp at he
  | cons a es ih =>
    simp only [List.map_cons, List.nodup_cons] at hnd
    rw [symbol_count_of_cons]
    rcases List.mem_cons.1 he with h | h
    · subst h
      have : symbol_count_of es e.symbol = 0 := by
        unfold symbol_count_of
        have : es.filter (fun x => decide (x.symbol = e.symbol)) = [] := by
          rw [List.filter_eq_nil_iff]
          intro x hx
          simp only [decide_eq_true_eq]
          intro hxe
          exact hnd.1 (by rw [← hxe]; exact List.mem_map_of_mem _ hx)
        rw [this]; rfl
      simp [this]
    · have hne : ¬ a.symbol = e.symbol := by
        intro hae
        exact hnd.1 (by rw [hae]; exact List.mem_map_of_mem _ h)
      simp [hne, ih hnd.2 h]

theorem calculate_frequency_symbols_eq (input : List Nat) :
    (calculate_frequency input).map Symbol.symbol =
      ((freq_tokens input).foldl observe []).map Symbol.symbol := by
  rw [calculate_frequency_eq, List.map_map]
  rfl

theorem calculate_frequency_count_eq (input : List Nat) :
    (calculate_frequency input).map Symbol.count =
      ((freq_tokens input).foldl observe []).map Symbol.count := by
  rw [calculate_frequency_eq, List.map_map]
  rfl

theorem first_occurrences_filter_nil (ts : List (List Nat)) :
    (first_occurrences ts).filter
      (fun s => decide (s ∉ ([] : List Symbol).map Symbol.symbol)) = first_occurrences ts := by
  simp

/-- The table after counting, when the capacity is not exceeded. -/
theorem calculate_frequency_table (input : List Nat)
    (h : (freq_tokens input).toFinset.card ≤ TOTAL_SYMBOLS) :
    (calculate_frequency input).map Symbol.symbol = first_occurrences (freq_tokens input) ∧
    ((calculate_frequency input).map Symbol.symbol).Nodup ∧
    (∀ s, s ∈ (calculate_frequency input).map Symbol.symbol ↔ s ∈ freq_tokens input) ∧
    ∀ e ∈ calculate_frequency input, e.count = (freq_tokens input).count e.symbol := by
  have hcap : (([] : List Symbol).map Symbol.symbol ++
      (first_occurrences (freq_tokens input)).filter
        (fun s => decide (s ∉ ([] : List Symbol).map Symbol.symbol))).length
        ≤ TOTAL_SYMBOLS := by
    rw [first_occurrences_filter_nil]
    simpa [first_occurrences_length] using h
  obtain ⟨h1, h2, _⟩ := foldl_observe_symbols (freq_tokens input) [] hcap
  rw [first_occurrences_filter_nil] at h1
  have hsym : (calculate_frequency input).map Symbol.symbol =
      first_occurrences (freq_tokens input) := by
    rw [calculate_frequency_symbols_eq, h1]; rfl
  refine ⟨hsym, ?_, ?_, ?_⟩
  · rw [hsym]; exact first_occurrences_nodup _
  · intro s; rw [hsym]; exact mem_first_occurrences _ s
  · intro e he
    rw [calculate_frequency_eq] at he
    obtain ⟨e0, he0, rfl⟩ := List.mem_map.1 he
    have hnd := foldl_observe_nodup (freq_tokens input) [] (by simp)
    have := symbol_count_of_mem _ hnd e0 he0
    rw [h2 e0.symbol] at this
    simp only [symbol_count_of, List.filter_nil, List.map_nil, List.sum_nil, zero_add] at this
    exact this.symm

theorem sum_probability_eq (l : List Symbol) (total : ℚ) :
    ((l.map (fun e => ({ e with probability := (e.count : ℚ) / total } : Symbol))).map
      Symbol.probability).sum = (((l.map Symbol.count).sum : Nat) : ℚ) / total := by
  induction l with
  | nil => simp
  | cons e es ih =>
    simp only [List.map_cons, List.sum_cons, ih, Nat.cast_add]
    rw [add_div]

theorem freq_tokens_ne_nil (input : List Nat) (hne : input ≠ []) :
    freq_tokens input ≠ [] := by
  cases input with
  | nil => exact absurd rfl hne
  | cons c rest => rw [freq_tokens_cons]; simp

/-! ### More than 1024 distinct symbols -/

theorem two_byte_lead : ∀ a < 256, 192 ≤ a → a < 224 →
    ¬ (a &&& 0x80 = 0) ∧ a &&& 0xE0 = 0xC0 := by
  decide!

theorem cstr_of_nonzero (l : List Nat) (h : ∀ b ∈ l, b ≠ 0) : cstr l = l := by
  unfold cstr
  rw [List.takeWhile_eq_self_iff]
  intro b hb
  simpa using h b hb

theorem escape_special_eq (s : List Nat) :
    escape_special s =
      if s = [10] then [92, 110] else if s = [9] then [92, 116]
      else if s = [13] then [92, 114] else s := by
  simp only [escape_special, strcmp_eq_zero_iff]

theorem freq_tokens_two_byte (a b : Nat) (rest : List Nat) (ha : 192 ≤ a) (ha2 : a < 224)
    (hb : b ≠ 0) :
    freq_tokens (a :: b :: rest) = [a, b] :: freq_tokens rest := by
  rw [freq_tokens_cons]
  obtain ⟨h1, h2⟩ := two_byte_lead a (by omega) ha ha2
  have hr : read_symbol_freq a (b :: rest) = ([a, b], rest) := by
    simp only [read_symbol_freq, h1, h2, if_true, if_false, fgetc_char]
  have hc : cstr [a, b] = [a, b] := by
    apply cstr_of_nonzero
    intro x hx
    simp only [List.mem_cons, List.mem_singleton, List.not_mem_nil, or_false] at hx
    rcases hx with rfl | rfl
    · omega
    · exact hb
  rw [hr, hc, escape_special_eq]
  simp

theorem freq_tokens_many (l : List Nat) (hl : ∀ i ∈ l, i < 2048) :
    freq_tokens (l.foldr (fun i acc => (0xC0 + i / 64) :: (0x80 + i % 64) :: acc) []) =
      l.map (fun i => [0xC0 + i / 64, 0x80 + i % 64]) := by
  induction l with
  | nil => rfl
  | cons i l ih =>
    have hi := hl i (List.mem_cons_self _ _)
    simp only [List.foldr_cons, List.map_cons]
    rw [freq_tokens_two_byte _ _ _ (by omega) (by omega) (by omega),
      ih (fun j hj => hl j (List.mem_cons_of_mem _ hj))]

theorem freq_tokens_many_symbols_input :
    freq_tokens many_symbols_input =
      (List.range 1025).map (fun i => [0xC0 + i / 64, 0x80 + i % 64]) :=
  freq_tokens_many _ (fun i hi => by have := List.mem_range.1 hi; omega)

theorem freq_tokens_many_symbols_nodup : (freq_tokens many_symbols_input).Nodup := by
  rw [freq_tokens_many_symbols_input]
  apply List.Nodup.map _ (List.nodup_range 1025)
  intro i j hij
  simp only [List.cons.injEq, and_true] at hij
  omega

theorem count_le_one_of_nodup (ts : List (List Nat)) (h : ts.Nodup) (s : List Nat) :
    ts.count s ≤ 1 := by
  induction ts with
  | nil => simp
  | cons t ts ih =>
    rw [List.nodup_cons] at h
    rw [List.count_cons]
    by_cases hs : t = s
    · subst hs
      have : ts.count t = 0 := List.count_eq_zero.2 h.1
      simp [this]
    · have hs' : (t == s) = false := by simpa using hs
      simp only [hs', Bool.false_eq_true, if_false, add_zero]
      exact ih h.2

/-- When all tokens are different, every count is at most 1, so the counts sum to at
most the capacity of the table. -/
theorem count_sum_le_of_nodup (ts : List (List Nat)) (hts : ts.Nodup) :
    ((ts.foldl observe []).map Symbol.count).sum ≤ TOTAL_SYMBOLS := by
  have hnd := foldl_observe_nodup ts [] (by simp)
  have hle := foldl_observe_length_le ts [] (by simp [TOTAL_SYMBOLS])
  have hcount : ∀ c ∈ (ts.foldl observe []).map Symbol.count, c ≤ 1 := by
    intro c hc
    obtain ⟨e, he, rfl⟩ := List.mem_map.1 hc
    have h1 := symbol_count_of_mem _ hnd e he
    have h2 := foldl_observe_symbol_count_le ts [] e.symbol
    have h3 := count_le_one_of_nodup ts hts e.symbol
    have h4 : symbol_count_of [] e.symbol = 0 := rfl
    rw [h4, h1, zero_add] at h2
    exact le_trans h2 h3
  have := List.sum_le_card_nsmul _ 1 hcount
  simp only [List.length_map, smul_eq_mul, mul_one] at this
  exact le_trans this hle

theorem probability_sum_ne_one (input : List Nat) (hnd : (freq_tokens input).Nodup)
    (hlen : TOTAL_SYMBOLS < (freq_tokens input).length) :
    ((calculate_frequency input).map Symbol.count).sum ≠ (freq_tokens input).length ∧
    ((calculate_frequency input).map Symbol.probability).sum ≠ 1 := by
  have hsum := count_sum_le_of_nodup (freq_tokens input) hnd
  constructor
  · rw [calculate_frequency_count_eq]
    omega
  · rw [calculate_frequency_eq, sum_probability_eq]
    intro h
    have hpos : ((freq_tokens input).length : ℚ) ≠ 0 := by
      have : (freq_tokens input).length ≠ 0 := by omega
      exact_mod_cast this
    rw [div_eq_one_iff_eq hpos] at h
    have : (((freq_tokens input).foldl observe []).map Symbol.count).sum =
        (freq_tokens input).length := by exact_mod_cast h
    omega

theorem many_symbols_input_ne_nil : many_symbols_input ≠ [] := by
  intro h
  have h1 := freq_tokens_many_symbols_input
  rw [h] at h1
  have h2 := congrArg List.length h1
  rw [List.length_map, List.length_range] at h2
  exact absurd h2 (by decide)

theorem freq_tokens_many_symbols_length :
    TOTAL_SYMBOLS < (freq_tokens many_symbols_input).length := by
  rw [freq_tokens_many_symbols_input, List.length_map, List.length_range]
  decide

/-- C10 (counterexample): on an input with 1025 distinct symbols the counts of the table
do not sum to the 1025 tokens read, so the probabilities do not sum to 1. -/
theorem probability_sum_overflow :
    many_symbols_input ≠ [] ∧
    ((calculate_frequency many_symbols_input).map Symbol.count).sum ≠
      (freq_tokens many_symbols_input).length ∧
    ((calculate_frequency many_symbols_input).map Symbol.probability).sum ≠ 1 :=
  ⟨many_symbols_input_ne_nil,
    probability_sum_ne_one many_symbols_input freq_tokens_many_symbols_nodup
      freq_tokens_many_symbols_length⟩

/-! ## Bit packing -/

theorem put_bit_arith : ∀ b < 128,
    ((b <<< 1) % 256) ||| ((48 + 208) % 256) = 2 * b ∧
    ((b <<< 1) % 256) ||| ((49 + 208) % 256) = 2 * b + 1 := by
  decide!

theorem byte_bits_eq_nat_bits : ∀ byte < 256, byte_bits byte = nat_bits 8 byte := by
  decide!

theorem expand_bits_append (a b : List Nat) :
    expand_bits (a ++ b) = expand_bits a ++ expand_bits b := by
  induction a with
  | nil => rfl
  | cons x a ih => simp [expand_bits, ih]

theorem expand_bits_length (a : List Nat) : (expand_bits a).length = 8 * a.length := by
  induction a with
  | nil => rfl
  | cons x a ih => simp [expand_bits, byte_bits, ih]; omega

theorem nat_bits_length (n v : Nat) : (nat_bits n v).length = n := by
  induction n generalizing v with
  | zero => rfl
  | succ n ih => simp [nat_bits, ih]

theorem nat_bits_double (n v d : Nat) (hd : d < 2) :
    nat_bits (n + 1) (2 * v + d) = nat_bits n v ++ [48 + d] := by
  have h1 : (2 * v + d) / 2 = v := by omega
  have h2 : (2 * v + d) % 2 = d := by omega
  simp [nat_bits, h1, h2]

theorem nat_bits_shift (n k v : Nat) :
    nat_bits (n + k) (v * 2 ^ k) = nat_bits n v ++ List.replicate k 48 := by
  induction k with
  | zero => simp
  | succ k ih =>
    have h : v * 2 ^ (k + 1) = 2 * (v * 2 ^ k) + 0 := by rw [pow_succ]; ring
    rw [← Nat.add_assoc, h, nat_bits_double _ _ 0 (by decide), ih, List.replicate_succ',
      List.append_assoc]

/-- Invariant of the packer: fewer than 8 bits are waiting, and `buffer` holds nothing
else. -/
theorem put_bit_spec (w : BitWriter) (ch : Nat) (hlen : w.buffer_len < 8)
    (hbuf : w.buffer < 2 ^ w.buffer_len) (hch : ch = 48 ∨ ch = 49) :
    (put_bit w ch).buffer_len < 8 ∧
    (put_bit w ch).buffer < 2 ^ (put_bit w ch).buffer_len ∧
    writer_bits (put_bit w ch) = writer_bits w ++ [ch] := by
  have hb128 : w.buffer < 128 := by
    have : 2 ^ w.buffer_len ≤ 2 ^ 7 := Nat.pow_le_pow_right (by decide) (by omega)
    omega
  obtain ⟨h0, h1⟩ := put_bit_arith w.buffer hb128
  have hnew : ((w.buffer <<< 1) % 256) ||| ((ch + 208) % 256) = 2 * w.buffer + (ch - 48) := by
    rcases hch with rfl | rfl
    · exact h0
    · exact h1
  have hd : ch - 48 < 2 := by omega
  have hch' : 48 + (ch - 48) = ch := by omega
  unfold put_bit
  simp only [hnew]
  by_cases h8 : w.buffer_len + 1 = 8
  · simp only [h8, if_true, writer_bits, expand_bits_append, expand_bits, List.append_nil,
      nat_bits]
    refine ⟨by decide, by decide, ?_⟩
    have hlt : 2 * w.buffer + (ch - 48) < 256 := by omega
    have h7 : w.buffer_len = 7 := by omega
    rw [byte_bits_eq_nat_bits _ hlt, nat_bits_double 7 _ _ hd, hch', h7]
    simp
  · simp only [h8, if_false, writer_bits]
    refine ⟨by omega, ?_, ?_⟩
    · rw [pow_succ]; omega
    · rw [nat_bits_double _ _ _ hd, hch', List.append_assoc]

theorem foldl_put_bit_spec (bits : List Nat) (w : BitWriter) (hlen : w.buffer_len < 8)
    (hbuf : w.buffer < 2 ^ w.buffer_len) (hbits : ∀ c ∈ bits, c = 48 ∨ c = 49) :
    (bits.foldl put_bit w).buffer_len < 8 ∧
    (bits.foldl put_bit w).buffer < 2 ^ (bits.foldl put_bit w).buffer_len ∧
    writer_bits (bits.foldl put_bit w) = writer_bits w ++ bits := by
  induction bits generalizing w with
  | nil => simp [hlen, hbuf]
  | cons c bits ih =>
    obtain ⟨h1, h2, h3⟩ := put_bit_spec w c hlen hbuf (hbits c (List.mem_cons_self _ _))
    obtain ⟨g1, g2, g3⟩ := ih (put_bit w c) h1 h2
      (fun x hx => hbits x (List.mem_cons_of_mem _ hx))
    refine ⟨g1, g2, ?_⟩
    rw [List.foldl_cons, g3, h3, List.append_assoc]
    rfl

theorem encode_loop_eq (fuel : Nat) (input : List Nat) (symbols : List Symbol)
    (w : BitWriter) :
    encode_loop fuel input symbols w =
      (tokens_enc fuel input).foldl (encode_symbol symbols) w := by
  induction fuel generalizing input w with
  | zero => simp [encode_loop, tokens_enc]
  | succ fuel ih =>
    cases input with
    | nil => simp [encode_loop, tokens_enc]
    | cons c rest => simp only [encode_loop, tokens_enc, ih, List.foldl_cons]

theorem find_codeword_mem (t : List Nat) (symbols : List Symbol) (cw : List Nat)
    (h : find_codeword t symbols = some cw) :
    ∃ e ∈ symbols, e.symbol = t ∧ e.codeword = cw := by
  induction symbols with
  | nil => simp [find_codeword] at h
  | cons e es ih =>
    simp only [find_codeword, strcmp_eq_zero_iff] at h
    by_cases he : e.symbol = t
    · simp only [he, if_true, Option.some.injEq] at h
      exact ⟨e, List.mem_cons_self _ _, he, h⟩
    · simp only [he, if_false] at h
      obtain ⟨e', h1, h2⟩ := ih h
      exact ⟨e', List.mem_cons_of_mem _ h1, h2⟩

theorem foldl_encode_symbol_spec (symbols : List Symbol)
    (hcw : ∀ e ∈ symbols, is_codeword e.codeword) (ts : List (List Nat)) (w : BitWriter)
    (hlen : w.buffer_len < 8) (hbuf : w.buffer < 2 ^ w.buffer_len) :
    (ts.foldl (encode_symbol symbols) w).buffer_len < 8 ∧
    (ts.foldl (encode_symbol symbols) w).buffer <
      2 ^ (ts.foldl (encode_symbol symbols) w).buffer_len ∧
    writer_bits (ts.foldl (encode_symbol symbols) w) =
      writer_bits w ++
        concat_codewords (ts.filterMap (fun t => find_codeword t symbols)) := by
  induction ts generalizing w with
  | nil => simp [hlen, hbuf, concat_codewords]
  | cons t ts ih =>
    simp only [List.foldl_cons, List.filterMap_cons]
    cases hf : find_codeword t symbols with
    | none =>
      have : encode_symbol symbols w t = w := by simp [encode_symbol, hf]
      rw [this]
      exact ih w hlen hbuf
    | some cw =>
      have hes : encode_symbol symbols w t = cw.foldl put_bit w := by
        simp [encode_symbol, hf]
      obtain ⟨e, he, _, hecw⟩ := find_codeword_mem t symbols cw hf
      have hbits : ∀ c ∈ cw, c = 48 ∨ c = 49 := by
        rw [← hecw]; exact (hcw e he).2
      obtain ⟨h1, h2, h3⟩ := foldl_put_bit_spec cw w hlen hbuf hbits
      rw [hes]
      obtain ⟨g1, g2, g3⟩ := ih (cw.foldl put_bit w) h1 h2
      refine ⟨g1, g2, ?_⟩
      rw [g3, h3, concat_codewords, List.append_assoc]

theorem concat_codewords_length (cws : List (List Nat)) (h : ∀ cw ∈ cws, cw.length = 7) :
    (concat_codewords cws).length = 7 * cws.length := by
  induction cws with
  | nil => rfl
  | cons cw rest ih =>
    simp only [concat_codewords, List.length_append, List.length_cons,
      h cw (List.mem_cons_self _ _), ih (fun x hx => h x (List.mem_cons_of_mem _ hx))]
    omega

theorem found_codewords_length (symbols : List Symbol)
    (hcw : ∀ e ∈ symbols, is_codeword e.codeword) (input : List Nat) :
    ∀ cw ∈ found_codewords symbols input, cw.length = 7 := by
  intro cw h
  simp only [found_codewords, List.mem_filterMap] at h
  obtain ⟨t, _, ht⟩ := h
  obtain ⟨e, he, _, hecw⟩ := find_codeword_mem t symbols cw ht
  rw [← hecw]; exact (hcw e he).1

/-- Format of the encoded file: the codewords of the tokens found, then zero padding to
the byte boundary. -/
theorem encode_to_binary_bits (symbols : List Symbol) (input : List Nat)
    (hcw : ∀ e ∈ symbols, is_codeword e.codeword) :
    expand_bits (encode_to_binary symbols input) =
      concat_codewords (found_codewords symbols input) ++
        List.replicate ((8 - 7 * (found_codewords symbols input).length % 8) % 8) 48 ∧
    (encode_to_binary symbols input).length =
      (7 * (found_codewords symbols input).length + 7) / 8 := by
  obtain ⟨h1, h2, h3⟩ := foldl_encode_symbol_spec symbols hcw (enc_tokens input) ⟨0, 0, []⟩
    (by decide) (by decide)
  have hloop : encode_loop input.length input symbols ⟨0, 0, []⟩ =
      (enc_tokens input).foldl (encode_symbol symbols) ⟨0, 0, []⟩ := encode_loop_eq _ _ _ _
  have hlen := concat_codewords_length _ (found_codewords_length symbols hcw input)
  have h3' : writer_bits ((enc_tokens input).foldl (encode_symbol symbols) ⟨0, 0, []⟩) =
      concat_codewords (found_codewords symbols input) := by
    rw [h3]; rfl
  generalize (enc_tokens input).foldl (encode_symbol symbols) ⟨0, 0, []⟩ = w at *
  have hl := congrArg List.length h3'
  simp only [writer_bits, List.length_append, expand_bits_length, nat_bits_length, hlen] at hl
  unfold encode_to_binary
  simp only [hloop]
  by_cases hpos : 0 < w.buffer_len
  · simp only [hpos, if_true, expand_bits_append, expand_bits, List.append_nil,
      List.length_append, List.length_cons, List.length_nil]
    have hk : (8 - 7 * (found_codewords symbols input).length % 8) % 8 = 8 - w.buffer_len := by
      omega
    have hmul : 2 ^ w.buffer_len * 2 ^ (8 - w.buffer_len) = 256 := by
      rw [← pow_add]
      have : w.buffer_len + (8 - w.buffer_len) = 8 := by omega
      rw [this]
      rfl
    have hlt : w.buffer * 2 ^ (8 - w.buffer_len) < 256 := by
      rw [← hmul]
      exact Nat.mul_lt_mul_of_pos_right h2 (by positivity)
    have hshift : (w.buffer <<< (8 - w.buffer_len)) % 256 = w.buffer * 2 ^ (8 - w.buffer_len) := by
      rw [Nat.shiftLeft_eq, Nat.mod_eq_of_lt hlt]
    have h8 : nat_bits 8 (w.buffer * 2 ^ (8 - w.buffer_len)) =
        nat_bits w.buffer_len w.buffer ++ List.replicate (8 - w.buffer_len) 48 := by
      have := nat_bits_shift w.buffer_len (8 - w.buffer_len) w.buffer
      have e : w.buffer_len + (8 - w.buffer_len) = 8 := by omega
      rw [e] at this
      exact this
    rw [hshift, byte_bits_eq_nat_bits _ hlt, h8, hk, ← List.append_assoc, ← h3']
    refine ⟨rfl, by omega⟩
  · have h0 : w.buffer_len = 0 := by omega
    simp only [hpos, if_false]
    have hk : (8 - 7 * (found_codewords symbols input).length % 8) % 8 = 0 := by omega
    rw [hk, ← h3']
    simp only [writer_bits, h0, nat_bits, List.replicate_zero, List.append_nil, true_and]
    omega

/-! ## Printed numbers -/

theorem decimal_digits_length_ge (fuel n : Nat) (acc : List Nat) :
    acc.length ≤ (decimal_digits fuel n acc).length := by
  induction fuel generalizing n acc with
  | zero => simp [decimal_digits]
  | succ fuel ih =>
    simp only [decimal_digits]
    split
    · simp
    · have := ih (n / 10) ((48 + n % 10) :: acc)
      simp only [List.length_cons] at this
      omega

theorem decimal_digits_spec (fuel n : Nat) (acc : List Nat) (k : Nat) (hk : 1 ≤ k)
    (hn : n < 10 ^ k) (hacc : ∀ c ∈ acc, 48 ≤ c ∧ c ≤ 57) :
    (decimal_digits fuel n acc).length ≤ k + acc.length ∧
    (∀ c ∈ decimal_digits fuel n acc, 48 ≤ c ∧ c ≤ 57) ∧
    (0 < fuel → decimal_digits fuel n acc ≠ []) := by
  induction fuel generalizing n acc k with
  | zero => exact ⟨by simp [decimal_digits], by simpa [decimal_digits] using hacc, by simp⟩
  | succ fuel ih =>
    simp only [decimal_digits]
    by_cases h10 : n < 10
    · simp only [h10, if_true]
      refine ⟨by simp; omega, ?_, by simp⟩
      intro c hc
      rcases List.mem_cons.1 hc with rfl | hc
      · omega
      · exact hacc c hc
    · simp only [h10, if_false]
      have hk2 : 2 ≤ k := by
        by_contra hlt
        have : k = 1 := by omega
        subst this
        simp at hn
        omega
      have hn' : n / 10 < 10 ^ (k - 1) := by
        have : 10 ^ k = 10 ^ (k - 1) * 10 := by
          rw [← pow_succ]; congr 1; omega
        rw [this] at hn
        exact Nat.div_lt_of_lt_mul (by rw [Nat.mul_comm]; exact hn)
      have hacc' : ∀ c ∈ (48 + n % 10) :: acc, 48 ≤ c ∧ c ≤ 57 := by
        intro c hc
        rcases List.mem_cons.1 hc with rfl | hc
        · omega
        · exact hacc c hc
      obtain ⟨g1, g2, _⟩ := ih (n / 10) ((48 + n % 10) :: acc) (k - 1) (by omega) hn' hacc'
      refine ⟨by simp only [List.length_cons] at g1; omega, g2, ?_⟩
      intro _ hnil
      have : (decimal_digits fuel (n / 10) ((48 + n % 10) :: acc)).length = 0 := by
        rw [hnil]; rfl
      have hge := decimal_digits_length_ge fuel (n / 10) ((48 + n % 10) :: acc)
      simp at hge
      omega

theorem print_d_spec (n k : Nat) (hk : 1 ≤ k) (hn : n < 10 ^ k) :
    (print_d n).length ≤ k ∧ (∀ c ∈ print_d n, 48 ≤ c ∧ c ≤ 57) ∧ print_d n ≠ [] := by
  obtain ⟨h1, h2, h3⟩ := decimal_digits_spec (n + 1) n [] k hk hn (by simp)
  exact ⟨by simpa using h1, h2, h3 (by omega)⟩

theorem round_f7_le (q : ℚ) (h0 : 0 ≤ q) (h1 : q ≤ 1) : round_f7 q ≤ 10000000 := by
  unfold round_f7
  simp only []
  have habs : |q| = q := abs_of_nonneg h0
  rw [habs]
  have hs1 : q * 10000000 ≤ 10000000 := by linarith
  have hs0 : (0 : ℚ) ≤ q * 10000000 := by positivity
  have hfl0 : (0 : ℤ) ≤ (q * 10000000).floor := Rat.le_floor.2 (by simpa using hs0)
  have hfl : (((q * 10000000).floor.toNat : ℕ) : ℚ) ≤ q * 10000000 := by
    have h : (((q * 10000000).floor.toNat : ℕ) : ℤ) = (q * 10000000).floor :=
      Int.toNat_of_nonneg hfl0
    have h2 : (((q * 10000000).floor : ℤ) : ℚ) ≤ q * 10000000 := Rat.le_floor.1 le_rfl
    calc (((q * 10000000).floor.toNat : ℕ) : ℚ)
        = ((((q * 10000000).floor.toNat : ℕ) : ℤ) : ℚ) := by push_cast; rfl
      _ = (((q * 10000000).floor : ℤ) : ℚ) := by rw [h]
      _ ≤ q * 10000000 := h2
  generalize (q * 10000000).floor.toNat = fl at hfl
  have hle : fl ≤ 10000000 := by
    have : (fl : ℚ) ≤ 10000000 := le_trans hfl hs1
    exact_mod_cast this
  have hstrict : (1 : ℚ) / 2 ≤ q * 10000000 - fl → fl + 1 ≤ 10000000 := by
    intro hf
    have : (fl : ℚ) < 10000000 := by linarith
    have : fl < 10000000 := by exact_mod_cast this
    omega
  split
  · exact hle
  · rename_i hn
    have hge : (1 : ℚ) / 2 ≤ q * 10000000 - fl := not_lt.1 hn
    split
    · exact hstrict hge
    · split
      · exact hle
      · exact hstrict hge

theorem print_f7_spec (q : ℚ) (h0 : 0 ≤ q) (h1 : q ≤ 1) :
    (print_f7 q).length ≤ 9 ∧ print_f7 q ≠ [] ∧
    ∀ c ∈ print_f7 q, (48 ≤ c ∧ c ≤ 57) ∨ c = 46 := by
  have hr := round_f7_le q h0 h1
  have hneg : ¬ q < 0 := not_lt.2 h0
  obtain ⟨d1, d2, d3⟩ := print_d_spec (round_f7 q / 10000000) 1 (by decide) (by omega)
  unfold print_f7
  simp only [hneg, if_false, List.nil_append]
  refine ⟨?_, ?_, ?_⟩
  · simp only [List.length_append, List.length_cons, List.length_nil]
    omega
  · simp
  · intro c hc
    simp only [List.mem_append, List.mem_cons, List.mem_singleton, List.not_mem_nil,
      or_false] at hc
    rcases hc with (hc | hc) | hc
    · exact Or.inl (d2 c hc)
    · exact Or.inr hc
    · left; omega

theorem field_ok_of_digits (f : List Nat) (hne : f ≠ [])
    (h : ∀ c ∈ f, (48 ≤ c ∧ c ≤ 57) ∨ c = 46) : field_ok f := by
  refine ⟨hne, ?_⟩
  intro c hc
  have := h c hc
  omega

/-! ## Reading the codebook -/

theorem fgets_aux_line (room : Nat) (body rest : List Nat) (h10 : ∀ c ∈ body, c ≠ 10)
    (hroom : body.length < room) :
    fgets_aux room (body ++ 10 :: rest) = (body ++ [10], rest) := by
  induction body generalizing room with
  | nil =>
    cases room with
    | zero => simp at hroom
    | succ room => simp [fgets_aux]
  | cons c body ih =>
    cases room with
    | zero => simp at hroom
    | succ room =>
      have hc : c ≠ 10 := h10 c (List.mem_cons_self _ _)
      have := ih room (fun x hx => h10 x (List.mem_cons_of_mem _ hx))
        (by simp only [List.length_cons] at hroom; omega)
      show fgets_aux (room + 1) (c :: (body ++ 10 :: rest)) = _
      simp only [fgets_aux, hc, if_false, this]
      rfl

theorem strip_eol_line (body : List Nat) (h : ∀ c ∈ body, c ≠ 13 ∧ c ≠ 10) :
    strip_eol (body ++ [10]) = body := by
  unfold strip_eol
  induction body with
  | nil => simp [List.takeWhile]
  | cons c body ih =>
    have hc := h c (List.mem_cons_self _ _)
    have := ih (fun x hx => h x (List.mem_cons_of_mem _ hx))
    simp only [List.cons_append, List.takeWhile_cons, this]
    simp [hc.1, hc.2]

theorem line_fields_of_body (body : List Nat) (h : ∀ c ∈ body, c ≠ 0 ∧ c ≠ 10 ∧ c ≠ 13) :
    line_fields (body ++ [10]) = strtok_fields body [] := by
  unfold line_fields
  rw [cstr_of_nonzero, strip_eol_line]
  · intro c hc; exact ⟨(h c hc).2.2, (h c hc).2.1⟩
  · intro c hc
    rcases List.mem_append.1 hc with hc | hc
    · exact (h c hc).1
    · simp only [List.mem_singleton] at hc
      omega

theorem strtok_fields_run (f s cur : List Nat) (hf : ∀ c ∈ f, c ≠ 44) :
    strtok_fields (f ++ s) cur = strtok_fields s (cur ++ f) := by
  induction f generalizing cur with
  | nil => simp
  | cons c f ih =>
    have hc : c ≠ 44 := hf c (List.mem_cons_self _ _)
    show strtok_fields (c :: (f ++ s)) cur = _
    simp only [strtok_fields, hc, if_false]
    rw [ih (cur ++ [c]) (fun x hx => hf x (List.mem_cons_of_mem _ hx))]
    simp

theorem strtok_fields_field (f s : List Nat) (hf : ∀ c ∈ f, c ≠ 44) (hne : f ≠ []) :
    strtok_fields (f ++ 44 :: s) [] = f :: strtok_fields s [] := by
  rw [strtok_fields_run f _ [] hf]
  simp [strtok_fields, hne]

theorem strtok_fields_last (f : List Nat) (hf : ∀ c ∈ f, c ≠ 44) (hne : f ≠ []) :
    strtok_fields f [] = [f] := by
  have := strtok_fields_run f [] [] hf
  simp only [List.append_nil, List.nil_append] at this
  rw [this]
  simp [strtok_fields, hne]

theorem strtok_fields_four (f1 f2 f3 f4 : List Nat)
    (h1 : ∀ c ∈ f1, c ≠ 44) (n1 : f1 ≠ []) (h2 : ∀ c ∈ f2, c ≠ 44) (n2 : f2 ≠ [])
    (h3 : ∀ c ∈ f3, c ≠ 44) (n3 : f3 ≠ []) (h4 : ∀ c ∈ f4, c ≠ 44) (n4 : f4 ≠ []) :
    strtok_fields (f1 ++ 44 :: (f2 ++ 44 :: (f3 ++ 44 :: f4))) [] = [f1, f2, f3, f4] := by
  rw [strtok_fields_field f1 _ h1 n1, strtok_fields_field f2 _ h2 n2,
    strtok_fields_field f3 _ h3 n3, strtok_fields_last f4 h4 n4]

theorem strchr_none (c : Nat) (l : List Nat) (h : ∀ x ∈ l, x ≠ c) : strchr c l = none := by
  induction l with
  | nil => rfl
  | cons x l ih =>
    have hx := h x (List.mem_cons_self _ _)
    simp [strchr, hx, ih (fun y hy => h y (List.mem_cons_of_mem _ hy))]

theorem strchr_skip (c : Nat) (l r : List Nat) (h : ∀ x ∈ l, x ≠ c) :
    strchr c (l ++ c :: r) = some l.length := by
  induction l with
  | nil => simp [strchr]
  | cons x l ih =>
    have hx := h x (List.mem_cons_self _ _)
    simp [strchr, hx, ih (fun y hy => h y (List.mem_cons_of_mem _ hy))]

theorem extract_symbol_bracketed (s : List Nat) (d : Nat) (hne : s ≠ [])
    (h93 : ∀ c ∈ s, c ≠ 93) : extract_symbol (91 :: (s ++ [93])) d = s := by
  have h1 : strchr 91 (91 :: (s ++ [93])) = some 0 := by simp [strchr]
  have h2 : strchr 93 (91 :: (s ++ [93])) = some (s.length + 1) := by
    have := strchr_skip 93 (91 :: s) [] (by
      intro x hx
      rcases List.mem_cons.1 hx with rfl | hx
      · decide
      · exact h93 x hx)
    simpa using this
  have hpos : 0 < s.length := List.length_pos.2 hne
  unfold extract_symbol
  rw [h1, h2]
  simp only [Nat.zero_add, Nat.add_sub_cancel, hpos, if_true, Nat.lt_add_left_iff_pos,
    Nat.lt_add_one, List.drop_succ_cons, List.drop_zero]
  simp

/-- One well-formed codebook line is read back as the entry it was written for. -/
theorem parse_line (s cnt prob cw rest : List Nat) (hs : serializable s)
    (hs0 : ∀ c ∈ s, c ≠ 0) (hs31 : s.length ≤ 31) (hcnt : field_ok cnt)
    (hprob : field_ok prob) (hcw : field_ok cw) (hcw31 : cw.length ≤ 31)
    (hlen : s.length + cnt.length + prob.length + cw.length + 6 ≤ 1023) :
    fgets 1024 ((91 :: (s ++ [93])) ++ 44 :: (cnt ++ 44 :: (prob ++ 44 :: cw)) ++ [10] ++ rest)
      = ((91 :: (s ++ [93])) ++ 44 :: (cnt ++ 44 :: (prob ++ 44 :: cw)) ++ [10], rest) ∧
    (line_fields ((91 :: (s ++ [93])) ++ 44 :: (cnt ++ 44 :: (prob ++ 44 :: cw)) ++
      [10])).length ≤ 10 ∧
    entry_of_fields
      (line_fields ((91 :: (s ++ [93])) ++ 44 :: (cnt ++ 44 :: (prob ++ 44 :: cw)) ++ [10]))
      = some ⟨s, cw⟩ := by
  have hsplain : ∀ c ∈ s, c ≠ 0 ∧ c ≠ 10 ∧ c ≠ 13 := by
    intro c hc
    refine ⟨hs0 c hc, ?_⟩
    rcases hs with rfl | rfl | ⟨_, h⟩
    · simp only [List.mem_singleton] at hc; omega
    · simp only [List.mem_singleton] at hc; omega
    · exact ⟨(h c hc).2.2.1, (h c hc).2.2.2⟩
  have hplain : ∀ c ∈ (91 :: (s ++ [93])) ++ 44 :: (cnt ++ 44 :: (prob ++ 44 :: cw)),
      c ≠ 0 ∧ c ≠ 10 ∧ c ≠ 13 := by
    have p2 : ∀ c ∈ cnt, c ≠ 0 ∧ c ≠ 10 ∧ c ≠ 13 :=
      fun c hc => ⟨(hcnt.2 c hc).1, (hcnt.2 c hc).2.1, (hcnt.2 c hc).2.2.1⟩
    have p3 : ∀ c ∈ prob, c ≠ 0 ∧ c ≠ 10 ∧ c ≠ 13 :=
      fun c hc => ⟨(hprob.2 c hc).1, (hprob.2 c hc).2.1, (hprob.2 c hc).2.2.1⟩
    have p4 : ∀ c ∈ cw, c ≠ 0 ∧ c ≠ 10 ∧ c ≠ 13 :=
      fun c hc => ⟨(hcw.2 c hc).1, (hcw.2 c hc).2.1, (hcw.2 c hc).2.2.1⟩
    simp only [List.cons_append, List.forall_mem_cons, List.forall_mem_append,
      List.forall_mem_singleton]
    exact ⟨by decide, ⟨hsplain, by decide, by simp⟩, by decide, p2, by decide, p3, by decide, p4⟩
  have hfgets : fgets 1024
      ((91 :: (s ++ [93])) ++ 44 :: (cnt ++ 44 :: (prob ++ 44 :: cw)) ++ [10] ++ rest) =
      ((91 :: (s ++ [93])) ++ 44 :: (cnt ++ 44 :: (prob ++ 44 :: cw)) ++ [10], rest) := by
    unfold fgets
    have := fgets_aux_line (1024 - 1)
      ((91 :: (s ++ [93])) ++ 44 :: (cnt ++ 44 :: (prob ++ 44 :: cw))) rest
      (fun c hc => (hplain c hc).2.1)
      (by simp only [List.length_append, List.length_cons, List.length_nil]; omega)
    rw [← this]
    simp
  refine ⟨hfgets, ?_⟩
  rw [line_fields_of_body _ hplain]
  have c2 : ∀ c ∈ cnt, c ≠ 44 := fun c hc => (hcnt.2 c hc).2.2.2
  have c3 : ∀ c ∈ prob, c ≠ 44 := fun c hc => (hprob.2 c hc).2.2.2
  have c4 : ∀ c ∈ cw, c ≠ 44 := fun c hc => (hcw.2 c hc).2.2.2
  have htake : cw.take 31 = cw := List.take_of_length_le hcw31
  have hstake : s.take 31 = s := List.take_of_length_le hs31
  rcases hs with rfl | rfl | ⟨hne, h⟩
  · have hf : strtok_fields ((91 :: ([44] ++ [93])) ++ 44 :: (cnt ++ 44 :: (prob ++ 44 :: cw))) []
        = [[91], [93], cnt, prob, cw] := by
      have := strtok_fields_four [93] cnt prob cw (by decide) (by decide) c2 hcnt.1 c3 hprob.1
        c4 hcw.1
      simp only [List.cons_append, List.nil_append, strtok_fields] at this ⊢
      simpa using this
    rw [hf]
    refine ⟨by simp, ?_⟩
    simp only [entry_of_fields, List.length_cons, List.length_nil]
    simp [htake, extract_symbol, strchr]
  · have hf : strtok_fields ((91 :: ([93] ++ [93])) ++ 44 :: (cnt ++ 44 :: (prob ++ 44 :: cw))) []
        = [[91, 93, 93], cnt, prob, cw] := by
      have := strtok_fields_four [91, 93, 93] cnt prob cw (by decide) (by decide) c2 hcnt.1
        c3 hprob.1 c4 hcw.1
      simpa using this
    rw [hf]
    refine ⟨by simp, ?_⟩
    simp only [entry_of_fields, List.length_cons, List.length_nil]
    simp [htake, extract_symbol, strchr]
  · have c1 : ∀ c ∈ 91 :: (s ++ [93]), c ≠ 44 := by
      intro c hc
      simp only [List.mem_cons, List.mem_append, List.mem_singleton, List.not_mem_nil,
        or_false] at hc
      rcases hc with rfl | hc | rfl
      · decide
      · exact (h c hc).1
      · decide
    rw [strtok_fields_four (91 :: (s ++ [93])) cnt prob cw c1 (by simp) c2 hcnt.1 c3 hprob.1
      c4 hcw.1]
    refine ⟨by simp, ?_⟩
    simp only [entry_of_fields, List.length_cons, List.length_nil]
    simp [htake, hstake, extract_symbol_bracketed s 93 hne (fun c hc => (h c hc).2.1)]

theorem codebook_line_eq (e : Symbol) :
    codebook_line e =
      (91 :: (e.symbol ++ [93])) ++
        44 :: (print_d e.count ++ 44 :: (print_f7 e.probability ++ 44 :: e.codeword)) ++
        [10] := by
  simp [codebook_line]

theorem codebook_line_length (e : Symbol) :
    (codebook_line e).length =
      e.symbol.length + (print_d e.count).length + (print_f7 e.probability).length +
        e.codeword.length + 6 := by
  simp [codebook_line]
  omega

theorem load_codebook_loop_succ (fuel : Nat) (stream : List Nat) (cb : List CodebookEntry)
    (hne : stream ≠ []) :
    load_codebook_loop (fuel + 1) stream cb =
      if 10 < (line_fields (fgets 1024 stream).1).length then none
      else
        match entry_of_fields (line_fields (fgets 1024 stream).1) with
        | none => load_codebook_loop fuel (fgets 1024 stream).2 cb
        | some e =>
          if cb.length < MAX_ENTRIES then
            load_codebook_loop fuel (fgets 1024 stream).2 (cb ++ [e])
          else none := by
  cases stream with
  | nil => exact absurd rfl hne
  | cons c stream => rfl

/-- Reading back the lines written for a table of well-formed entries appends the
corresponding codebook entries, in order. -/
theorem load_codebook_loop_table (tbl : List Symbol) (cb : List CodebookEntry) (fuel : Nat)
    (hfuel : (write_codebook tbl).length < fuel)
    (hcap : cb.length + tbl.length ≤ MAX_ENTRIES) (hok : ∀ e ∈ tbl, line_ok e) :
    load_codebook_loop fuel (write_codebook tbl) cb =
      some (cb ++ tbl.map to_codebook_entry) := by
  induction tbl generalizing cb fuel with
  | nil =>
    cases fuel with
    | zero => simp at hfuel
    | succ fuel => simp [write_codebook, load_codebook_loop]
  | cons e es ih =>
    obtain ⟨h1, h2, h3, h4, h5, h6, h7, h8⟩ := hok e (List.mem_cons_self _ _)
    cases fuel with
    | zero => simp at hfuel
    | succ fuel =>
      obtain ⟨p1, p2, p3⟩ := parse_line e.symbol (print_d e.count) (print_f7 e.probability)
        e.codeword (write_codebook es) h1 h2 h3 h4 h5 h6 h7 h8
      have hw : write_codebook (e :: es) = codebook_line e ++ write_codebook es := rfl
      have hne : write_codebook (e :: es) ≠ [] := by
        rw [hw, codebook_line_eq]; simp
      rw [load_codebook_loop_succ fuel _ cb hne, hw, codebook_line_eq, p1]
      simp only [p3]
      have hlt : cb.length < MAX_ENTRIES := by
        simp only [List.length_cons] at hcap; omega
      have hnot : ¬ 10 < (line_fields ((91 :: (e.symbol ++ [93])) ++
          44 :: (print_d e.count ++ 44 :: (print_f7 e.probability ++ 44 :: e.codeword)) ++
          [10])).length := by omega
      simp only [hnot, if_false, hlt, if_true]
      rw [ih (cb ++ [CodebookEntry.mk e.symbol e.codeword]) fuel]
      · simp [to_codebook_entry]
      · rw [hw, List.length_append] at hfuel
        have := codebook_line_length e
        omega
      · simp only [List.length_append, List.length_cons, List.length_nil] at hcap ⊢
        omega
      · intro x hx; exact hok x (List.mem_cons_of_mem _ hx)

theorem load_codebook_table (tbl : List Symbol) (hcap : tbl.length ≤ MAX_ENTRIES)
    (hok : ∀ e ∈ tbl, line_ok e) :
    load_codebook (write_codebook tbl) = some (tbl.map to_codebook_entry) := by
  unfold load_codebook
  rw [load_codebook_loop_table tbl [] _ (by omega) (by simpa using hcap) hok]
  simp

/-! ## The table written by the encoder -/

theorem forall_freq_tokens (Q : List Nat → Prop)
    (h : ∀ c rest, Q (escape_special (cstr (read_symbol_freq c rest).1)))
    (input : List Nat) : ∀ t ∈ freq_tokens input, Q t := by
  suffices H : ∀ n (input : List Nat), input.length ≤ n → ∀ t ∈ freq_tokens input, Q t from
    H input.length input (le_refl _)
  intro n
  induction n with
  | zero =>
    intro input hn t ht
    have : input = [] := List.length_eq_zero.1 (by omega)
    subst this
    simp [freq_tokens_nil] at ht
  | succ n ih =>
    intro input hn
    cases input with
    | nil => simp [freq_tokens_nil]
    | cons c rest =>
      rw [freq_tokens_cons]
      intro t ht
      rcases List.mem_cons.1 ht with rfl | ht
      · exact h c rest
      · have hl := read_symbol_freq_length_le c rest
        simp only [List.length_cons] at hn
        exact ih _ (by omega) t ht

theorem freq_tokens_length_le (input : List Nat) :
    (freq_tokens input).length ≤ input.length := by
  suffices H : ∀ n (input : List Nat), input.length ≤ n →
      (freq_tokens input).length ≤ input.length from H input.length input (le_refl _)
  intro n
  induction n with
  | zero =>
    intro input hn
    have : input = [] := List.length_eq_zero.1 (by omega)
    subst this
    simp [freq_tokens_nil]
  | succ n ih =>
    intro input hn
    cases input with
    | nil => simp [freq_tokens_nil]
    | cons c rest =>
      rw [freq_tokens_cons]
      have hl := read_symbol_freq_length_le c rest
      simp only [List.length_cons] at hn ⊢
      have := ih (read_symbol_freq c rest).2 (by omega)
      omega

theorem read_symbol_freq_buf_length (c : Nat) (rest : List Nat) :
    (read_symbol_freq c rest).1.length ≤ 4 := by
  unfold read_symbol_freq
  split
  · simp
  · split
    · simp
    · split
      · simp
      · split <;> simp

theorem cstr_nonzero (buf : List Nat) : ∀ c ∈ cstr buf, c ≠ 0 := by
  intro c hc
  have := List.mem_takeWhile_imp hc
  simpa using this

theorem cstr_length_le (buf : List Nat) : (cstr buf).length ≤ buf.length :=
  (List.takeWhile_sublist _).length_le

theorem escape_special_props (s : List Nat) (h0 : ∀ c ∈ s, c ≠ 0) (hl : s.length ≤ 4) :
    (∀ c ∈ escape_special s, c ≠ 0) ∧ (escape_special s).length ≤ 4 := by
  rw [escape_special_eq]
  split
  · exact ⟨by decide, by decide⟩
  · split
    · exact ⟨by decide, by decide⟩
    · split
      · exact ⟨by decide, by decide⟩
      · exact ⟨h0, hl⟩

theorem freq_tokens_props (input : List Nat) :
    ∀ t ∈ freq_tokens input, (∀ c ∈ t, c ≠ 0) ∧ t.length ≤ 4 :=
  forall_freq_tokens _ (fun c rest =>
    escape_special_props _ (cstr_nonzero _)
      (le_trans (cstr_length_le _) (read_symbol_freq_buf_length c rest))) input

theorem foldl_observe_symbols_subset (ts : List (List Nat)) (symbols : List Symbol) :
    ∀ s ∈ (ts.foldl observe symbols).map Symbol.symbol,
      s ∈ symbols.map Symbol.symbol ∨ s ∈ ts := by
  induction ts generalizing symbols with
  | nil => intro s hs; exact Or.inl hs
  | cons t ts ih =>
    intro s hs
    rcases ih (observe symbols t) s hs with h | h
    · rw [observe_symbols] at h
      split at h
      · exact Or.inl h
      · split at h
        · rcases List.mem_append.1 h with h | h
          · exact Or.inl h
          · simp only [List.mem_singleton] at h
            exact Or.inr (by rw [h]; exact List.mem_cons_self _ _)
        · exact Or.inl h
    · exact Or.inr (List.mem_cons_of_mem _ h)

theorem count_le_length (ts : List (List Nat)) (s : List Nat) : ts.count s ≤ ts.length :=
  List.count_le_length s ts

/-- Every entry of the table built by `calculate_frequency` carries a token of the input,
a count of at most the number of tokens, and the quotient of the two as probability. -/
theorem calculate_frequency_entry (input : List Nat) (e : Symbol)
    (he : e ∈ calculate_frequency input) :
    e.symbol ∈ freq_tokens input ∧ e.count ≤ (freq_tokens input).length ∧
    e.probability = (e.count : ℚ) / ((freq_tokens input).length : ℚ) := by
  rw [calculate_frequency_eq] at he
  obtain ⟨e0, he0, rfl⟩ := List.mem_map.1 he
  have hnd := foldl_observe_nodup (freq_tokens input) [] (by simp)
  refine ⟨?_, ?_, rfl⟩
  · have := foldl_observe_symbols_subset (freq_tokens input) [] e0.symbol
      (List.mem_map_of_mem _ he0)
    simpa using this
  · have h1 := symbol_count_of_mem _ hnd e0 he0
    have h2 := foldl_observe_symbol_count_le (freq_tokens input) [] e0.symbol
    have h3 := count_le_length (freq_tokens input) e0.symbol
    have h4 : symbol_count_of [] e0.symbol = 0 := rfl
    rw [h4, h1, zero_add] at h2
    exact le_trans h2 h3

theorem generate_codewords_from_mem (k : Nat) (symbols : List Symbol) (e : Symbol)
    (he : e ∈ generate_codewords_from k symbols) :
    ∃ e0 ∈ symbols, ∃ i, e = { e0 with codeword := codeword_of i } := by
  induction symbols generalizing k with
  | nil => simp [generate_codewords_from] at he
  | cons a es ih =>
    simp only [generate_codewords_from, List.mem_cons] at he
    rcases he with rfl | he
    · exact ⟨a, List.mem_cons_self _ _, k, rfl⟩
    · obtain ⟨e0, h1, i, h2⟩ := ih (k + 1) he
      exact ⟨e0, List.mem_cons_of_mem _ h1, i, h2⟩

theorem ranked_table_mem (input : List Nat) (e : Symbol) (he : e ∈ ranked_table input) :
    ∃ e0 ∈ calculate_frequency input, ∃ i, e = { e0 with codeword := codeword_of i } := by
  obtain ⟨e0, h1, i, h2⟩ := generate_codewords_from_mem 0 _ e he
  exact ⟨e0, (qsort_perm _).mem_iff.1 h1, i, h2⟩

theorem calculate_frequency_length_le (input : List Nat) :
    (calculate_frequency input).length ≤ TOTAL_SYMBOLS := by
  rw [calculate_frequency_eq, List.length_map]
  exact foldl_observe_length_le _ [] (by simp [TOTAL_SYMBOLS])

theorem ranked_table_length (input : List Nat) :
    (ranked_table input).length = (calculate_frequency input).length := by
  unfold ranked_table generate_codewords
  rw [generate_codewords_from_length]
  exact (qsort_perm _).length_eq

theorem field_ok_codeword_of (i : Nat) : field_ok (codeword_of i) := by
  refine ⟨?_, ?_⟩
  · intro h
    have := codeword_of_length i
    rw [h] at this
    exact absurd this (by decide)
  · intro c hc
    have := codeword_of_chars i c hc
    omega

theorem ranked_table_line_ok (input : List Nat)
    (hlen : (freq_tokens input).length < 10 ^ 10)
    (hser : ∀ t ∈ freq_tokens input, serializable t) :
    ∀ e ∈ ranked_table input, line_ok e := by
  intro e he
  obtain ⟨e0, he0, i, rfl⟩ := ranked_table_mem input e he
  obtain ⟨h1, h2, h3⟩ := calculate_frequency_entry input e0 he0
  obtain ⟨t0, t4⟩ := freq_tokens_props input e0.symbol h1
  have hcount : e0.count < 10 ^ 10 := lt_of_le_of_lt h2 hlen
  obtain ⟨d1, d2, d3⟩ := print_d_spec e0.count 10 (by decide) hcount
  have hq0 : (0 : ℚ) ≤ e0.probability := by
    rw [h3]; positivity
  have hq1 : e0.probability ≤ 1 := by
    rw [h3]
    apply div_le_one_of_le₀
    · exact_mod_cast h2
    · positivity
  obtain ⟨f1, f2, f3⟩ := print_f7_spec e0.probability hq0 hq1
  refine ⟨hser _ h1, t0, (by show e0.symbol.length ≤ 31; omega), ?_, ?_,
    field_ok_codeword_of i, ?_, ?_⟩
  · exact field_ok_of_digits _ d3 (fun c hc => Or.inl (d2 c hc))
  · exact field_ok_of_digits _ f2 f3
  · show (codeword_of i).length ≤ 31
    rw [codeword_of_length]; decide
  · show e0.symbol.length + (print_d e0.count).length + (print_f7 e0.probability).length +
      (codeword_of i).length + 6 ≤ 1023
    rw [codeword_of_length]
    omega

/-- C4 (amended): for every input shorter than 2^31 bytes (counts are C `int`s) whose
tokens are each the single character `','` or `']'` or a non-empty string without `','`,
`']'`, LF and CR, `load_codebook` applied to the lines written by `write_codebook` for the
ranked table yields a codebook with the same number of entries, in the same order, each
with the same symbol and the same codeword as the entry that was written. -/
theorem codebook_round_trip (input : List Nat) (hlen : input.length < 2 ^ 31)
    (hser : ∀ t ∈ freq_tokens input, serializable t) :
    load_codebook (write_codebook (ranked_table input)) =
      some ((ranked_table input).map to_codebook_entry) := by
  apply load_codebook_table
  · rw [ranked_table_length]
    exact calculate_frequency_length_le input
  · have h1 := freq_tokens_length_le input
    have h2 : (2 : Nat) ^ 31 < 10 ^ 10 := by decide
    exact ranked_table_line_ok input (by omega) hser

theorem codebook_round_trip_witness :
    ([97, 44, 91, 93, 10, 228, 184, 173, 97].length < 2 ^ 31 ∧
      ∀ t ∈ freq_tokens [97, 44, 91, 93, 10, 228, 184, 173, 97], serializable t) ∧
    load_codebook (write_codebook (ranked_table [97, 44, 91, 93, 10, 228, 184, 173, 97])) =
      some ((ranked_table [97, 44, 91, 93, 10, 228, 184, 173, 97]).map to_codebook_entry) :=
  ⟨⟨by decide, by unfold serializable; decide!⟩,
    codebook_round_trip _ (by decide) (by unfold serializable; decide!)⟩

/-- C4 (counterexample): the input consisting of one NUL byte yields a table whose only
symbol is the empty string; its codebook line `[],1,1.0000000,0000000` is read back with
the placeholder symbol `]`. -/
theorem codebook_round_trip_empty_symbol :
    (ranked_table [0]).map to_codebook_entry = [⟨[], [48, 48, 48, 48, 48, 48, 48]⟩] ∧
    write_codebook (ranked_table [0]) =
      [91, 93, 44, 49, 44, 49, 46, 48, 48, 48, 48, 48, 48, 48, 44,
       48, 48, 48, 48, 48, 48, 48, 10] ∧
    load_codebook (write_codebook (ranked_table [0])) =
      some [⟨[93], [48, 48, 48, 48, 48, 48, 48]⟩] ∧
    load_codebook (write_codebook (ranked_table [0])) ≠
      some ((ranked_table [0]).map to_codebook_entry) := by
  decide!

/-! ## Decoding windows -/

theorem shl_or_bit (v d : Nat) (hd : d < 2) : (v <<< 1) ||| d = 2 * v + d := by
  rw [Nat.shiftLeft_eq, pow_one, Nat.mul_comm]
  have := Nat.mul_add_lt_is_or (i := 1) (b := d) (by simpa using hd) v
  simpa using this.symm

theorem length_seven (l : List Nat) (h : l.length = 7) :
    ∃ c0 c1 c2 c3 c4 c5 c6, l = [c0, c1, c2, c3, c4, c5, c6] := by
  rcases l with _ | ⟨c0, _ | ⟨c1, _ | ⟨c2, _ | ⟨c3, _ | ⟨c4, _ | ⟨c5, _ | ⟨c6, _ | ⟨c7, l⟩⟩⟩⟩⟩⟩⟩⟩ <;>
    simp at h
  exact ⟨c0, c1, c2, c3, c4, c5, c6, rfl⟩

theorem getD_window (pre code rest : List Nat) (k : Nat) (hk : k < code.length) :
    (pre ++ code ++ rest).getD (pre.length + k) 0 = code.getD k 0 := by
  rw [List.append_assoc, List.getD_append_right _ _ _ _ (by omega)]
  simp only [Nat.add_sub_cancel_left]
  rw [List.getD_append _ _ _ _ hk]

/-- The value of a window that holds a codeword is the number the codeword denotes. -/
theorem window_value_codeword (pre code rest : List Nat) (hcw : is_codeword code) :
    window_value (pre ++ code ++ rest) pre.length = bits_value code := by
  obtain ⟨hlen, hch⟩ := hcw
  have hg : ∀ k, k < 7 → (pre ++ code ++ rest).getD (pre.length + k) 0 = code.getD k 0 :=
    fun k hk => getD_window pre code rest k (by omega)
  obtain ⟨c0, c1, c2, c3, c4, c5, c6, rfl⟩ := length_seven code hlen
  have hr : List.range 7 = [0, 1, 2, 3, 4, 5, 6] := by decide
  unfold window_value
  rw [hr]
  simp only [List.foldl, hg 0 (by decide), hg 1 (by decide), hg 2 (by decide),
    hg 3 (by decide), hg 4 (by decide), hg 5 (by decide), hg 6 (by decide)]
  have b0 : c0 - 48 < 2 := by have := hch c0 (by simp); omega
  have b1 : c1 - 48 < 2 := by have := hch c1 (by simp); omega
  have b2 : c2 - 48 < 2 := by have := hch c2 (by simp); omega
  have b3 : c3 - 48 < 2 := by have := hch c3 (by simp); omega
  have b4 : c4 - 48 < 2 := by have := hch c4 (by simp); omega
  have b5 : c5 - 48 < 2 := by have := hch c5 (by simp); omega
  have b6 : c6 - 48 < 2 := by have := hch c6 (by simp); omega
  simp only [List.getD_cons_zero, List.getD_cons_succ, shl_or_bit _ _ b0, shl_or_bit _ _ b1,
    shl_or_bit _ _ b2, shl_or_bit _ _ b3, shl_or_bit _ _ b4, shl_or_bit _ _ b5,
    shl_or_bit _ _ b6, bits_value, List.foldl]

theorem emit_symbol_codeword (pre code rest : List Nat) (hcw : is_codeword code)
    (e : CodebookEntry) :
    emit_symbol (pre ++ code ++ rest) pre.length e = (expand_symbol e.symbol, pre.length) := by
  have hg := getD_window pre code rest 1 (by rw [hcw.1]; decide)
  have hne : (pre ++ code ++ rest).getD (pre.length + 1) 0 ≠ 10 := by
    rw [hg]
    obtain ⟨c0, c1, c2, c3, c4, c5, c6, rfl⟩ := length_seven code hcw.1
    have := hcw.2 c1 (by simp)
    simp only [List.getD_cons_succ, List.getD_cons_zero]
    omega
  unfold emit_symbol expand_symbol
  simp only [hne, if_false]
  split
  · rfl
  · split
    · rfl
    · split <;> rfl

theorem concat_codewords_append (a b : List (List Nat)) :
    concat_codewords (a ++ b) = concat_codewords a ++ concat_codewords b := by
  induction a with
  | nil => rfl
  | cons x a ih => simp [concat_codewords, ih]

/-- The window loop, one iteration unfolded (the text of lines 360-405). -/
theorem decode_loop_succ (fuel : Nat) (bitstream : List Nat) (codebook : List CodebookEntry)
    (i : Nat) (out : List Nat) :
    decode_loop (fuel + 1) bitstream codebook i out =
      if i + 7 ≤ bitstream.length then
        if window_value bitstream i = 0 ∧ i + 7 = bitstream.length then some out
        else
          match find_entry (window_value bitstream i) codebook with
          | none => decode_loop fuel bitstream codebook (i + 7) out
          | some e =>
            decode_loop fuel bitstream codebook ((emit_symbol bitstream i e).2 + 7)
              (out ++ (emit_symbol bitstream i e).1)
      else some out := by
  rw [decode_loop]
  unfold decode_step
  by_cases h1 : i + 7 ≤ bitstream.length
  · by_cases h2 : window_value bitstream i = 0 ∧ i + 7 = bitstream.length
    · rw [if_pos h1, if_pos h2, if_pos h1, if_pos h2]
    · rw [if_pos h1, if_neg h2, if_pos h1, if_neg h2]
      cases find_entry (window_value bitstream i) codebook with
      | none => simp only [List.append_nil]
      | some e => rfl
  · rw [if_neg h1, if_neg h1]

/-- The trace of the window loop, one iteration unfolded. -/
theorem decode_windows_succ (fuel : Nat) (bitstream : List Nat)
    (codebook : List CodebookEntry) (i : Nat) :
    decode_windows (fuel + 1) bitstream codebook i =
      if i + 7 ≤ bitstream.length then
        if window_value bitstream i = 0 ∧ i + 7 = bitstream.length then [(i, false)]
        else
          match find_entry (window_value bitstream i) codebook with
          | none => (i, true) :: decode_windows fuel bitstream codebook (i + 7)
          | some e =>
            (i, true) ::
              decode_windows fuel bitstream codebook ((emit_symbol bitstream i e).2 + 7)
      else [] := by
  rw [decode_windows]
  unfold decode_step
  by_cases h1 : i + 7 ≤ bitstream.length
  · by_cases h2 : window_value bitstream i = 0 ∧ i + 7 = bitstream.length
    · simp only [if_pos h1, if_pos h2]
    · simp only [if_pos h1, if_neg h2]
      cases find_entry (window_value bitstream i) codebook with
      | none => rfl
      | some e => rfl
  · simp only [if_neg h1]

/-- The window loop on a bit sequence made of codewords followed by fewer than 8 zero
padding bits: every window is resolved to the entry it was written for, provided the bit
sequence does not end with an all-zero codeword. -/
theorem decode_loop_windows (cb es : List CodebookEntry) (pre : List Nat) (k : Nat)
    (out : List Nat) (fuel : Nat) (hfuel : es.length < fuel) (hk : k < 8)
    (hes : ∀ e ∈ es, is_codeword e.code ∧ find_entry (bits_value e.code) cb = some e)
    (hlast : k = 0 → ∀ e, es.getLast? = some e → bits_value e.code ≠ 0) :
    decode_loop fuel
        (pre ++ concat_codewords (es.map CodebookEntry.code) ++ List.replicate k 48) cb
        pre.length out =
      some (out ++ concat_codewords (es.map (fun e => expand_symbol e.symbol))) := by
  induction es generalizing pre out fuel with
  | nil =>
    cases fuel with
    | zero => simp at hfuel
    | succ fuel =>
      simp only [List.map_nil, concat_codewords, List.append_nil, decode_loop_succ,
        List.length_append, List.length_replicate]
      by_cases h7 : k = 7
      · subst h7
        have hw : window_value (pre ++ List.replicate 7 48) pre.length = 0 := by
          have := window_value_codeword pre (List.replicate 7 48) []
            ⟨by simp, by intro c hc; left; exact List.eq_of_mem_replicate hc⟩
          simpa [bits_value] using this
        simp only [hw, le_refl, if_true, and_self]
      · have : ¬ pre.length + 7 ≤ pre.length + k := by omega
        simp [this]
  | cons e es ih =>
    cases fuel with
    | zero => simp at hfuel
    | succ fuel =>
      obtain ⟨hcw, hfind⟩ := hes e (List.mem_cons_self _ _)
      have hbits : pre ++ concat_codewords ((e :: es).map CodebookEntry.code) ++
            List.replicate k 48 =
          pre ++ e.code ++ (concat_codewords (es.map CodebookEntry.code) ++
            List.replicate k 48) := by
        simp [concat_codewords]
      have hbits2 : pre ++ concat_codewords ((e :: es).map CodebookEntry.code) ++
            List.replicate k 48 =
          (pre ++ e.code) ++ concat_codewords (es.map CodebookEntry.code) ++
            List.replicate k 48 := by
        simp [concat_codewords]
      have hw := window_value_codeword pre e.code
        (concat_codewords (es.map CodebookEntry.code) ++ List.replicate k 48) hcw
      have hem := emit_symbol_codeword pre e.code
        (concat_codewords (es.map CodebookEntry.code) ++ List.replicate k 48) hcw e
      have hlen : (pre ++ e.code ++ (concat_codewords (es.map CodebookEntry.code) ++
          List.replicate k 48)).length =
          pre.length + 7 + ((concat_codewords (es.map CodebookEntry.code)).length + k) := by
        simp only [List.length_append, List.length_replicate, hcw.1]
      have hnodiscard : ¬ (bits_value e.code = 0 ∧
          pre.length + 7 = (pre ++ e.code ++ (concat_codewords (es.map CodebookEntry.code) ++
            List.replicate k 48)).length) := by
        rintro ⟨hv, hl⟩
        rw [hlen] at hl
        have hk0 : k = 0 := by omega
        have hc0 : (concat_codewords (es.map CodebookEntry.code)).length = 0 := by omega
        have hes0 : es = [] := by
          cases es with
          | nil => rfl
          | cons e2 es2 =>
            exfalso
            have h2 := (hes e2 (by simp)).1.1
            simp only [List.map_cons, concat_codewords, List.length_append, h2] at hc0
            omega
        subst hes0
        exact hlast hk0 e (by simp) hv
      rw [hbits]
      rw [decode_loop_succ]
      rw [hw, hfind]
      have hle : pre.length + 7 ≤ (pre ++ e.code ++
          (concat_codewords (es.map CodebookEntry.code) ++ List.replicate k 48)).length := by
        rw [hlen]; omega
      simp only [hle, if_true, hnodiscard, if_false, hem]
      have hpl : pre.length + 7 = (pre ++ e.code).length := by
        simp [hcw.1]
      rw [← hbits, hbits2, hpl]
      rw [ih (pre ++ e.code) (out ++ expand_symbol e.symbol) fuel
        (by simp only [List.length_cons] at hfuel; omega)
        (fun x hx => hes x (List.mem_cons_of_mem _ hx))
        (by
          intro hk0 x hx
          apply hlast hk0 x
          cases es with
          | nil => simp at hx
          | cons e2 es2 => simpa [List.getLast?_cons_cons] using hx)]
      simp [concat_codewords]

/-! ## Inputs of one-byte and three-byte tokens -/

theorem ascii_lead : ∀ c < 128, c &&& 0x80 = 0 := by
  decide!

theorem three_byte_lead : ∀ c < 256, 224 ≤ c → c < 240 →
    ¬ (c &&& 0x80 = 0) ∧ ¬ (c &&& 0xE0 = 0xC0) ∧ c &&& 0xF0 = 0xE0 := by
  decide!

theorem read_symbol_ascii (c : Nat) (rest : List Nat) (hc : c < 128) :
    read_symbol_freq c rest = ([c], rest) ∧ read_symbol_enc c rest = ([c], rest) := by
  have h := ascii_lead c hc
  simp [read_symbol_freq, read_symbol_enc, h]

theorem read_symbol_three (c b1 b2 : Nat) (rest : List Nat) (h1 : 224 ≤ c) (h2 : c < 240) :
    read_symbol_freq c (b1 :: b2 :: rest) = ([c, b1, b2], rest) ∧
    read_symbol_enc c (b1 :: b2 :: rest) = ([c, b1, b2], rest) := by
  obtain ⟨g1, g2, g3⟩ := three_byte_lead c (by omega) h1 h2
  simp [read_symbol_freq, read_symbol_enc, g1, g2, g3, fgetc_char]

theorem token_ascii (c : Nat) (hc0 : 0 < c) :
    escape_special (cstr [c]) =
      if c = 10 then [92, 110] else if c = 9 then [92, 116]
      else if c = 13 then [92, 114] else [c] := by
  have : cstr [c] = [c] := cstr_of_nonzero _ (by
    intro b hb
    simp only [List.mem_singleton] at hb
    omega)
  rw [this, escape_special_eq]
  simp

theorem token_three (c b1 b2 : Nat) (h1 : 224 ≤ c) (hb1 : plain_byte b1)
    (hb2 : plain_byte b2) : escape_special (cstr [c, b1, b2]) = [c, b1, b2] := by
  have : cstr [c, b1, b2] = [c, b1, b2] := cstr_of_nonzero _ (by
    intro b hb
    simp only [List.mem_cons, List.mem_singleton, List.not_mem_nil, or_false] at hb
    rcases hb with rfl | rfl | rfl
    · omega
    · exact hb1.1
    · exact hb2.1)
  rw [this, escape_special_eq]
  simp

theorem freq_tokens_ascii (c : Nat) (rest : List Nat) (hc0 : 0 < c) (hc : c < 128) :
    freq_tokens (c :: rest) =
      (if c = 10 then [92, 110] else if c = 9 then [92, 116]
        else if c = 13 then [92, 114] else [c]) :: freq_tokens rest := by
  rw [freq_tokens_cons, (read_symbol_ascii c rest hc).1, token_ascii c hc0]

theorem freq_tokens_three (c b1 b2 : Nat) (rest : List Nat) (h1 : 224 ≤ c) (h2 : c < 240)
    (hb1 : plain_byte b1) (hb2 : plain_byte b2) :
    freq_tokens (c :: b1 :: b2 :: rest) = [c, b1, b2] :: freq_tokens rest := by
  rw [freq_tokens_cons, (read_symbol_three c b1 b2 rest h1 h2).1, token_three c b1 b2 h1 hb1 hb2]

/-- On these inputs the encoding pass reads the same tokens as the counting pass. -/
theorem enc_tokens_eq_freq_tokens (input : List Nat) (h : encodable input) :
    enc_tokens input = freq_tokens input := by
  induction h with
  | nil => rfl
  | ascii c rest hc0 hc _ ih =>
    rw [enc_tokens_cons, freq_tokens_cons, (read_symbol_ascii c rest hc).1,
      (read_symbol_ascii c rest hc).2, ih]
  | three c b1 b2 rest h1 h2 hb1 hb2 _ ih =>
    rw [enc_tokens_cons, freq_tokens_cons, (read_symbol_three c b1 b2 rest h1 h2).1,
      (read_symbol_three c b1 b2 rest h1 h2).2, ih]

theorem encodable_serializable (input : List Nat) (h : encodable input) :
    ∀ t ∈ freq_tokens input, serializable t := by
  induction h with
  | nil => simp [freq_tokens_nil]
  | ascii c rest hc0 hc _ ih =>
    rw [freq_tokens_ascii c rest hc0 hc]
    intro t ht
    rcases List.mem_cons.1 ht with rfl | ht
    · unfold serializable
      split
      · right; right; exact ⟨by decide, by decide⟩
      · split
        · right; right; exact ⟨by decide, by decide⟩
        · split
          · right; right; exact ⟨by decide, by decide⟩
          · by_cases h44 : c = 44
            · left; rw [h44]
            · by_cases h93 : c = 93
              · right; left; rw [h93]
              · right; right
                refine ⟨by simp, ?_⟩
                intro x hx
                simp only [List.mem_singleton] at hx
                subst hx
                omega
    · exact ih t ht
  | three c b1 b2 rest h1 h2 hb1 hb2 _ ih =>
    rw [freq_tokens_three c b1 b2 rest h1 h2 hb1 hb2]
    intro t ht
    rcases List.mem_cons.1 ht with rfl | ht
    · right; right
      refine ⟨by simp, ?_⟩
      intro x hx
      simp only [List.mem_cons, List.mem_singleton, List.not_mem_nil, or_false] at hx
      rcases hx with rfl | rfl | rfl
      · omega
      · exact ⟨hb1.2.2.2.1, hb1.2.2.2.2, hb1.2.1, hb1.2.2.1⟩
      · exact ⟨hb2.2.2.2.1, hb2.2.2.2.2, hb2.2.1, hb2.2.2.1⟩
    · exact ih t ht

theorem expand_symbol_eq (s : List Nat) :
    expand_symbol s =
      if s = [92, 114] then [] else if s = [92, 110] then [10]
      else if s = [92, 116] then [9] else s := by
  simp only [expand_symbol, strcmp_eq_zero_iff]

/-- The decoder's expansion of the tokens gives back the input without its CR bytes. -/
theorem expand_tokens (input : List Nat) (h : encodable input) :
    concat_codewords ((freq_tokens input).map expand_symbol) =
      input.filter (fun b => b != 13) := by
  induction h with
  | nil => rfl
  | ascii c rest hc0 hc _ ih =>
    rw [freq_tokens_ascii c rest hc0 hc, List.map_cons, concat_codewords, ih]
    by_cases h10 : c = 10
    · subst h10; rfl
    · by_cases h9 : c = 9
      · subst h9; rfl
      · by_cases h13 : c = 13
        · subst h13; rfl
        · simp only [h10, h9, h13, if_false, expand_symbol_eq]
          simp [List.filter_cons, h13]
  | three c b1 b2 rest h1 h2 hb1 hb2 _ ih =>
    rw [freq_tokens_three c b1 b2 rest h1 h2 hb1 hb2, List.map_cons, concat_codewords, ih,
      expand_symbol_eq]
    have hc13 : c ≠ 13 := by omega
    simp [List.filter_cons, hc13, hb1.2.2.1, hb2.2.2.1]

/-! ## Looking symbols up in the ranked table -/

theorem find_codeword_eq_lookup (t : List Nat) (symbols : List Symbol) :
    find_codeword t symbols = (lookup_symbol symbols t).map Symbol.codeword := by
  induction symbols with
  | nil => rfl
  | cons e es ih =>
    simp only [find_codeword, strcmp_eq_zero_iff, lookup_symbol, List.find?_cons]
    by_cases h : e.symbol = t
    · simp [h]
    · simp only [h, if_false, decide_False]
      exact ih

theorem lookup_symbol_some (symbols : List Symbol) (t : List Nat)
    (h : t ∈ symbols.map Symbol.symbol) :
    ∃ e, lookup_symbol symbols t = some e ∧ e ∈ symbols ∧ e.symbol = t := by
  induction symbols with
  | nil => simp at h
  | cons a es ih =>
    by_cases ha : a.symbol = t
    · exact ⟨a, by simp [lookup_symbol, List.find?_cons, ha], List.mem_cons_self _ _, ha⟩
    · have h' : t ∈ es.map Symbol.symbol := by
        simp only [List.map_cons, List.mem_cons] at h
        rcases h with h | h
        · exact absurd h.symm ha
        · exact h
      obtain ⟨e, h1, h2, h3⟩ := ih h'
      refine ⟨e, ?_, List.mem_cons_of_mem _ h2, h3⟩
      simp only [lookup_symbol, List.find?_cons, ha, decide_False]
      exact h1

/-- When every token is in the table, the codewords found for the tokens are those of a
list of table entries that carry the tokens, in order. -/
theorem found_codewords_resolved (symbols : List Symbol) (ts : List (List Nat))
    (hall : ∀ t ∈ ts, t ∈ symbols.map Symbol.symbol) :
    ∃ rs : List Symbol, rs.map Symbol.symbol = ts ∧ (∀ r ∈ rs, r ∈ symbols) ∧
      ts.filterMap (fun t => find_codeword t symbols) = rs.map Symbol.codeword := by
  induction ts with
  | nil => exact ⟨[], rfl, by simp, rfl⟩
  | cons t ts ih =>
    obtain ⟨rs, h1, h2, h3⟩ := ih (fun x hx => hall x (List.mem_cons_of_mem _ hx))
    obtain ⟨e, g1, g2, g3⟩ := lookup_symbol_some symbols t (hall t (List.mem_cons_self _ _))
    refine ⟨e :: rs, by simp [g3, h1], ?_, ?_⟩
    · intro r hr
      rcases List.mem_cons.1 hr with rfl | hr
      · exact g2
      · exact h2 r hr
    · simp [List.filterMap_cons, find_codeword_eq_lookup, g1, ← h3]

set_option maxRecDepth 100000 in
theorem code_value_codeword_of : ∀ m < 128, code_value (codeword_of m) = some m := by
  decide!

theorem find_entry_rank (k : Nat) (symbols : List Symbol) (hk : k + symbols.length ≤ 128)
    (i : Nat) (hi : i < symbols.length) :
    find_entry (k + i) ((generate_codewords_from k symbols).map to_codebook_entry) =
      ((generate_codewords_from k symbols)[i]?).map to_codebook_entry := by
  induction symbols generalizing k i with
  | nil => simp at hi
  | cons a es ih =>
    simp only [List.length_cons] at hk hi
    have hcv : code_value (codeword_of k) = some k := code_value_codeword_of k (by omega)
    cases i with
    | zero =>
      simp [generate_codewords_from, find_entry, to_codebook_entry, hcv]
    | succ i =>
      have hne : ¬ k = k + (i + 1) := by omega
      have := ih (k + 1) (by omega) i (by omega)
      have e : k + 1 + i = k + (i + 1) := by omega
      rw [e] at this
      simp [generate_codewords_from, find_entry, to_codebook_entry, hcv, hne]
      simpa [to_codebook_entry] using this

/-- In a ranked table of at most 128 entries every codeword is a 7-bit string that the
decoder resolves to its own entry, and only the first entry has the all-zero codeword. -/
theorem ranked_entry_facts (symbols : List Symbol) (hlen : symbols.length ≤ 128) :
    ∀ e ∈ generate_codewords symbols,
      is_codeword e.codeword ∧
      find_entry (bits_value e.codeword)
          ((generate_codewords symbols).map to_codebook_entry) = some (to_codebook_entry e) ∧
      (bits_value e.codeword = 0 → (generate_codewords symbols).head? = some e) := by
  intro e he
  obtain ⟨i, hi, rfl⟩ := List.getElem_of_mem he
  have hlen' : (generate_codewords symbols).length = symbols.length :=
    generate_codewords_from_length 0 symbols
  have hi' : i < symbols.length := by omega
  have hget := generate_codewords_getElem? symbols i
  rw [List.getElem?_eq_getElem hi, List.getElem?_eq_getElem hi'] at hget
  simp only [Option.map_some', Option.some.injEq] at hget
  have hcw : (generate_codewords symbols)[i].codeword = codeword_of i := by rw [hget]
  have hbv : bits_value (generate_codewords symbols)[i].codeword = i := by
    rw [hcw, bits_value_codeword_of]; omega
  refine ⟨?_, ?_, ?_⟩
  · rw [hcw]; exact ⟨codeword_of_length i, codeword_of_chars i⟩
  · rw [hbv]
    have := find_entry_rank 0 symbols (by omega) i hi'
    simp only [Nat.zero_add] at this
    unfold generate_codewords
    rw [this]
    have h2 : (generate_codewords_from 0 symbols)[i]? = some (generate_codewords symbols)[i] :=
      List.getElem?_eq_getElem hi
    rw [h2]; rfl
  · intro h0
    rw [hbv] at h0
    subst h0
    rw [List.head?_eq_getElem?]
    exact List.getElem?_eq_getElem hi

/-! ## Round trip -/

theorem generate_codewords_from_symbols (k : Nat) (symbols : List Symbol) :
    (generate_codewords_from k symbols).map Symbol.symbol = symbols.map Symbol.symbol := by
  induction symbols generalizing k with
  | nil => rfl
  | cons e es ih => simp [generate_codewords_from, ih]

theorem ranked_table_symbols_perm (input : List Nat) :
    ((ranked_table input).map Symbol.symbol).Perm
      ((calculate_frequency input).map Symbol.symbol) := by
  unfold ranked_table generate_codewords
  rw [generate_codewords_from_symbols]
  exact (qsort_perm _).map _

/-- Decoding what the encoder wrote, for an input of one-byte and three-byte tokens with
at most 128 distinct symbols that fits the decoder's bit buffer and does not end in an
all-zero final window. -/
theorem decode_encode (input : List Nat) (henc : encodable input)
    (hdist : (freq_tokens input).toFinset.card ≤ 128)
    (hsize : 7 * (freq_tokens input).length ≤ MAX_BITSTREAM_SIZE)
    (hlast : (freq_tokens input).length % 8 = 0 →
      ∀ e ∈ (ranked_table input).head?, (freq_tokens input).getLast? ≠ some e.symbol) :
    decoder_main (encoder_main input).1 (encoder_main input).2 =
      some (input.filter (fun b => b != 13)) := by
  have hcap : (freq_tokens input).toFinset.card ≤ TOTAL_SYMBOLS := by
    unfold TOTAL_SYMBOLS; omega
  obtain ⟨hsym, _, hmem, _⟩ := calculate_frequency_table input hcap
  have hperm := ranked_table_symbols_perm input
  -- the table
  have hTlen : (qsort compare (calculate_frequency input)).length ≤ 128 := by
    rw [(qsort_perm _).length_eq]
    have := congrArg List.length hsym
    rw [List.length_map, first_occurrences_length] at this
    omega
  have hfacts := ranked_entry_facts (qsort compare (calculate_frequency input)) hTlen
  have hT : generate_codewords (qsort compare (calculate_frequency input)) =
      ranked_table input := rfl
  rw [hT] at hfacts
  have hall : ∀ t ∈ enc_tokens input, t ∈ (ranked_table input).map Symbol.symbol := by
    intro t ht
    rw [enc_tokens_eq_freq_tokens input henc] at ht
    exact hperm.mem_iff.2 ((hmem t).2 ht)
  obtain ⟨rs, hrs1, hrs2, hrs3⟩ := found_codewords_resolved (ranked_table input)
    (enc_tokens input) hall
  rw [enc_tokens_eq_freq_tokens input henc] at hrs1
  have hrslen : rs.length = (freq_tokens input).length := by
    rw [← hrs1, List.length_map]
  -- the codebook
  have hcb : load_codebook (write_codebook (ranked_table input)) =
      some ((ranked_table input).map to_codebook_entry) := by
    apply load_codebook_table
    · rw [ranked_table_length]
      exact calculate_frequency_length_le input
    · apply ranked_table_line_ok input _ (encodable_serializable input henc)
      have h1 : MAX_BITSTREAM_SIZE = 262144 := rfl
      have h2 : (262144 : Nat) < 10 ^ 10 := by decide
      omega
  -- the encoded file
  obtain ⟨hbits, hbytes⟩ := encode_to_binary_bits (ranked_table input) input
    (fun e he => (hfacts e he).1)
  have hfound : found_codewords (ranked_table input) input = rs.map Symbol.codeword := hrs3
  rw [hfound] at hbits hbytes
  rw [List.length_map, hrslen] at hbits hbytes
  -- the decoder
  unfold decoder_main encoder_main
  simp only [hcb]
  unfold decode_binary
  have hM : MAX_BITSTREAM_SIZE = 262144 := rfl
  rw [hM] at hsize
  have hfit : ¬ MAX_BITSTREAM_SIZE <
      8 * (encode_to_binary (ranked_table input) input).length := by
    rw [hbytes, hM]; omega
  simp only [hfit, if_false]
  have hbits' : expand_bits (encode_to_binary (ranked_table input) input) =
      [] ++ concat_codewords ((rs.map to_codebook_entry).map CodebookEntry.code) ++
        List.replicate ((8 - 7 * (freq_tokens input).length % 8) % 8) 48 := by
    rw [hbits, List.map_map]
    rfl
  rw [hbits']
  have hloop := decode_loop_windows ((ranked_table input).map to_codebook_entry)
    (rs.map to_codebook_entry) [] ((8 - 7 * (freq_tokens input).length % 8) % 8) []
    (8 * (encode_to_binary (ranked_table input) input).length + 1)
    (by rw [List.length_map, hrslen, hbytes]; omega)
    (by omega)
    (by
      intro e he
      obtain ⟨r, hr, rfl⟩ := List.mem_map.1 he
      exact ⟨(hfacts r (hrs2 r hr)).1, (hfacts r (hrs2 r hr)).2.1⟩)
    (by
      intro hk0 e he hv
      have hn8 : (freq_tokens input).length % 8 = 0 := by omega
      rw [List.getLast?_map] at he
      obtain ⟨r, hr, rfl⟩ := Option.map_eq_some'.1 he
      have hrT : r ∈ ranked_table input := hrs2 r (List.mem_of_getLast?_eq_some hr)
      have hhead := (hfacts r hrT).2.2 hv
      have hl : (freq_tokens input).getLast? = some r.symbol := by
        rw [← hrs1, List.getLast?_map, hr]; rfl
      exact hlast hn8 r (by rw [hhead]; rfl) hl)
  simp only [List.length_nil] at hloop
  rw [hloop]
  simp only [List.nil_append, List.map_map, Option.some.injEq]
  have hexp : (rs.map ((fun e => expand_symbol e.symbol) ∘ to_codebook_entry)) =
      (freq_tokens input).map expand_symbol := by
    rw [← hrs1, List.map_map]
    rfl
  rw [hexp]
  exact expand_tokens input henc

/-- C1 (amended): for every input made only of one-byte tokens `0x01 .. 0x7F` and
three-byte tokens (leading byte `1110xxxx`, then two bytes other than NUL, LF, CR, `','`
and `']'`), with at most 128 distinct symbols, whose encoded bits fit the decoder's
buffer, and whose token count is not a multiple of 8 with the rank-0 symbol as last token,
the decoder (`load_codebook` then `decode_binary`) run on the codebook and the encoded
bytes produced by the encoder returns the input with every CR byte removed: every LF, TAB
and other byte comes back exactly, and a CR produces no output. -/
theorem round_trip (input : List Nat) (henc : encodable input)
    (hdist : (freq_tokens input).toFinset.card ≤ 128)
    (hsize : 7 * (freq_tokens input).length ≤ MAX_BITSTREAM_SIZE)
    (hlast : (freq_tokens input).length % 8 = 0 →
      ∀ e ∈ (ranked_table input).head?, (freq_tokens input).getLast? ≠ some e.symbol) :
    decoder_main (encoder_main input).1 (encoder_main input).2 =
      some (input.filter (fun b => b != 13)) :=
  decode_encode input henc hdist hsize hlast

theorem round_trip_witness :
    (encodable [98, 13, 10, 9, 228, 184, 173, 97, 97, 97] ∧
      (freq_tokens [98, 13, 10, 9, 228, 184, 173, 97, 97, 97]).toFinset.card ≤ 128 ∧
      7 * (freq_tokens [98, 13, 10, 9, 228, 184, 173, 97, 97, 97]).length ≤ MAX_BITSTREAM_SIZE ∧
      ((freq_tokens [98, 13, 10, 9, 228, 184, 173, 97, 97, 97]).length % 8 = 0 →
        ∀ e ∈ (ranked_table [98, 13, 10, 9, 228, 184, 173, 97, 97, 97]).head?,
          (freq_tokens [98, 13, 10, 9, 228, 184, 173, 97, 97, 97]).getLast? ≠ some e.symbol)) ∧
    decoder_main (encoder_main [98, 13, 10, 9, 228, 184, 173, 97, 97, 97]).1
        (encoder_main [98, 13, 10, 9, 228, 184, 173, 97, 97, 97]).2 =
      some ([98, 13, 10, 9, 228, 184, 173, 97, 97, 97].filter (fun b => b != 13)) :=
  have henc : encodable [98, 13, 10, 9, 228, 184, 173, 97, 97, 97] :=
    encodable.ascii 98 _ (by decide) (by decide)
      (encodable.ascii 13 _ (by decide) (by decide)
        (encodable.ascii 10 _ (by decide) (by decide)
          (encodable.ascii 9 _ (by decide) (by decide)
            (encodable.three 228 184 173 _ (by decide) (by decide)
              (by unfold plain_byte; decide) (by unfold plain_byte; decide)
              (encodable.ascii 97 _ (by decide) (by decide)
                (encodable.ascii 97 _ (by decide) (by decide)
                  (encodable.ascii 97 _ (by decide) (by decide) encodable.nil)))))))
  ⟨⟨henc, by decide!, by decide!, by decide!⟩,
    round_trip _ henc (by decide!) (by decide!) (by decide!)⟩

/-- C1 (counterexample): the input `a CR b` has three distinct symbols, and the decoder
returns `a b`: the lone carriage return does not come back. -/
theorem round_trip_drops_cr :
    (freq_tokens [97, 13, 98]).toFinset.card ≤ 128 ∧
    decoder_main (encoder_main [97, 13, 98]).1 (encoder_main [97, 13, 98]).2 =
      some [97, 98] ∧
    decoder_main (encoder_main [97, 13, 98]).1 (encoder_main [97, 13, 98]).2 ≠
      some [97, 13, 98] := by
  decide!

/-! ## Capacity and uniqueness of the table -/

theorem observe_full (symbols : List Symbol) (t : List Nat)
    (hfull : symbols.length = TOTAL_SYMBOLS) (hnew : t ∉ symbols.map Symbol.symbol) :
    observe symbols t = symbols := by
  have h1 : increment_found t symbols = none := (increment_found_eq_none t symbols).2 hnew
  have h2 : ¬ symbols.length < TOTAL_SYMBOLS := by omega
  simp [observe, h1, h2]

/-- C11: when the table holds `TOTAL_SYMBOLS = 1024` entries and the token read at the
head of the stream is not in the table, the observation leaves the whole table unchanged
(its size stays 1024 and no symbol or count changes), and the reading loop goes on with
the next token, the token being counted in `total_count`. -/
theorem capacity_boundary (symbols : List Symbol) (c : Nat) (rest : List Nat)
    (fuel total : Nat) (hfull : symbols.length = TOTAL_SYMBOLS)
    (hnew : escape_special (cstr (read_symbol_freq c rest).1) ∉ symbols.map Symbol.symbol) :
    TOTAL_SYMBOLS = 1024 ∧
    observe symbols (escape_special (cstr (read_symbol_freq c rest).1)) = symbols ∧
    (observe symbols (escape_special (cstr (read_symbol_freq c rest).1))).length = 1024 ∧
    calculate_frequency_loop (fuel + 1) (c :: rest) symbols total =
      calculate_frequency_loop fuel (read_symbol_freq c rest).2 symbols (total + 1) := by
  have h := observe_full symbols _ hfull hnew
  refine ⟨rfl, h, ?_, ?_⟩
  · rw [h, hfull]; rfl
  · simp only [calculate_frequency_loop, h]

theorem full_table_length : full_table.length = TOTAL_SYMBOLS := by
  simp [full_table, TOTAL_SYMBOLS]

theorem full_table_not_mem (c : Nat) : [c] ∉ full_table.map Symbol.symbol := by
  simp [full_table]

theorem capacity_boundary_witness :
    (full_table.length = TOTAL_SYMBOLS ∧
      escape_special (cstr (read_symbol_freq 97 [98]).1) ∉ full_table.map Symbol.symbol) ∧
    (TOTAL_SYMBOLS = 1024 ∧
      observe full_table (escape_special (cstr (read_symbol_freq 97 [98]).1)) = full_table ∧
      (observe full_table (escape_special (cstr (read_symbol_freq 97 [98]).1))).length
        = 1024 ∧
      calculate_frequency_loop (1 + 1) (97 :: [98]) full_table 1024 =
        calculate_frequency_loop 1 (read_symbol_freq 97 [98]).2 full_table (1024 + 1)) :=
  have hnew : escape_special (cstr (read_symbol_freq 97 [98]).1) ∉
      full_table.map Symbol.symbol := by
    have : escape_special (cstr (read_symbol_freq 97 [98]).1) = [97] := by decide
    rw [this]
    exact full_table_not_mem 97
  ⟨⟨full_table_length, hnew⟩, capacity_boundary full_table 97 [98] 1 1024 full_table_length hnew⟩

theorem generate_codewords_symbols (symbols : List Symbol) :
    (generate_codewords symbols).map Symbol.symbol = symbols.map Symbol.symbol :=
  generate_codewords_from_symbols 0 symbols

/-- C18: starting from the empty table, the symbols of the table are pairwise distinct
after every number of tokens processed by the reading loop of `calculate_frequency`, at
the end of `calculate_frequency`, after sorting with `compare` and after
`generate_codewords`. -/
theorem symbols_pairwise_distinct (input : List Nat) :
    (∀ processed total,
      ((calculate_frequency_loop processed input [] total).1.map Symbol.symbol).Nodup) ∧
    ((calculate_frequency input).map Symbol.symbol).Nodup ∧
    ((qsort compare (calculate_frequency input)).map Symbol.symbol).Nodup ∧
    ((ranked_table input).map Symbol.symbol).Nodup := by
  have h2 : ((calculate_frequency input).map Symbol.symbol).Nodup := by
    rw [calculate_frequency_symbols_eq]
    exact foldl_observe_nodup _ [] (by simp)
  have h3 : ((qsort compare (calculate_frequency input)).map Symbol.symbol).Nodup :=
    ((qsort_perm _).map _).nodup_iff.2 h2
  refine ⟨?_, h2, h3, ?_⟩
  · intro processed total
    rw [calculate_frequency_loop_eq]
    exact foldl_observe_nodup _ [] (by simp)
  · unfold ranked_table
    rw [generate_codewords_symbols]
    exact h3

/-! ## The two tokenizers -/

/-- C13 (failing input): on the two bytes `C3 A9` (the UTF-8 encoding of U+00E9) the
counting pass reads one two-byte symbol, while the encoding pass reads two empty symbols,
one per byte; the symbol counted is never looked up, and nothing is written for it. -/
theorem tokenizers_differ_two_byte :
    freq_tokens [0xC3, 0xA9] = [[0xC3, 0xA9]] ∧
    enc_tokens [0xC3, 0xA9] = [[], []] ∧
    enc_tokens [0xC3, 0xA9] ≠ freq_tokens [0xC3, 0xA9] ∧
    (ranked_table [0xC3, 0xA9]).map Symbol.symbol = [[0xC3, 0xA9]] ∧
    encode_to_binary (ranked_table [0xC3, 0xA9]) [0xC3, 0xA9] = [] := by
  decide!

/-! ## Token length rule -/

theorem lead_classes : ∀ c < 256,
    (c &&& 0x80 = 0 ↔ c < 128) ∧ (c &&& 0xE0 = 0xC0 ↔ 192 ≤ c ∧ c < 224) ∧
    (c &&& 0xF0 = 0xE0 ↔ 224 ≤ c ∧ c < 240) ∧ (c &&& 0xF8 = 0xF0 ↔ 240 ≤ c ∧ c < 248) := by
  decide!

theorem cstr_cons_of_ne_zero (c : Nat) (l : List Nat) (hc : c ≠ 0) :
    cstr (c :: l) = c :: cstr l := by
  simp [cstr, List.takeWhile_cons, hc]

theorem escape_special_multi (c : Nat) (l : List Nat) (hc : 128 ≤ c) :
    escape_special (c :: l) = c :: l := by
  rw [escape_special_eq]
  have h1 : c ≠ 10 := by omega
  have h2 : c ≠ 9 := by omega
  have h3 : c ≠ 13 := by omega
  simp [h1, h2, h3]

/-- C12 (amended): at a token start with leading byte `c`, `calculate_frequency` consumes
1 byte when the top bit of `c` is 0, and 2, 3 or 4 bytes when `c` matches `110xxxxx`,
`1110xxxx` or `11110xxx` and that many bytes are there; the symbol is the byte sequence
cut at its first NUL byte (the whole sequence when it holds no NUL), except that the
single bytes LF, TAB and CR become the tokens backslash-n, backslash-t, backslash-r. -/
theorem tokenizer_length_rule (c b1 b2 b3 : Nat) (rest : List Nat) (hc : c < 256) :
    (c < 128 →
      read_symbol_freq c rest = ([c], rest) ∧
      freq_tokens (c :: rest) =
        (if c = 10 then [92, 110] else if c = 9 then [92, 116]
          else if c = 13 then [92, 114] else cstr [c]) :: freq_tokens rest) ∧
    (192 ≤ c → c < 224 →
      read_symbol_freq c (b1 :: rest) = ([c, b1], rest) ∧
      freq_tokens (c :: b1 :: rest) = cstr [c, b1] :: freq_tokens rest) ∧
    (224 ≤ c → c < 240 →
      read_symbol_freq c (b1 :: b2 :: rest) = ([c, b1, b2], rest) ∧
      freq_tokens (c :: b1 :: b2 :: rest) = cstr [c, b1, b2] :: freq_tokens rest) ∧
    (240 ≤ c → c < 248 →
      read_symbol_freq c (b1 :: b2 :: b3 :: rest) = ([c, b1, b2, b3], rest) ∧
      freq_tokens (c :: b1 :: b2 :: b3 :: rest) = cstr [c, b1, b2, b3] :: freq_tokens rest) ∧
    (∀ buf : List Nat, (∀ b ∈ buf, b ≠ 0) → cstr buf = buf) := by
  obtain ⟨k1, k2, k3, k4⟩ := lead_classes c hc
  refine ⟨?_, ?_, ?_, ?_, cstr_of_nonzero⟩
  · intro h
    have hr : read_symbol_freq c rest = ([c], rest) := by
      simp [read_symbol_freq, k1.2 h]
    refine ⟨hr, ?_⟩
    rw [freq_tokens_cons, hr, escape_special_eq]
    by_cases h0 : c = 0
    · subst h0
      simp [cstr]
    · rw [cstr_of_nonzero [c] (by simpa using h0)]
      simp
  · intro h1 h2
    have n1 : ¬ c &&& 0x80 = 0 := fun h => by have := k1.1 h; omega
    have hr : read_symbol_freq c (b1 :: rest) = ([c, b1], rest) := by
      simp [read_symbol_freq, n1, k2.2 ⟨h1, h2⟩, fgetc_char]
    refine ⟨hr, ?_⟩
    rw [freq_tokens_cons, hr, cstr_cons_of_ne_zero c _ (by omega),
      escape_special_multi c _ (by omega)]
  · intro h1 h2
    have n1 : ¬ c &&& 0x80 = 0 := fun h => by have := k1.1 h; omega
    have n2 : ¬ c &&& 0xE0 = 0xC0 := fun h => by have := k2.1 h; omega
    have hr : read_symbol_freq c (b1 :: b2 :: rest) = ([c, b1, b2], rest) := by
      simp [read_symbol_freq, n1, n2, k3.2 ⟨h1, h2⟩, fgetc_char]
    refine ⟨hr, ?_⟩
    rw [freq_tokens_cons, hr, cstr_cons_of_ne_zero c _ (by omega),
      escape_special_multi c _ (by omega)]
  · intro h1 h2
    have n1 : ¬ c &&& 0x80 = 0 := fun h => by have := k1.1 h; omega
    have n2 : ¬ c &&& 0xE0 = 0xC0 := fun h => by have := k2.1 h; omega
    have n3 : ¬ c &&& 0xF0 = 0xE0 := fun h => by have := k3.1 h; omega
    have hr : read_symbol_freq c (b1 :: b2 :: b3 :: rest) = ([c, b1, b2, b3], rest) := by
      simp [read_symbol_freq, n1, n2, n3, k4.2 ⟨h1, h2⟩, fgetc_char]
    refine ⟨hr, ?_⟩
    rw [freq_tokens_cons, hr, cstr_cons_of_ne_zero c _ (by omega),
      escape_special_multi c _ (by omega)]

theorem tokenizer_length_rule_witness :
    (0xE4 < 256) ∧
    ((0xE4 < 128 →
      read_symbol_freq 0xE4 [10] = ([0xE4], [10]) ∧
      freq_tokens (0xE4 :: [10]) =
        (if 0xE4 = 10 then [92, 110] else if 0xE4 = 9 then [92, 116]
          else if 0xE4 = 13 then [92, 114] else cstr [0xE4]) :: freq_tokens [10]) ∧
    (192 ≤ 0xE4 → 0xE4 < 224 →
      read_symbol_freq 0xE4 (0xB8 :: [10]) = ([0xE4, 0xB8], [10]) ∧
      freq_tokens (0xE4 :: 0xB8 :: [10]) = cstr [0xE4, 0xB8] :: freq_tokens [10]) ∧
    (224 ≤ 0xE4 → 0xE4 < 240 →
      read_symbol_freq 0xE4 (0xB8 :: 0xAD :: [10]) = ([0xE4, 0xB8, 0xAD], [10]) ∧
      freq_tokens (0xE4 :: 0xB8 :: 0xAD :: [10]) =
        cstr [0xE4, 0xB8, 0xAD] :: freq_tokens [10]) ∧
    (240 ≤ 0xE4 → 0xE4 < 248 →
      read_symbol_freq 0xE4 (0xB8 :: 0xAD :: 0x80 :: [10]) =
        ([0xE4, 0xB8, 0xAD, 0x80], [10]) ∧
      freq_tokens (0xE4 :: 0xB8 :: 0xAD :: 0x80 :: [10]) =
        cstr [0xE4, 0xB8, 0xAD, 0x80] :: freq_tokens [10]) ∧
    (∀ buf : List Nat, (∀ b ∈ buf, b ≠ 0) → cstr buf = buf)) :=
  ⟨by decide, tokenizer_length_rule 0xE4 0xB8 0xAD 0x80 [10] (by decide)⟩

/-- C12 (counterexample): a leading byte `110xxxxx` at the end of the stream is a token
of one byte whose symbol is `C3 FF`, and a NUL byte is a token whose symbol is empty:
in neither case is the symbol the byte sequence of the token. -/
theorem tokenizer_truncated_and_nul :
    freq_tokens [0xC3] = [[0xC3, 0xFF]] ∧
    (read_symbol_freq 0xC3 []).1 = [0xC3, 0xFF] ∧
    freq_tokens [0x61, 0xC3] = [[0x61], [0xC3, 0xFF]] ∧
    freq_tokens [0] = [[]] ∧
    freq_tokens [0xE4, 0, 0xAD] = [[0xE4]] := by
  decide!

/-! ## Control bytes in symbols -/

theorem ge_128_of_lead (c : Nat) (h : ¬ c &&& 0x80 = 0) : 128 ≤ c := by
  by_contra hlt
  exact h (ascii_lead c (by omega))

/-- A token holds a raw LF, TAB or CR only behind the leading byte of a multi-byte
sequence. -/
theorem token_control_bytes (c : Nat) (rest : List Nat) :
    ∀ x ∈ escape_special (cstr (read_symbol_freq c rest).1), x = 10 ∨ x = 9 ∨ x = 13 →
      ∃ h tl, escape_special (cstr (read_symbol_freq c rest).1) = h :: tl ∧ 128 ≤ h ∧
        x ∈ tl := by
  intro x hx hctl
  have hmulti : ∀ l : List Nat, ¬ c &&& 0x80 = 0 → x ∈ escape_special (cstr (c :: l)) →
      ∃ h tl, escape_special (cstr (c :: l)) = h :: tl ∧ 128 ≤ h ∧ x ∈ tl := by
    intro l hl hxl
    have hc := ge_128_of_lead c hl
    rw [cstr_cons_of_ne_zero c l (by omega), escape_special_multi c _ hc] at hxl ⊢
    refine ⟨c, cstr l, rfl, hc, ?_⟩
    rcases List.mem_cons.1 hxl with h | h
    · omega
    · exact h
  unfold read_symbol_freq at hx ⊢
  split at hx
  · exfalso
    rename_i h0
    simp only [h0, if_true] at hx
    rw [escape_special_eq] at hx
    by_cases hc0 : c = 0
    · subst hc0
      simp [cstr] at hx
    · rw [cstr_of_nonzero [c] (by simpa using hc0)] at hx
      split at hx
      · simp at hx; omega
      · split at hx
        · simp at hx; omega
        · split at hx
          · simp at hx; omega
          · rename_i a b d
            simp only [List.mem_singleton] at hx
            subst hx
            simp at a b d
            omega
  · rename_i h0
    simp only [h0, if_false] at hx ⊢
    split at hx
    · rename_i h1
      simp only [h1, if_true] at hx ⊢
      exact hmulti _ h0 hx
    · rename_i h1
      simp only [h1, if_false] at hx ⊢
      split at hx
      · rename_i h2
        simp only [h2, if_true] at hx ⊢
        exact hmulti _ h0 hx
      · rename_i h2
        simp only [h2, if_false] at hx ⊢
        split at hx
        · rename_i h3
          simp only [h3, if_true] at hx ⊢
          exact hmulti _ h0 hx
        · rename_i h3
          simp only [h3, if_false] at hx ⊢
          simp [cstr, escape_special_eq] at hx

theorem freq_tokens_control_bytes (input : List Nat) :
    ∀ t ∈ freq_tokens input, ∀ x ∈ t, x = 10 ∨ x = 9 ∨ x = 13 →
      ∃ h tl, t = h :: tl ∧ 128 ≤ h ∧ x ∈ tl :=
  forall_freq_tokens
    (fun t => ∀ x ∈ t, x = 10 ∨ x = 9 ∨ x = 13 → ∃ h tl, t = h :: tl ∧ 128 ≤ h ∧ x ∈ tl)
    token_control_bytes input

theorem ranked_table_symbol_mem (input : List Nat) (e : Symbol)
    (he : e ∈ ranked_table input) : e.symbol ∈ freq_tokens input := by
  obtain ⟨e0, he0, i, rfl⟩ := ranked_table_mem input e he
  exact (calculate_frequency_entry input e0 he0).1

/-- C17 (amended): for every input, a symbol stored in the table by `calculate_frequency`
holds a raw LF, TAB or CR byte only behind the leading byte (`0x80` or more) of a
multi-byte token, never as a token of its own; hence when no multi-byte token of the
input holds such a byte after its leading byte, as in well-formed UTF-8, no symbol of the
table holds one, and the symbol field that `write_codebook` writes between `[` and `]`,
being the table symbol, holds none either. -/
theorem symbols_control_bytes (input : List Nat) :
    (∀ e ∈ calculate_frequency input, ∀ x ∈ e.symbol, x = 10 ∨ x = 9 ∨ x = 13 →
      ∃ h tl, e.symbol = h :: tl ∧ 128 ≤ h ∧ x ∈ tl) ∧
    ((∀ t ∈ freq_tokens input, ∀ x ∈ t.tail, x ≠ 10 ∧ x ≠ 9 ∧ x ≠ 13) →
      (∀ e ∈ calculate_frequency input, ∀ x ∈ e.symbol, x ≠ 10 ∧ x ≠ 9 ∧ x ≠ 13) ∧
      (∀ e ∈ ranked_table input, ∀ x ∈ e.symbol, x ≠ 10 ∧ x ≠ 9 ∧ x ≠ 13)) ∧
    (∀ e : Symbol, ∃ fields, codebook_line e = [91] ++ e.symbol ++ [93] ++ fields) := by
  have key : ∀ t ∈ freq_tokens input,
      (∀ u ∈ freq_tokens input, ∀ x ∈ u.tail, x ≠ 10 ∧ x ≠ 9 ∧ x ≠ 13) →
      ∀ x ∈ t, x ≠ 10 ∧ x ≠ 9 ∧ x ≠ 13 := by
    intro t ht hplain x hx
    by_contra hc
    have hctl : x = 10 ∨ x = 9 ∨ x = 13 := by omega
    obtain ⟨h, tl, rfl, _, hxt⟩ := freq_tokens_control_bytes input t ht x hx hctl
    have := hplain _ ht x hxt
    omega
  refine ⟨?_, ?_, ?_⟩
  · intro e he
    exact freq_tokens_control_bytes input e.symbol (calculate_frequency_entry input e he).1
  · intro hplain
    constructor
    · intro e he
      exact key _ (calculate_frequency_entry input e he).1 hplain
    · intro e he
      exact key _ (ranked_table_symbol_mem input e he) hplain
  · intro e
    exact ⟨[44] ++ print_d e.count ++ [44] ++ print_f7 e.probability ++ [44] ++
      e.codeword ++ [10], by simp [codebook_line]⟩

/-- C17 (counterexample): the two input bytes `C3 0A` are one token, stored as the symbol
`C3 0A`; the symbol holds a raw LF, which `write_codebook` writes inside the brackets. -/
theorem symbol_with_raw_newline :
    (calculate_frequency [0xC3, 0x0A]).map Symbol.symbol = [[0xC3, 0x0A]] ∧
    (∃ e ∈ calculate_frequency [0xC3, 0x0A], 10 ∈ e.symbol) ∧
    write_codebook (ranked_table [0xC3, 0x0A]) =
      [91, 0xC3, 0x0A, 93, 44, 49, 44, 49, 46, 48, 48, 48, 48, 48, 48, 48, 44,
       48, 48, 48, 48, 48, 48, 48, 10] := by
  decide!

/-! ## Lines of the codebook -/

theorem strchr_eq (c : Nat) (l : List Nat) :
    strchr c l = if c ∈ l then some (l.takeWhile (fun x => x != c)).length else none := by
  induction l with
  | nil => simp [strchr]
  | cons x l ih =>
    by_cases hx : x = c
    · subst hx
      simp [strchr, List.takeWhile_cons]
    · have hx' : ¬ c = x := fun h => hx h.symm
      simp only [strchr, hx, if_false, ih, List.mem_cons, hx', false_or,
        List.takeWhile_cons]
      by_cases hm : c ∈ l
      · simp [hm, hx]
      · simp [hm]

theorem takeWhile_append_dropWhile_ne (c : Nat) (l : List Nat) (h : c ∈ l) :
    l = l.takeWhile (fun x => x != c) ++ c :: (l.dropWhile (fun x => x != c)).drop 1 := by
  induction l with
  | nil => simp at h
  | cons x l ih =>
    by_cases hx : x = c
    · subst hx
      simp [List.takeWhile_cons, List.dropWhile_cons]
    · have hm : c ∈ l := by
        rcases List.mem_cons.1 h with h | h
        · exact absurd h.symm hx
        · exact h
      have := ih hm
      simp only [List.takeWhile_cons, List.dropWhile_cons, bne_iff_ne, ne_eq, hx,
        not_false_eq_true, decide_True, if_true, List.cons_append]
      rw [← this]

theorem takeWhile_append_of_not_mem (c : Nat) (p r : List Nat) (h : c ∉ p) :
    (p ++ r).takeWhile (fun x => x != c) = p ++ r.takeWhile (fun x => x != c) := by
  induction p with
  | nil => rfl
  | cons x p ih =>
    have hx : x ≠ c := fun e => h (by rw [e]; exact List.mem_cons_self _ _)
    have hp : c ∉ p := fun e => h (List.mem_cons_of_mem _ e)
    simp [List.takeWhile_cons, hx, ih hp]

theorem takeWhile_length_lt_of_mem (c : Nat) (l : List Nat) (h : c ∈ l) :
    (l.takeWhile (fun x => x != c)).length < l.length := by
  have := congrArg List.length (takeWhile_append_dropWhile_ne c l h)
  simp only [List.length_append, List.length_cons] at this
  omega

/-- The string left by `extract_symbol` is the symbol read off the brackets in the words
of the specification. -/
theorem extract_symbol_eq (f : List Nat) (d : Nat) :
    extract_symbol f d = symbol_of_field f d := by
  unfold extract_symbol symbol_of_field bracket_text
  rw [strchr_eq 91 f, strchr_eq 93 f]
  by_cases h91 : 91 ∈ f
  · by_cases h93 : 93 ∈ f
    · simp only [h91, h93, if_true, true_and]
      have hdec := takeWhile_append_dropWhile_ne 91 f h91
      generalize hP : f.takeWhile (fun x => x != 91) = P at hdec ⊢
      generalize hA : (f.dropWhile (fun x => x != 91)).drop 1 = A at hdec ⊢
      by_cases hpre : 93 ∈ P
      · -- the first `]` comes before the first `[`
        have hlt : ¬ P.length < (f.takeWhile (fun x => x != 93)).length := by
          have hd2 := takeWhile_append_dropWhile_ne 93 P hpre
          have : f.takeWhile (fun x => x != 93) = P.takeWhile (fun x => x != 93) := by
            rw [hdec, hd2]
            simp [List.takeWhile_append, List.takeWhile_cons]
          rw [this]
          have := takeWhile_length_lt_of_mem 93 P hpre
          omega
        simp [hpre, hlt]
      · have h93A : 93 ∈ A := by
          rw [hdec] at h93
          simp only [List.mem_append, List.mem_cons] at h93
          rcases h93 with h | h | h
          · exact absurd h hpre
          · exact absurd h (by decide)
          · exact h
        have htw : f.takeWhile (fun x => x != 93) =
            P ++ 91 :: A.takeWhile (fun x => x != 93) := by
          rw [hdec, takeWhile_append_of_not_mem 93 P _ hpre]
          simp [List.takeWhile_cons]
        have hdrop : f.drop (P.length + 1) = A := by
          rw [hdec]
          simp
        simp only [hpre, not_false_eq_true, if_true, htw, List.length_append,
          List.length_cons]
        have hlt : P.length < P.length + ((A.takeWhile (fun x => x != 93)).length + 1) := by
          omega
        simp only [hlt, if_true]
        have hsub : P.length + ((A.takeWhile (fun x => x != 93)).length + 1) -
            (P.length + 1) = (A.takeWhile (fun x => x != 93)).length := by omega
        rw [hsub, hdrop]
        by_cases hnil : A.takeWhile (fun x => x != 93) = []
        · simp [hnil]
        · have hpos : 0 < (A.takeWhile (fun x => x != 93)).length :=
            List.length_pos.2 hnil
          simp only [hpos, if_true, hnil, if_false]
          have hpre2 := List.takeWhile_prefix (fun x => x != 93) (l := A)
          exact List.prefix_iff_eq_take.1 hpre2 |>.symm
    · simp [h91, h93]
  · simp [h91]

/-- C19 (counterexample): the line `[a],1,0.5,` followed by 32 characters `0` has four
fields, the last of 32 characters; the entry added has a code of 31 characters, which is
not the last field. -/
theorem load_codebook_truncates_code :
    (line_fields ([91, 97, 93, 44, 49, 44, 48, 46, 53, 44] ++ List.replicate 32 48 ++
      [10])).length = 4 ∧
    (line_fields ([91, 97, 93, 44, 49, 44, 48, 46, 53, 44] ++ List.replicate 32 48 ++
      [10])).getLastD [] = List.replicate 32 48 ∧
    load_codebook ([91, 97, 93, 44, 49, 44, 48, 46, 53, 44] ++ List.replicate 32 48 ++
      [10]) = some [⟨[97], List.replicate 31 48⟩] ∧
    load_codebook ([91, 97, 93, 44, 49, 44, 48, 46, 53, 44] ++ List.replicate 32 48 ++
      [10]) ≠ some [⟨[97], List.replicate 32 48⟩] := by
  decide!

/-! ## The window loop of the decoder -/

theorem byte_bits_chars (byte : Nat) : ∀ c ∈ byte_bits byte, c = 48 ∨ c = 49 := by
  intro c hc
  simp only [byte_bits, List.mem_map] at hc
  obtain ⟨i, _, rfl⟩ := hc
  split
  · right; rfl
  · left; rfl

theorem expand_bits_chars (enc : List Nat) : ∀ c ∈ expand_bits enc, c = 48 ∨ c = 49 := by
  induction enc with
  | nil => simp [expand_bits]
  | cons b enc ih =>
    intro c hc
    simp only [expand_bits, List.mem_append] at hc
    rcases hc with hc | hc
    · exact byte_bits_chars b c hc
    · exact ih c hc

theorem getD_ne_newline (bits : List Nat) (h : ∀ c ∈ bits, c = 48 ∨ c = 49) (i : Nat) :
    bits.getD i 0 ≠ 10 := by
  by_cases hi : i < bits.length
  · rw [List.getD_eq_getElem _ _ hi]
    have := h bits[i] (List.getElem_mem hi)
    omega
  · rw [List.getD_eq_default _ _ (by omega)]
    decide

theorem emit_symbol_bits (bits : List Nat) (h : ∀ c ∈ bits, c = 48 ∨ c = 49) (i : Nat)
    (e : CodebookEntry) : emit_symbol bits i e = (expand_symbol e.symbol, i) := by
  have hne := getD_ne_newline bits h (i + 1)
  unfold emit_symbol expand_symbol
  simp only [hne, if_false]
  split
  · rfl
  · split
    · rfl
    · split <;> rfl

/-- On a bit sequence of characters `0` and `1` the loop started at the window of index
`j` walks through the `d` remaining complete windows, one after the other. -/
theorem decode_loop_aligned (cb : List CodebookEntry) (bits : List Nat)
    (h : ∀ c ∈ bits, c = 48 ∨ c = 49) (d : Nat) :
    ∀ (j fuel : Nat) (out : List Nat), bits.length / 7 = j + d → d < fuel →
      decode_loop fuel bits cb (7 * j) out =
        some (out ++ concat_codewords ((List.range' j d).map (window_output cb bits))) ∧
      decode_windows fuel bits cb (7 * j) =
        (List.range' j d).map (fun k =>
          (7 * k, !decide (window_value bits (7 * k) = 0 ∧ 7 * k + 7 = bits.length))) := by
  induction d with
  | zero =>
    intro j fuel out hj hfuel
    cases fuel with
    | zero => omega
    | succ fuel =>
      have hno : ¬ 7 * j + 7 ≤ bits.length := by omega
      simp [decode_loop_succ, decode_windows_succ, hno, concat_codewords]
  | succ d ih =>
    intro j fuel out hj hfuel
    cases fuel with
    | zero => omega
    | succ fuel =>
      have hle : 7 * j + 7 ≤ bits.length := by omega
      have hnext : 7 * j + 7 = 7 * (j + 1) := by omega
      simp only [decode_loop_succ, decode_windows_succ, hle, if_true, List.range'_succ, List.map_cons,
        concat_codewords]
      by_cases hdis : window_value bits (7 * j) = 0 ∧ 7 * j + 7 = bits.length
      · have hd0 : d = 0 := by omega
        subst hd0
        simp [hdis, window_output, concat_codewords]
      · simp only [hdis, if_false, window_output, decide_False, Bool.not_false]
        cases hf : find_entry (window_value bits (7 * j)) cb with
        | none =>
          obtain ⟨h1, h2⟩ := ih (j + 1) fuel out (by omega) (by omega)
          simp only [hnext, h1, h2, List.nil_append, and_self]
        | some e =>
          obtain ⟨h1, h2⟩ := ih (j + 1) fuel (out ++ expand_symbol e.symbol) (by omega)
            (by omega)
          simp only [emit_symbol_bits bits h, hnext, h1, h2, List.append_assoc, and_self]

theorem decode_loop_from_start (cb : List CodebookEntry) (bits : List Nat)
    (h : ∀ c ∈ bits, c = 48 ∨ c = 49) (fuel : Nat) (hfuel : bits.length / 7 < fuel) :
    decode_loop fuel bits cb 0 [] =
      some (concat_codewords ((List.range (bits.length / 7)).map (window_output cb bits))) ∧
    decode_windows fuel bits cb 0 =
      (List.range (bits.length / 7)).map (fun k =>
        (7 * k, !decide (window_value bits (7 * k) = 0 ∧ 7 * k + 7 = bits.length))) := by
  have := decode_loop_aligned cb bits h (bits.length / 7) 0 fuel [] (by omega) hfuel
  simpa [List.range_eq_range'] using this

theorem decode_fuel_enough (enc : List Nat) :
    (expand_bits enc).length / 7 < 8 * enc.length + 1 := by
  rw [expand_bits_length]
  omega

theorem bits_value_eq_zero_iff (cw : List Nat) (h : is_codeword cw) :
    bits_value cw = 0 ↔ cw = List.replicate 7 48 := by
  obtain ⟨c0, c1, c2, c3, c4, c5, c6, rfl⟩ := length_seven cw h.1
  have h0 := h.2 c0 (by simp)
  have h1 := h.2 c1 (by simp)
  have h2 := h.2 c2 (by simp)
  have h3 := h.2 c3 (by simp)
  have h4 := h.2 c4 (by simp)
  have h5 := h.2 c5 (by simp)
  have h6 := h.2 c6 (by simp)
  simp only [bits_value, List.foldl, List.replicate, List.cons.injEq, and_true]
  constructor
  · intro hv
    omega
  · rintro ⟨rfl, rfl, rfl, rfl, rfl, rfl, rfl⟩
    rfl

theorem window_bits_codeword (pre code rest : List Nat) (hcw : is_codeword code) :
    window_bits (pre ++ code ++ rest) pre.length = code := by
  unfold window_bits
  rw [List.append_assoc, List.drop_left, ← hcw.1, List.take_left]

theorem decode_windows_codeword (cb : List CodebookEntry) (pre code rest : List Nat)
    (hcw : is_codeword code) (fuel : Nat)
    (hkeep : ¬ (bits_value code = 0 ∧ rest = [])) :
    decode_windows (fuel + 1) (pre ++ code ++ rest) cb pre.length =
      (pre.length, true) :: decode_windows fuel (pre ++ code ++ rest) cb (pre.length + 7) := by
  have hw := window_value_codeword pre code rest hcw
  have hlen : (pre ++ code ++ rest).length = pre.length + 7 + rest.length := by
    simp only [List.length_append, hcw.1]
  have hle : pre.length + 7 ≤ (pre ++ code ++ rest).length := by omega
  have hdis : ¬ (window_value (pre ++ code ++ rest) pre.length = 0 ∧
      pre.length + 7 = (pre ++ code ++ rest).length) := by
    rintro ⟨hv, hl⟩
    rw [hw] at hv
    have : rest.length = 0 := by omega
    exact hkeep ⟨hv, List.length_eq_zero.1 this⟩
  simp only [decode_windows_succ, hle, if_true, hdis, if_false]
  cases find_entry (window_value (pre ++ code ++ rest) pre.length) cb with
  | none => rfl
  | some e => simp only [emit_symbol_codeword pre code rest hcw e]

/-- The trace of the window loop on codewords followed by fewer than 8 zero bits. -/
theorem decode_windows_codewords (cb : List CodebookEntry) (cws : List (List Nat))
    (k : Nat) (hk : k < 8) (hcw : ∀ cw ∈ cws, is_codeword cw) :
    ∀ (pre : List Nat) (fuel : Nat), cws.length < fuel →
      resolved_windows
          (decode_windows fuel (pre ++ concat_codewords cws ++ List.replicate k 48) cb
            pre.length)
          (pre ++ concat_codewords cws ++ List.replicate k 48) =
        (if k = 0 ∧ cws.getLast? = some (List.replicate 7 48) then cws.dropLast else cws) ∧
      (decode_windows fuel (pre ++ concat_codewords cws ++ List.replicate k 48) cb
          pre.length).length = cws.length + (if k = 7 then 1 else 0) ∧
      ∀ p ∈ decode_windows fuel (pre ++ concat_codewords cws ++ List.replicate k 48) cb
          pre.length, p.2 = true → p.1 < pre.length + 7 * cws.length := by
  induction cws with
  | nil =>
    intro pre fuel hfuel
    cases fuel with
    | zero => simp at hfuel
    | succ fuel =>
      simp only [concat_codewords, List.append_nil, decode_windows_succ, List.length_append,
        List.length_replicate]
      by_cases h7 : k = 7
      · subst h7
        have hw : window_value (pre ++ List.replicate 7 48) pre.length = 0 := by
          have := window_value_codeword pre (List.replicate 7 48) []
            ⟨by simp, by intro c hc; left; exact List.eq_of_mem_replicate hc⟩
          simpa [bits_value] using this
        simp only [le_refl, if_true, hw, and_self]
        refine ⟨?_, ?_, ?_⟩
        · simp [resolved_windows]
        · simp
        · intro p hp hp2
          simp only [List.mem_singleton] at hp
          subst hp
          simp at hp2
      · have : ¬ pre.length + 7 ≤ pre.length + k := by omega
        simp only [this, if_false]
        refine ⟨?_, ?_, ?_⟩
        · simp [resolved_windows]
        · simp [h7]
        · intro p hp
          simp at hp
  | cons cw cws ih =>
    intro pre fuel hfuel
    cases fuel with
    | zero => simp at hfuel
    | succ fuel =>
      have hcw1 := hcw cw (List.mem_cons_self _ _)
      have hbits : pre ++ concat_codewords (cw :: cws) ++ List.replicate k 48 =
          pre ++ cw ++ (concat_codewords cws ++ List.replicate k 48) := by
        simp [concat_codewords]
      have hbits2 : pre ++ cw ++ (concat_codewords cws ++ List.replicate k 48) =
          (pre ++ cw) ++ concat_codewords cws ++ List.replicate k 48 := by
        simp
      have hpl : pre.length + 7 = (pre ++ cw).length := by simp [hcw1.1]
      have hrest : concat_codewords cws ++ List.replicate k 48 = [] ↔ cws = [] ∧ k = 0 := by
        constructor
        · intro h
          have hl := congrArg List.length h
          simp only [List.length_append, List.length_replicate, List.length_nil] at hl
          cases cws with
          | nil => exact ⟨rfl, by omega⟩
          | cons c2 r =>
            have := (hcw c2 (by simp)).1
            simp only [concat_codewords, List.length_append, this] at hl
            omega
        · rintro ⟨rfl, rfl⟩
          rfl
      rw [hbits]
      by_cases hdis : bits_value cw = 0 ∧
          concat_codewords cws ++ List.replicate k 48 = []
      · -- the last codeword is all zeros and ends the bit sequence
        obtain ⟨hv, hr⟩ := hdis
        obtain ⟨rfl, rfl⟩ := hrest.1 hr
        have hz : cw = List.replicate 7 48 := (bits_value_eq_zero_iff cw hcw1).1 hv
        have hw := window_value_codeword pre cw
          (concat_codewords [] ++ List.replicate 0 48) hcw1
        have hlen : (pre ++ cw ++ (concat_codewords [] ++ List.replicate 0 48)).length =
            pre.length + 7 := by simp [concat_codewords, hcw1.1]
        simp only [decode_windows_succ, hlen, le_refl, if_true, hw, hv, and_self]
        simp [resolved_windows, hz]
      · rw [decode_windows_codeword cb pre cw _ hcw1 fuel hdis, hbits2, hpl]
        obtain ⟨g1, g2, g3⟩ := ih (fun x hx => hcw x (List.mem_cons_of_mem _ hx))
          (pre ++ cw) fuel (by simp only [List.length_cons] at hfuel; omega)
        refine ⟨?_, ?_, ?_⟩
        · have hwb : window_bits ((pre ++ cw) ++ concat_codewords cws ++
              List.replicate k 48) pre.length = cw := by
            rw [← hbits2]
            exact window_bits_codeword pre cw _ hcw1
          have hres : resolved_windows
              ((pre.length, true) ::
                decode_windows fuel ((pre ++ cw) ++ concat_codewords cws ++
                  List.replicate k 48) cb (pre ++ cw).length)
              ((pre ++ cw) ++ concat_codewords cws ++ List.replicate k 48) =
              cw :: resolved_windows
                (decode_windows fuel ((pre ++ cw) ++ concat_codewords cws ++
                  List.replicate k 48) cb (pre ++ cw).length)
                ((pre ++ cw) ++ concat_codewords cws ++ List.replicate k 48) := by
            simp only [resolved_windows, List.filter_cons, if_true, List.map_cons, hwb]
          rw [hres, g1]
          cases cws with
          | nil =>
            have hnz : ¬ (k = 0 ∧ cw = List.replicate 7 48) := by
              rintro ⟨hk0, hz⟩
              exact hdis ⟨(bits_value_eq_zero_iff cw hcw1).2 hz, hrest.2 ⟨rfl, hk0⟩⟩
            simp only [List.getLast?_nil, List.getLast?_singleton, Option.some.injEq]
            rw [if_neg hnz, if_neg (by simp)]
          | cons c2 r =>
            simp only [List.getLast?_cons_cons]
            split
            · simp [List.dropLast]
            · rfl
        · simp only [List.length_cons, g2]
          omega
        · intro p hp hp2
          rcases List.mem_cons.1 hp with rfl | hp
          · simp only [List.length_cons]
            omega
          · have := g3 p hp hp2
            simp only [List.length_append, hcw1.1, List.length_cons] at this ⊢
            omega

/-! ## The encoded format in terms of the table -/

theorem find_codeword_none (t : List Nat) (symbols : List Symbol)
    (h : t ∉ symbols.map Symbol.symbol) : find_codeword t symbols = none := by
  cases hf : find_codeword t symbols with
  | none => rfl
  | some cw =>
    obtain ⟨e, he, hs, _⟩ := find_codeword_mem t symbols cw hf
    exact absurd (List.mem_map.2 ⟨e, he, hs⟩) h

theorem filterMap_find_codeword (symbols : List Symbol) (tokens : List (List Nat)) :
    tokens.filterMap (fun t => find_codeword t symbols) = table_codewords symbols tokens := by
  induction tokens with
  | nil => rfl
  | cons t ts ih =>
    unfold table_codewords tokens_in_table at ih ⊢
    by_cases h : t ∈ symbols.map Symbol.symbol
    · obtain ⟨e, he, _, _⟩ := lookup_symbol_some symbols t h
      have hf : find_codeword t symbols = some e.codeword := by
        rw [find_codeword_eq_lookup, he]; rfl
      have hd : decide (t ∈ symbols.map Symbol.symbol) = true := by simpa using h
      simp only [List.filterMap_cons, hf, List.filter_cons, hd, if_true, List.map_cons, he,
        Option.map_some', Option.getD_some, ih]
    · have hd : decide (t ∈ symbols.map Symbol.symbol) = false := by simpa using h
      simp only [List.filterMap_cons, find_codeword_none t symbols h, List.filter_cons, hd,
        ih]
      rfl

theorem found_codewords_eq (symbols : List Symbol) (input : List Nat) :
    found_codewords symbols input = table_codewords symbols (enc_tokens input) :=
  filterMap_find_codeword symbols (enc_tokens input)

theorem table_codewords_length (symbols : List Symbol) (tokens : List (List Nat)) :
    (table_codewords symbols tokens).length = (tokens_in_table symbols tokens).length := by
  simp [table_codewords]

/-- On bytes `0x01 .. 0x7F` the encoding pass reads one token per byte. -/
theorem enc_tokens_ascii (input : List Nat) (h : ∀ c ∈ input, 0 < c ∧ c < 128) :
    enc_tokens input = input.map (fun c =>
      if c = 10 then [92, 110] else if c = 9 then [92, 116]
      else if c = 13 then [92, 114] else [c]) := by
  induction input with
  | nil => rfl
  | cons c rest ih =>
    have hc := h c (List.mem_cons_self _ _)
    rw [enc_tokens_cons, (read_symbol_ascii c rest hc.2).2, token_ascii c hc.1, List.map_cons,
      ih (fun x hx => h x (List.mem_cons_of_mem _ hx))]

/-- C3: for every input and every table whose codewords are 7-bit strings, the bytes
written by `encode_to_binary`, each expanded MSB-first to 8 bits, are the concatenation,
in input order, of the codewords that the table gives (at the first entry carrying the
symbol) to exactly those input tokens that are symbols of the table, followed by
`(8 - 7n mod 8) mod 8` zero bits, `n` being the number of such tokens; the output has
`ceil(7n/8)` bytes and nothing else (no header).  The input tokens are those of the
encoding pass; on bytes `0x01 .. 0x7F` there is one token per byte, LF, TAB and CR being
read as backslash-n, backslash-t and backslash-r. -/
theorem encode_to_binary_format (symbols : List Symbol) (input : List Nat)
    (hcw : ∀ e ∈ symbols, is_codeword e.codeword) :
    expand_bits (encode_to_binary symbols input) =
      concat_codewords (table_codewords symbols (enc_tokens input)) ++
        List.replicate
          ((8 - 7 * (tokens_in_table symbols (enc_tokens input)).length % 8) % 8) 48 ∧
    (encode_to_binary symbols input).length =
      (7 * (tokens_in_table symbols (enc_tokens input)).length + 7) / 8 ∧
    ((∀ c ∈ input, 0 < c ∧ c < 128) →
      enc_tokens input = input.map (fun c =>
        if c = 10 then [92, 110] else if c = 9 then [92, 116]
        else if c = 13 then [92, 114] else [c])) := by
  obtain ⟨h1, h2⟩ := encode_to_binary_bits symbols input hcw
  rw [found_codewords_eq, table_codewords_length] at h1 h2
  exact ⟨h1, h2, enc_tokens_ascii input⟩

theorem encode_to_binary_format_witness :
    (∀ e ∈ ranked_table [97, 98, 10, 97, 98], is_codeword e.codeword) ∧
    (expand_bits (encode_to_binary (ranked_table [97, 98, 10, 97, 98]) [97, 98, 10, 97, 98, 99]) =
      concat_codewords
          (table_codewords (ranked_table [97, 98, 10, 97, 98])
            (enc_tokens [97, 98, 10, 97, 98, 99])) ++
        List.replicate ((8 - 7 * (tokens_in_table (ranked_table [97, 98, 10, 97, 98])
          (enc_tokens [97, 98, 10, 97, 98, 99])).length % 8) % 8) 48 ∧
    (encode_to_binary (ranked_table [97, 98, 10, 97, 98]) [97, 98, 10, 97, 98, 99]).length =
      (7 * (tokens_in_table (ranked_table [97, 98, 10, 97, 98])
        (enc_tokens [97, 98, 10, 97, 98, 99])).length + 7) / 8 ∧
    ((∀ c ∈ [97, 98, 10, 97, 98, 99], 0 < c ∧ c < 128) →
      enc_tokens [97, 98, 10, 97, 98, 99] = [97, 98, 10, 97, 98, 99].map (fun c =>
        if c = 10 then [92, 110] else if c = 9 then [92, 116]
        else if c = 13 then [92, 114] else [c]))) ∧
    tokens_in_table (ranked_table [97, 98, 10, 97, 98]) (enc_tokens [97, 98, 10, 97, 98, 99]) =
      [[97], [98], [92, 110], [97], [98]] ∧
    table_codewords (ranked_table [97, 98, 10, 97, 98]) (enc_tokens [97, 98, 10, 97, 98, 99]) =
      [[48, 48, 48, 48, 48, 48, 49], [48, 48, 48, 48, 48, 49, 48],
       [48, 48, 48, 48, 48, 48, 48], [48, 48, 48, 48, 48, 48, 49],
       [48, 48, 48, 48, 48, 49, 48]] ∧
    encode_to_binary (ranked_table [97, 98, 10, 97, 98]) [97, 98, 10, 97, 98, 99] =
      [2, 8, 0, 16, 64] :=
  ⟨by unfold is_codeword; decide!,
    encode_to_binary_format _ _ (by unfold is_codeword; decide!),
    by decide!, by decide!, by decide!⟩

/-! ## Counters within the range of `int` -/

/-- On an input shorter than `2^31` bytes no counter of `calculate_frequency` leaves the
range of `int`: the number of tokens and every count are at most `INT_MAX`. -/
theorem counters_fit_int (input : List Nat) (hlen : input.length < 2 ^ 31) :
    (freq_tokens input).length ≤ INT_MAX ∧
    ∀ e ∈ calculate_frequency input, e.count ≤ INT_MAX := by
  have h1 := freq_tokens_length_le input
  have h2 : (freq_tokens input).length ≤ INT_MAX := by
    unfold INT_MAX
    omega
  refine ⟨h2, ?_⟩
  intro e he
  have := (calculate_frequency_entry input e he).2.1
  omega

theorem freq_tokens_replicate (n : Nat) :
    freq_tokens (List.replicate n 97) = List.replicate n [97] := by
  induction n with
  | zero => rfl
  | succ n ih =>
    rw [List.replicate_succ, freq_tokens_ascii 97 _ (by decide) (by decide), ih,
      List.replicate_succ]
    rfl

theorem count_replicate_token (n : Nat) : (List.replicate n [97]).count [97] = n := by
  induction n with
  | zero => rfl
  | succ n ih =>
    rw [List.replicate_succ, List.count_cons, ih]
    rfl

theorem card_replicate_token (n : Nat) :
    (List.replicate n [97]).toFinset.card ≤ TOTAL_SYMBOLS := by
  have hsub : (List.replicate n [97]).toFinset ⊆ {[97]} := by
    intro x hx
    rw [List.mem_toFinset] at hx
    rw [Finset.mem_singleton]
    exact List.eq_of_mem_replicate hx
  have := Finset.card_le_card hsub
  rw [Finset.card_singleton] at this
  unfold TOTAL_SYMBOLS
  omega

theorem replicate_count_exceeds (n : Nat) (hn : INT_MAX < n) :
    (freq_tokens (List.replicate n 97)).toFinset.card ≤ TOTAL_SYMBOLS ∧
    (freq_tokens (List.replicate n 97)).count [97] = n ∧
    INT_MAX < (freq_tokens (List.replicate n 97)).count [97] := by
  rw [freq_tokens_replicate, count_replicate_token]
  exact ⟨card_replicate_token n, rfl, hn⟩

/-- C9 (amended): for every input shorter than `2^31` bytes whose token stream has at
most 1024 distinct symbols, the table built by `calculate_frequency` holds exactly the
distinct symbols of the token stream, each once, in order of first occurrence, and the
count of every entry is the number of occurrences of its symbol in the token stream, a
number that the `int` counter holds. -/
theorem calculate_frequency_counts (input : List Nat) (hlen : input.length < 2 ^ 31)
    (h : (freq_tokens input).toFinset.card ≤ TOTAL_SYMBOLS) :
    (calculate_frequency input).map Symbol.symbol = first_occurrences (freq_tokens input) ∧
    ((calculate_frequency input).map Symbol.symbol).Nodup ∧
    (∀ s, s ∈ (calculate_frequency input).map Symbol.symbol ↔ s ∈ freq_tokens input) ∧
    (∀ e ∈ calculate_frequency input, e.count = (freq_tokens input).count e.symbol) ∧
    (∀ e ∈ calculate_frequency input, e.count ≤ INT_MAX) := by
  obtain ⟨h1, h2, h3, h4⟩ := calculate_frequency_table input h
  exact ⟨h1, h2, h3, h4, (counters_fit_int input hlen).2⟩

theorem calculate_frequency_counts_witness :
    ([97, 98, 10, 97, 98].length < 2 ^ 31 ∧
      (freq_tokens [97, 98, 10, 97, 98]).toFinset.card ≤ TOTAL_SYMBOLS) ∧
    ((calculate_frequency [97, 98, 10, 97, 98]).map Symbol.symbol =
        first_occurrences (freq_tokens [97, 98, 10, 97, 98]) ∧
      ((calculate_frequency [97, 98, 10, 97, 98]).map Symbol.symbol).Nodup ∧
      (∀ s, s ∈ (calculate_frequency [97, 98, 10, 97, 98]).map Symbol.symbol ↔
        s ∈ freq_tokens [97, 98, 10, 97, 98]) ∧
      (∀ e ∈ calculate_frequency [97, 98, 10, 97, 98],
        e.count = (freq_tokens [97, 98, 10, 97, 98]).count e.symbol) ∧
      (∀ e ∈ calculate_frequency [97, 98, 10, 97, 98], e.count ≤ INT_MAX)) :=
  ⟨⟨by decide, by decide!⟩, calculate_frequency_counts _ (by decide) (by decide!)⟩

/-- C9 (counterexample): the input of `2^31` bytes `a` has a single distinct symbol, which
occurs `2^31` times in its token stream; the count that the claim gives the entry of `a`
is more than `INT_MAX`, the largest value of the `int count` that line 100 increments. -/
theorem count_exceeds_int :
    (freq_tokens (List.replicate 2147483648 97)).toFinset.card ≤ TOTAL_SYMBOLS ∧
    (freq_tokens (List.replicate 2147483648 97)).count [97] = 2147483648 ∧
    INT_MAX < (freq_tokens (List.replicate 2147483648 97)).count [97] :=
  replicate_count_exceeds 2147483648 (by decide)

/-- C10 (amended): for every non-empty input shorter than `2^31` bytes every table entry
has probability equal to its count divided by the number of tokens read, both within the
range of `int`; and when the token stream has at most 1024 distinct symbols the counts
sum to the number of tokens read and the probabilities sum to 1. -/
theorem calculate_frequency_probability (input : List Nat) (hne : input ≠ [])
    (hlen : input.length < 2 ^ 31) :
    (∀ e ∈ calculate_frequency input,
      e.probability = (e.count : ℚ) / ((freq_tokens input).length : ℚ)) ∧
    ((freq_tokens input).length ≤ INT_MAX ∧
      ∀ e ∈ calculate_frequency input, e.count ≤ INT_MAX) ∧
    ((freq_tokens input).toFinset.card ≤ TOTAL_SYMBOLS →
      ((calculate_frequency input).map Symbol.count).sum = (freq_tokens input).length ∧
      ((calculate_frequency input).map Symbol.probability).sum = 1) := by
  refine ⟨?_, counters_fit_int input hlen, ?_⟩
  · intro e he
    rw [calculate_frequency_eq] at he
    obtain ⟨e0, _, rfl⟩ := List.mem_map.1 he
    rfl
  · intro h
    have hcap : (([] : List Symbol).map Symbol.symbol ++
        (first_occurrences (freq_tokens input)).filter
          (fun s => decide (s ∉ ([] : List Symbol).map Symbol.symbol))).length
          ≤ TOTAL_SYMBOLS := by
      rw [first_occurrences_filter_nil]
      simpa [first_occurrences_length] using h
    obtain ⟨_, _, h3⟩ := foldl_observe_symbols (freq_tokens input) [] hcap
    simp only [List.map_nil, List.sum_nil, zero_add] at h3
    have hsum : ((calculate_frequency input).map Symbol.count).sum =
        (freq_tokens input).length := by
      rw [calculate_frequency_count_eq, h3]
    refine ⟨hsum, ?_⟩
    rw [calculate_frequency_eq, sum_probability_eq, h3]
    have hpos : ((freq_tokens input).length : ℚ) ≠ 0 := by
      have := freq_tokens_ne_nil input hne
      have : (freq_tokens input).length ≠ 0 := by
        intro h0; exact this (List.length_eq_zero.1 h0)
      exact_mod_cast this
    exact div_self hpos

theorem calculate_frequency_probability_witness :
    ([97, 98, 10, 97, 98] ≠ ([] : List Nat) ∧ [97, 98, 10, 97, 98].length < 2 ^ 31 ∧
      (freq_tokens [97, 98, 10, 97, 98]).toFinset.card ≤ TOTAL_SYMBOLS) ∧
    (∀ e ∈ calculate_frequency [97, 98, 10, 97, 98],
      e.probability = (e.count : ℚ) / ((freq_tokens [97, 98, 10, 97, 98]).length : ℚ)) ∧
    ((freq_tokens [97, 98, 10, 97, 98]).length ≤ INT_MAX ∧
      ∀ e ∈ calculate_frequency [97, 98, 10, 97, 98], e.count ≤ INT_MAX) ∧
    ((calculate_frequency [97, 98, 10, 97, 98]).map Symbol.count).sum =
      (freq_tokens [97, 98, 10, 97, 98]).length ∧
    ((calculate_frequency [97, 98, 10, 97, 98]).map Symbol.probability).sum = 1 :=
  ⟨⟨by decide, by decide, by decide!⟩,
    (calculate_frequency_probability [97, 98, 10, 97, 98] (by decide) (by decide)).1,
    (calculate_frequency_probability [97, 98, 10, 97, 98] (by decide) (by decide)).2.1,
    (calculate_frequency_probability [97, 98, 10, 97, 98] (by decide) (by decide)).2.2
      (by decide!)⟩

/-! ## The window loop in terms of bit strings and integer values -/

theorem find_entry_eq (v : Nat) (cb : List CodebookEntry) :
    find_entry v cb = entry_with_value cb v := by
  induction cb with
  | nil => rfl
  | cons e es ih =>
    unfold entry_with_value at ih ⊢
    by_cases h : code_value e.code = some v
    · simp only [find_entry, h, if_true, List.find?_cons, decide_True]
    · simp only [find_entry, h, if_false, List.find?_cons, decide_False, ih]

theorem code_value_bits : ∀ c0 ∈ [48, 49], ∀ c1 ∈ [48, 49], ∀ c2 ∈ [48, 49],
    ∀ c3 ∈ [48, 49], ∀ c4 ∈ [48, 49], ∀ c5 ∈ [48, 49], ∀ c6 ∈ [48, 49],
    code_value [c0, c1, c2, c3, c4, c5, c6] = some (bits_value [c0, c1, c2, c3, c4, c5, c6]) := by
  decide!

/-- The `code_value` of a 7-bit code is the number that the code denotes in binary. -/
theorem code_value_codeword (code : List Nat) (h : is_codeword code) :
    code_value code = some (bits_value code) := by
  obtain ⟨c0, c1, c2, c3, c4, c5, c6, rfl⟩ := length_seven code h.1
  have m : ∀ c ∈ [c0, c1, c2, c3, c4, c5, c6], c ∈ [48, 49] := by
    intro c hc
    have := h.2 c hc
    simp only [List.mem_cons, List.mem_singleton, List.not_mem_nil, or_false]
    exact this
  exact code_value_bits c0 (m c0 (by simp)) c1 (m c1 (by simp)) c2 (m c2 (by simp))
    c3 (m c3 (by simp)) c4 (m c4 (by simp)) c5 (m c5 (by simp)) c6 (m c6 (by simp))

theorem window_bits_is_codeword (bits : List Nat) (h : ∀ c ∈ bits, c = 48 ∨ c = 49)
    (i : Nat) (hi : i + 7 ≤ bits.length) : is_codeword (window_bits bits i) := by
  constructor
  · simp only [window_bits, List.length_take, List.length_drop]
    omega
  · intro c hc
    exact h c (List.mem_of_mem_drop (List.mem_of_mem_take hc))

theorem window_split (bits : List Nat) (i : Nat) :
    bits = bits.take i ++ window_bits bits i ++ bits.drop (i + 7) := by
  have h1 : (bits.drop i).take 7 ++ bits.drop (i + 7) = bits.drop i := by
    rw [← List.drop_drop]
    exact List.take_append_drop 7 (bits.drop i)
  rw [List.append_assoc]
  unfold window_bits
  rw [h1, List.take_append_drop]

/-- The value of a complete window of `0`/`1` characters is the number that its seven
bits denote. -/
theorem window_value_eq (bits : List Nat) (h : ∀ c ∈ bits, c = 48 ∨ c = 49) (i : Nat)
    (hi : i + 7 ≤ bits.length) :
    window_value bits i = bits_value (window_bits bits i) := by
  have hcw := window_bits_is_codeword bits h i hi
  have hl : (bits.take i).length = i := by
    rw [List.length_take]
    omega
  have := window_value_codeword (bits.take i) (window_bits bits i) (bits.drop (i + 7)) hcw
  rw [hl] at this
  rw [← this]
  congr 1
  exact window_split bits i

/-- The output of the window loop is the concatenation of what the windows of its trace
that are resolved give. -/
theorem decode_loop_trace (cb : List CodebookEntry) (bits : List Nat)
    (h : ∀ c ∈ bits, c = 48 ∨ c = 49) :
    ∀ (fuel i : Nat) (out : List Nat), bits.length < i + 7 * (fuel + 1) →
      decode_loop (fuel + 1) bits cb i out =
        some (out ++ concat_codewords
          ((resolved_windows (decode_windows (fuel + 1) bits cb i) bits).map
            (resolved_output cb))) := by
  intro fuel
  induction fuel with
  | zero =>
    intro i out hlt
    have hno : ¬ i + 7 ≤ bits.length := by omega
    rw [decode_loop_succ, decode_windows_succ, if_neg hno, if_neg hno]
    simp [resolved_windows, concat_codewords]
  | succ fuel ih =>
    intro i out hlt
    rw [decode_loop_succ, decode_windows_succ]
    by_cases hle : i + 7 ≤ bits.length
    · rw [if_pos hle, if_pos hle]
      by_cases hdis : window_value bits i = 0 ∧ i + 7 = bits.length
      · rw [if_pos hdis, if_pos hdis]
        simp [resolved_windows, concat_codewords]
      · rw [if_neg hdis, if_neg hdis]
        have hv := window_value_eq bits h i hle
        cases hf : find_entry (window_value bits i) cb with
        | none =>
          have ho : resolved_output cb (window_bits bits i) = [] := by
            unfold resolved_output
            rw [← hv, ← find_entry_eq, hf]
          simp only []
          rw [ih (i + 7) out (by omega)]
          simp only [resolved_windows, List.filter_cons, if_true, List.map_cons,
            concat_codewords, ho, List.nil_append]
        | some e =>
          have ho : resolved_output cb (window_bits bits i) = expand_symbol e.symbol := by
            unfold resolved_output
            rw [← hv, ← find_entry_eq, hf, expand_symbol_eq]
          simp only [emit_symbol_bits bits h]
          rw [ih (i + 7) (out ++ expand_symbol e.symbol) (by omega)]
          simp only [resolved_windows, List.filter_cons, if_true, List.map_cons,
            concat_codewords, ho, List.append_assoc]
    · rw [if_neg hle, if_neg hle]
      simp [resolved_windows, concat_codewords]

/-- The expanded bits are the bytes of the file, each written as its 8 bits, most
significant first. -/
theorem expand_bits_eq (enc : List Nat) (h : ∀ b ∈ enc, b < 256) :
    expand_bits enc = concat_codewords (enc.map (nat_bits 8)) := by
  induction enc with
  | nil => rfl
  | cons b rest ih =>
    rw [List.map_cons, concat_codewords, ← byte_bits_eq_nat_bits b (h b (List.mem_cons_self _ _)),
      ← ih (fun x hx => h x (List.mem_cons_of_mem _ hx))]
    rfl

/-- An encoded file that does not fit `bitstream[MAX_BITSTREAM_SIZE]`: the filling loop of
lines 352-356 writes past the end of the array. -/
theorem decode_binary_overflow (cb : List CodebookEntry) (enc : List Nat)
    (h : MAX_BITSTREAM_SIZE < 8 * enc.length) : decode_binary cb enc = none := by
  unfold decode_binary
  rw [if_pos h]

theorem decode_binary_fit (cb : List CodebookEntry) (enc : List Nat)
    (h : 8 * enc.length ≤ MAX_BITSTREAM_SIZE) :
    decode_binary cb enc = decode_loop (8 * enc.length + 1) (expand_bits enc) cb 0 [] := by
  unfold decode_binary
  rw [if_neg (by omega)]

/-- One iteration of the loop advances the index by exactly 7 and stays inside the bits. -/
theorem decode_step_next (cb : List CodebookEntry) (bits : List Nat)
    (h : ∀ c ∈ bits, c = 48 ∨ c = 49) (i : Nat) (r : List Nat × Nat)
    (hr : decode_step bits cb i = some r) : i + 7 ≤ bits.length ∧ r.2 = i + 7 := by
  unfold decode_step at hr
  by_cases hle : i + 7 ≤ bits.length
  · refine ⟨hle, ?_⟩
    rw [if_pos hle] at hr
    by_cases hdis : window_value bits i = 0 ∧ i + 7 = bits.length
    · rw [if_pos hdis] at hr
      cases hr
    · rw [if_neg hdis] at hr
      cases hf : find_entry (window_value bits i) cb with
      | none =>
        rw [hf] at hr
        simp only [Option.some.injEq] at hr
        rw [← hr]
      | some e =>
        rw [hf] at hr
        simp only [Option.some.injEq, emit_symbol_bits bits h] at hr
        rw [← hr]
  · rw [if_neg hle] at hr
    cases hr

theorem first_window_replicate (b n : Nat) :
    window_bits (expand_bits (List.replicate (n + 1) b)) 0 = (byte_bits b).take 7 := by
  rfl

/-- C15 (amended): for every codebook and every encoded byte sequence that fits the bit
buffer (at most 32768 bytes), `decode_binary` examines the complete 7-bit windows of the
expanded bits, at the offsets 0, 7, 14, .., from left to right; a window is discarded
exactly when the number its bits denote is 0 and it ends at the last bit, and every other
window, all-zero or not, is resolved by the first codebook entry whose code has the
integer value of the window (for a 7-bit code, the number it denotes in binary).  The
output is the concatenation of what the windows resolved give, those of the trace of the
loop; the expanded bits are the bytes of the file written with 8 bits each, most
significant first. -/
theorem decoder_boundary_rule (codebook : List CodebookEntry) (enc : List Nat)
    (hfit : 8 * enc.length ≤ MAX_BITSTREAM_SIZE) :
    decode_windows (8 * enc.length + 1) (expand_bits enc) codebook 0 =
      (List.range ((expand_bits enc).length / 7)).map (fun j =>
        (7 * j, !decide (bits_value (window_bits (expand_bits enc) (7 * j)) = 0 ∧
          7 * j + 7 = (expand_bits enc).length))) ∧
    decode_binary codebook enc =
      some (concat_codewords ((List.range ((expand_bits enc).length / 7)).map (fun j =>
        if bits_value (window_bits (expand_bits enc) (7 * j)) = 0 ∧
            7 * j + 7 = (expand_bits enc).length then []
        else resolved_output codebook (window_bits (expand_bits enc) (7 * j))))) ∧
    (∀ code, is_codeword code → code_value code = some (bits_value code)) ∧
    (expand_bits enc).length = 8 * enc.length ∧
    ((∀ b ∈ enc, b < 256) → expand_bits enc = concat_codewords (enc.map (nat_bits 8))) ∧
    decode_binary codebook enc =
      some (concat_codewords
        ((resolved_windows (decode_windows (8 * enc.length + 1) (expand_bits enc) codebook 0)
          (expand_bits enc)).map (resolved_output codebook))) := by
  have hch := expand_bits_chars enc
  obtain ⟨h1, h2⟩ := decode_loop_from_start codebook _ hch _ (decode_fuel_enough enc)
  have hv : ∀ j ∈ List.range ((expand_bits enc).length / 7),
      window_value (expand_bits enc) (7 * j) =
        bits_value (window_bits (expand_bits enc) (7 * j)) := by
    intro j hj
    have := List.mem_range.1 hj
    exact window_value_eq _ hch (7 * j) (by omega)
  refine ⟨?_, ?_, code_value_codeword, expand_bits_length enc, expand_bits_eq enc, ?_⟩
  · rw [h2]
    apply List.map_congr_left
    intro j hj
    rw [hv j hj]
  · rw [decode_binary_fit codebook enc hfit, h1]
    congr 2
    apply List.map_congr_left
    intro j hj
    unfold window_output resolved_output
    rw [hv j hj, find_entry_eq]
    by_cases hd : bits_value (window_bits (expand_bits enc) (7 * j)) = 0 ∧
        7 * j + 7 = (expand_bits enc).length
    · simp only [if_pos hd]
    · simp only [if_neg hd]
      cases entry_with_value codebook (bits_value (window_bits (expand_bits enc) (7 * j))) with
      | none => rfl
      | some e => exact expand_symbol_eq e.symbol
  · rw [decode_binary_fit codebook enc hfit,
      decode_loop_trace codebook _ hch (8 * enc.length) 0 []
        (by rw [expand_bits_length]; omega), List.nil_append]

theorem decoder_boundary_rule_witness :
    8 * [2, 0, 0, 0, 0, 0, 0].length ≤ MAX_BITSTREAM_SIZE ∧
    decode_windows (8 * [2, 0, 0, 0, 0, 0, 0].length + 1) (expand_bits [2, 0, 0, 0, 0, 0, 0])
        [⟨[97], [48, 48, 48, 48, 48, 48, 48]⟩, ⟨[98], [48, 48, 48, 48, 48, 48, 49]⟩] 0 =
      [(0, true), (7, true), (14, true), (21, true), (28, true), (35, true), (42, true),
        (49, false)] ∧
    decode_binary [⟨[97], [48, 48, 48, 48, 48, 48, 48]⟩, ⟨[98], [48, 48, 48, 48, 48, 48, 49]⟩]
        [2, 0, 0, 0, 0, 0, 0] = some [98, 97, 97, 97, 97, 97, 97] :=
  ⟨by decide,
    (decoder_boundary_rule
      [⟨[97], [48, 48, 48, 48, 48, 48, 48]⟩, ⟨[98], [48, 48, 48, 48, 48, 48, 49]⟩]
      [2, 0, 0, 0, 0, 0, 0] (by decide)).1.trans (by decide!),
    (decoder_boundary_rule
      [⟨[97], [48, 48, 48, 48, 48, 48, 48]⟩, ⟨[98], [48, 48, 48, 48, 48, 48, 49]⟩]
      [2, 0, 0, 0, 0, 0, 0] (by decide)).2.1.trans (by decide!)⟩

/-- C15 (counterexample): an encoded file of 32769 zero bytes does not fit the bit buffer
of 262144 characters, which lines 352-356 fill without a bound check: the program has no
defined output, whereas the claim has the first window, all-zero and not final, resolved
against the codebook. -/
theorem decoder_boundary_overflow :
    MAX_BITSTREAM_SIZE < 8 * (List.replicate 32769 0).length ∧
    bits_value (window_bits (expand_bits (List.replicate 32769 0)) 0) = 0 ∧
    0 + 7 ≠ (expand_bits (List.replicate 32769 0)).length ∧
    decode_binary [⟨[97], [48, 48, 48, 48, 48, 48, 48]⟩] (List.replicate 32769 0) = none :=
  have h : MAX_BITSTREAM_SIZE < 8 * (List.replicate 32769 0).length := by
    rw [List.length_replicate]
    decide
  have hw : window_bits (expand_bits (List.replicate 32769 0)) 0 = (byte_bits 0).take 7 :=
    first_window_replicate 0 32768
  ⟨h, by rw [hw]; decide, by rw [expand_bits_length, List.length_replicate]; decide,
    decode_binary_overflow _ _ h⟩

/-! ## Window alignment -/

/-- C20 (amended): for every encoded byte sequence that fits the bit buffer (at most 32768
bytes), `bit_index` stays within `bitstream[MAX_BITSTREAM_SIZE]` and every position below
it holds the character `0` or `1`; so the test `bitstream[i + 1] == '\n'` of the
backslash-r branch is never true, that branch never increments `i`, every iteration of
the loop advances `i` by exactly 7, and every window the loop examines starts at a bit
offset that is a multiple of 7 and lies entirely inside the expanded bits; the loop ends
and `decode_binary` returns what the windows examined and resolved give. -/
theorem window_alignment (codebook : List CodebookEntry) (enc : List Nat)
    (hfit : 8 * enc.length ≤ MAX_BITSTREAM_SIZE) :
    (expand_bits enc).length = 8 * enc.length ∧
    (expand_bits enc).length ≤ MAX_BITSTREAM_SIZE ∧
    ((∀ b ∈ enc, b < 256) → expand_bits enc = concat_codewords (enc.map (nat_bits 8))) ∧
    (∀ c ∈ expand_bits enc, c = 48 ∨ c = 49) ∧
    (∀ i, (expand_bits enc).getD (i + 1) 0 ≠ 10) ∧
    (∀ i e, (emit_symbol (expand_bits enc) i e).2 = i) ∧
    (∀ i r, decode_step (expand_bits enc) codebook i = some r →
      i + 7 ≤ (expand_bits enc).length ∧ r.2 = i + 7) ∧
    (∀ p ∈ decode_windows (8 * enc.length + 1) (expand_bits enc) codebook 0,
      p.1 % 7 = 0 ∧ p.1 + 7 ≤ (expand_bits enc).length) ∧
    decode_binary codebook enc =
      decode_loop (8 * enc.length + 1) (expand_bits enc) codebook 0 [] ∧
    (∃ out, decode_binary codebook enc = some out) ∧
    decode_binary codebook enc =
      some (concat_codewords
        ((resolved_windows (decode_windows (8 * enc.length + 1) (expand_bits enc) codebook 0)
          (expand_bits enc)).map (resolved_output codebook))) := by
  have hch := expand_bits_chars enc
  have hlen := expand_bits_length enc
  obtain ⟨h1, h2⟩ := decode_loop_from_start codebook _ hch _ (decode_fuel_enough enc)
  refine ⟨hlen, by omega, expand_bits_eq enc, hch, fun i => getD_ne_newline _ hch (i + 1), ?_,
    fun i r hr => decode_step_next codebook _ hch i r hr, ?_,
    decode_binary_fit codebook enc hfit, ⟨_, (decode_binary_fit codebook enc hfit).trans h1⟩,
    ?_⟩
  · intro i e
    rw [emit_symbol_bits _ hch]
  · intro p hp
    rw [h2] at hp
    obtain ⟨k, hk, rfl⟩ := List.mem_map.1 hp
    have hk' := List.mem_range.1 hk
    constructor
    · show 7 * k % 7 = 0
      omega
    · show 7 * k + 7 ≤ (expand_bits enc).length
      omega
  · rw [decode_binary_fit codebook enc hfit,
      decode_loop_trace codebook _ hch (8 * enc.length) 0 [] (by omega), List.nil_append]

theorem window_alignment_witness :
    8 * [2, 8, 24].length ≤ MAX_BITSTREAM_SIZE ∧
    (∀ p ∈ decode_windows (8 * [2, 8, 24].length + 1) (expand_bits [2, 8, 24])
        [⟨[92, 114], [48, 48, 48, 48, 48, 48, 49]⟩, ⟨[92, 110], [48, 48, 48, 48, 48, 49, 48]⟩,
          ⟨[97], [48, 48, 48, 48, 48, 49, 49]⟩] 0,
      p.1 % 7 = 0 ∧ p.1 + 7 ≤ (expand_bits [2, 8, 24]).length) ∧
    decode_windows (8 * [2, 8, 24].length + 1) (expand_bits [2, 8, 24])
        [⟨[92, 114], [48, 48, 48, 48, 48, 48, 49]⟩, ⟨[92, 110], [48, 48, 48, 48, 48, 49, 48]⟩,
          ⟨[97], [48, 48, 48, 48, 48, 49, 49]⟩] 0 = [(0, true), (7, true), (14, true)] :=
  ⟨by decide,
    (window_alignment
      [⟨[92, 114], [48, 48, 48, 48, 48, 48, 49]⟩, ⟨[92, 110], [48, 48, 48, 48, 48, 49, 48]⟩,
        ⟨[97], [48, 48, 48, 48, 48, 49, 49]⟩] [2, 8, 24] (by decide)).2.2.2.2.2.2.2.1,
    by decide!⟩

/-- C20 (counterexample): for an encoded file of 32769 bytes `FF` the filling loop of
lines 352-356 runs `bit_index` up to 262152, past the 262144 characters of `bitstream`:
the positions from 262144 on lie outside the array, and the program has no defined
behaviour. -/
theorem window_alignment_overflow :
    (expand_bits (List.replicate 32769 255)).length = 262152 ∧
    MAX_BITSTREAM_SIZE < 8 * (List.replicate 32769 255).length ∧
    decode_binary [] (List.replicate 32769 255) = none :=
  have h : MAX_BITSTREAM_SIZE < 8 * (List.replicate 32769 255).length := by
    rw [List.length_replicate]
    decide
  ⟨by rw [expand_bits_length, List.length_replicate], h, decode_binary_overflow _ _ h⟩

/-! ## Padding recovery on the packed bytes -/

theorem padding_recovery_packed (cb : List CodebookEntry) (cws : List (List Nat))
    (enc : List Nat) (hcw : ∀ cw ∈ cws, is_codeword cw)
    (hbits : expand_bits enc =
      concat_codewords cws ++ List.replicate ((8 - 7 * cws.length % 8) % 8) 48)
    (hbytes : enc.length = (7 * cws.length + 7) / 8)
    (hfit : 7 * cws.length ≤ MAX_BITSTREAM_SIZE) :
    decode_binary cb enc =
      some (concat_codewords
        ((if 0 < cws.length ∧ cws.length % 8 = 0 ∧
            cws.getLast? = some (List.replicate 7 48)
          then cws.dropLast else cws).map (resolved_output cb))) ∧
    resolved_windows (decode_windows (8 * enc.length + 1) (expand_bits enc) cb 0)
        (expand_bits enc) =
      (if 0 < cws.length ∧ cws.length % 8 = 0 ∧ cws.getLast? = some (List.replicate 7 48)
        then cws.dropLast else cws) ∧
    (decode_windows (8 * enc.length + 1) (expand_bits enc) cb 0).length =
      cws.length + (if cws.length % 8 = 7 then 1 else 0) ∧
    ∀ p ∈ decode_windows (8 * enc.length + 1) (expand_bits enc) cb 0,
      p.2 = true → p.1 < 7 * cws.length := by
  have hb : expand_bits enc =
      [] ++ concat_codewords cws ++ List.replicate ((8 - 7 * cws.length % 8) % 8) 48 := by
    rw [hbits]; rfl
  obtain ⟨g1, g2, g3⟩ := decode_windows_codewords cb cws
    ((8 - 7 * cws.length % 8) % 8) (by omega) hcw [] (8 * enc.length + 1)
    (by rw [hbytes]; omega)
  rw [← hb] at g1 g2 g3
  simp only [List.length_nil, Nat.zero_add] at g1 g2 g3
  have hres : resolved_windows (decode_windows (8 * enc.length + 1) (expand_bits enc) cb 0)
        (expand_bits enc) =
      (if 0 < cws.length ∧ cws.length % 8 = 0 ∧ cws.getLast? = some (List.replicate 7 48)
        then cws.dropLast else cws) := by
    rw [g1]
    by_cases hlast : cws.getLast? = some (List.replicate 7 48)
    · have hpos : 0 < cws.length := by
        cases cws with
        | nil => simp at hlast
        | cons a l => simp
      by_cases h8 : cws.length % 8 = 0
      · have hk : (8 - 7 * cws.length % 8) % 8 = 0 := by omega
        rw [if_pos ⟨hk, hlast⟩, if_pos ⟨hpos, h8, hlast⟩]
      · have hk : ¬ (8 - 7 * cws.length % 8) % 8 = 0 := by omega
        rw [if_neg (fun h => hk h.1), if_neg (fun h => h8 h.2.1)]
    · rw [if_neg (fun h => hlast h.2), if_neg (fun h => hlast h.2.2)]
  have hfit8 : 8 * enc.length ≤ MAX_BITSTREAM_SIZE := by
    unfold MAX_BITSTREAM_SIZE at hfit ⊢
    omega
  have hrun := decode_loop_trace cb (expand_bits enc) (expand_bits_chars enc)
    (8 * enc.length) 0 [] (by rw [expand_bits_length]; omega)
  refine ⟨?_, hres, ?_, g3⟩
  · rw [decode_binary_fit cb enc hfit8, hrun, hres, List.nil_append]
  · rw [g2]
    by_cases h7 : cws.length % 8 = 7
    · have hk : (8 - 7 * cws.length % 8) % 8 = 7 := by omega
      rw [if_pos hk, if_pos h7]
    · have hk : ¬ (8 - 7 * cws.length % 8) % 8 = 7 := by omega
      rw [if_neg hk, if_neg h7]

theorem table_codewords_is_codeword (symbols : List Symbol)
    (hcw : ∀ e ∈ symbols, is_codeword e.codeword) (input : List Nat) :
    ∀ cw ∈ table_codewords symbols (enc_tokens input), is_codeword cw := by
  intro cw h
  rw [← found_codewords_eq] at h
  simp only [found_codewords, List.mem_filterMap] at h
  obtain ⟨t, _, ht⟩ := h
  obtain ⟨e, he, _, hecw⟩ := find_codeword_mem t symbols cw ht
  rw [← hecw]; exact hcw e he

/-- C16 (amended): for every table of 7-bit codewords, every input whose `n` codewords fit
the bit buffer (`7n <= 262144`) and every codebook, the windows that `decode_binary`
resolves on the bytes packed by `encode_to_binary` are exactly the `n` codewords packed,
in order, except that the last codeword is dropped if and only if `n` is a positive
multiple of 8 and the last codeword is `0000000`, and the output of `decode_binary` is
the concatenation of what these windows give, each resolved by the first codebook entry
whose code has its integer value; the loop examines one window more than there are
codewords only when `n mod 8 = 7`, and no window that is resolved reaches into the zero
padding. -/
theorem padding_recovery (symbols : List Symbol) (input : List Nat)
    (codebook : List CodebookEntry) (hcw : ∀ e ∈ symbols, is_codeword e.codeword)
    (hfit : 7 * (table_codewords symbols (enc_tokens input)).length ≤ MAX_BITSTREAM_SIZE) :
    decode_binary codebook (encode_to_binary symbols input) =
      some (concat_codewords
        ((if 0 < (table_codewords symbols (enc_tokens input)).length ∧
            (table_codewords symbols (enc_tokens input)).length % 8 = 0 ∧
            (table_codewords symbols (enc_tokens input)).getLast? =
              some (List.replicate 7 48)
          then (table_codewords symbols (enc_tokens input)).dropLast
          else table_codewords symbols (enc_tokens input)).map
            (resolved_output codebook))) ∧
    resolved_windows
        (decode_windows (8 * (encode_to_binary symbols input).length + 1)
          (expand_bits (encode_to_binary symbols input)) codebook 0)
        (expand_bits (encode_to_binary symbols input)) =
      (if 0 < (table_codewords symbols (enc_tokens input)).length ∧
          (table_codewords symbols (enc_tokens input)).length % 8 = 0 ∧
          (table_codewords symbols (enc_tokens input)).getLast? = some (List.replicate 7 48)
        then (table_codewords symbols (enc_tokens input)).dropLast
        else table_codewords symbols (enc_tokens input)) ∧
    (decode_windows (8 * (encode_to_binary symbols input).length + 1)
        (expand_bits (encode_to_binary symbols input)) codebook 0).length =
      (table_codewords symbols (enc_tokens input)).length +
        (if (table_codewords symbols (enc_tokens input)).length % 8 = 7 then 1 else 0) ∧
    (∀ p ∈ decode_windows (8 * (encode_to_binary symbols input).length + 1)
        (expand_bits (encode_to_binary symbols input)) codebook 0,
      p.2 = true → p.1 < 7 * (table_codewords symbols (enc_tokens input)).length) ∧
    (∀ code, is_codeword code → code_value code = some (bits_value code)) := by
  obtain ⟨hbits, hbytes⟩ := encode_to_binary_bits symbols input hcw
  rw [found_codewords_eq] at hbits hbytes
  obtain ⟨g1, g2, g3, g4⟩ := padding_recovery_packed codebook _ _
    (table_codewords_is_codeword symbols hcw input) hbits hbytes hfit
  exact ⟨g1, g2, g3, g4, code_value_codeword⟩

theorem padding_recovery_witness :
    ((∀ e ∈ ranked_table [97, 97, 97, 97, 97, 97, 97, 97], is_codeword e.codeword) ∧
      7 * (table_codewords (ranked_table [97, 97, 97, 97, 97, 97, 97, 97])
        (enc_tokens [97, 97, 97, 97, 97, 97, 97, 97])).length ≤ MAX_BITSTREAM_SIZE) ∧
    table_codewords (ranked_table [97, 97, 97, 97, 97, 97, 97, 97])
        (enc_tokens [97, 97, 97, 97, 97, 97, 97, 97]) =
      List.replicate 8 (List.replicate 7 48) ∧
    resolved_windows
        (decode_windows
          (8 * (encode_to_binary (ranked_table [97, 97, 97, 97, 97, 97, 97, 97])
            [97, 97, 97, 97, 97, 97, 97, 97]).length + 1)
          (expand_bits (encode_to_binary (ranked_table [97, 97, 97, 97, 97, 97, 97, 97])
            [97, 97, 97, 97, 97, 97, 97, 97]))
          [⟨[97], [48, 48, 48, 48, 48, 48, 48]⟩] 0)
        (expand_bits (encode_to_binary (ranked_table [97, 97, 97, 97, 97, 97, 97, 97])
          [97, 97, 97, 97, 97, 97, 97, 97])) = List.replicate 7 (List.replicate 7 48) ∧
    decode_binary [⟨[97], [48, 48, 48, 48, 48, 48, 48]⟩]
        (encode_to_binary (ranked_table [97, 97, 97, 97, 97, 97, 97, 97])
          [97, 97, 97, 97, 97, 97, 97, 97]) = some [97, 97, 97, 97, 97, 97, 97] :=
  ⟨⟨by unfold is_codeword; decide!, by decide!⟩, by decide!,
    (padding_recovery (ranked_table [97, 97, 97, 97, 97, 97, 97, 97])
      [97, 97, 97, 97, 97, 97, 97, 97] [⟨[97], [48, 48, 48, 48, 48, 48, 48]⟩]
      (by unfold is_codeword; decide!) (by decide!)).2.1.trans (by decide!),
    (padding_recovery (ranked_table [97, 97, 97, 97, 97, 97, 97, 97])
      [97, 97, 97, 97, 97, 97, 97, 97] [⟨[97], [48, 48, 48, 48, 48, 48, 48]⟩]
      (by unfold is_codeword; decide!) (by decide!)).1.trans (by decide!)⟩

theorem tokens_in_table_replicate (s : Symbol) (n : Nat) :
    tokens_in_table [s] (List.replicate n s.symbol) = List.replicate n s.symbol := by
  induction n with
  | zero => rfl
  | succ n ih =>
    unfold tokens_in_table at ih ⊢
    rw [List.replicate_succ, List.filter_cons_of_pos (by simp), ih]

theorem enc_tokens_replicate (n : Nat) :
    enc_tokens (List.replicate n 97) = List.replicate n [97] := by
  rw [enc_tokens_ascii _ (by
    intro c hc
    rw [List.eq_of_mem_replicate hc]
    decide), List.map_replicate]
  rfl

theorem packed_replicate_overflow (cb : List CodebookEntry) (n m : Nat)
    (hm : (7 * n + 7) / 8 = m) (hbig : MAX_BITSTREAM_SIZE < 8 * m) :
    (table_codewords [⟨[97], 1, 1, [48, 48, 48, 48, 48, 48, 49]⟩]
      (enc_tokens (List.replicate n 97))).length = n ∧
    (encode_to_binary [⟨[97], 1, 1, [48, 48, 48, 48, 48, 48, 49]⟩]
      (List.replicate n 97)).length = m ∧
    decode_binary cb (encode_to_binary [⟨[97], 1, 1, [48, 48, 48, 48, 48, 48, 49]⟩]
      (List.replicate n 97)) = none := by
  have hcw : ∀ e ∈ [(⟨[97], 1, 1, [48, 48, 48, 48, 48, 48, 49]⟩ : Symbol)],
      is_codeword e.codeword := by
    intro e he
    rw [List.mem_singleton] at he
    subst he
    unfold is_codeword
    decide
  have hn : (table_codewords [⟨[97], 1, 1, [48, 48, 48, 48, 48, 48, 49]⟩]
      (enc_tokens (List.replicate n 97))).length = n := by
    rw [table_codewords_length, enc_tokens_replicate]
    have := tokens_in_table_replicate ⟨[97], 1, 1, [48, 48, 48, 48, 48, 48, 49]⟩ n
    rw [this, List.length_replicate]
  obtain ⟨_, hbytes⟩ := encode_to_binary_bits _ (List.replicate n 97) hcw
  rw [found_codewords_eq, hn, hm] at hbytes
  refine ⟨hn, hbytes, decode_binary_overflow _ _ ?_⟩
  rw [hbytes]
  exact hbig

/-- C16 (counterexample): the 37450 codewords `0000001` packed for an input of 37450
bytes `a` fill 32769 bytes, which do not fit the bit buffer of 262144 characters: the
program has no defined output, so the windows resolved are not the codewords packed. -/
theorem padding_recovery_overflow :
    (table_codewords [⟨[97], 1, 1, [48, 48, 48, 48, 48, 48, 49]⟩]
      (enc_tokens (List.replicate 37450 97))).length = 37450 ∧
    (encode_to_binary [⟨[97], 1, 1, [48, 48, 48, 48, 48, 48, 49]⟩]
      (List.replicate 37450 97)).length = 32769 ∧
    decode_binary [⟨[97], [48, 48, 48, 48, 48, 48, 49]⟩]
      (encode_to_binary [⟨[97], 1, 1, [48, 48, 48, 48, 48, 48, 49]⟩]
        (List.replicate 37450 97)) = none :=
  packed_replicate_overflow _ 37450 32769 (by decide) (by decide)

/-! ## Loading a whole codebook file -/

theorem fgets_aux_rest_le (room : Nat) (stream : List Nat) :
    (fgets_aux room stream).2.length ≤ stream.length := by
  induction room generalizing stream with
  | zero => simp [fgets_aux]
  | succ room ih =>
    cases stream with
    | nil => simp [fgets_aux]
    | cons c s =>
      by_cases hc : c = 10
      · simp [fgets_aux, hc]
      · simp only [fgets_aux, hc, if_false, List.length_cons]
        have := ih s
        omega

theorem fgets_rest_lt (c : Nat) (stream : List Nat) :
    (fgets 1024 (c :: stream)).2.length < (c :: stream).length := by
  show (fgets_aux (1022 + 1) (c :: stream)).2.length < _
  by_cases hc : c = 10
  · simp [fgets_aux, hc]
  · simp only [fgets_aux, hc, if_false, List.length_cons]
    have := fgets_aux_rest_le 1022 stream
    omega

theorem strtok_fields_eq (s : List Nat) :
    ∀ cur : List Nat, strtok_fields s cur =
      ((s.splitOn 44).modifyHead (fun h => cur ++ h)).filter (fun f => f != []) := by
  induction s with
  | nil =>
    intro cur
    by_cases hc : cur = []
    · simp [strtok_fields, hc, List.splitOn_nil]
    · simp [strtok_fields, hc, List.splitOn_nil]
  | cons c s ih =>
    intro cur
    have hsp : (c :: s).splitOn 44 =
        if c = 44 then [] :: s.splitOn 44 else (s.splitOn 44).modifyHead (List.cons c) := by
      unfold List.splitOn
      rw [List.splitOnP_cons]
      by_cases hc : c = 44
      · simp [hc]
      · simp [hc]
    rw [hsp]
    by_cases hc : c = 44
    · simp only [strtok_fields, hc, if_true, List.modifyHead_cons, List.append_nil]
      have h0 := ih []
      simp only [List.nil_append] at h0
      have hid : (s.splitOn 44).modifyHead (fun h => h) = s.splitOn 44 := by
        cases s.splitOn 44 <;> rfl
      rw [hid] at h0
      by_cases hcur : cur = []
      · simp [hcur, h0]
      · simp [hcur, h0]
    · simp only [strtok_fields, hc, if_false, ih (cur ++ [c]), List.modifyHead_modifyHead]
      congr 2
      funext h
      simp

/-- The fields that `strtok` returns are the fields in the words of the claim. -/
theorem line_fields_eq (l : List Nat) : line_fields l = comma_fields l := by
  unfold line_fields comma_fields strip_eol cstr
  rw [strtok_fields_eq, List.takeWhile_takeWhile]
  have hid : ∀ x : List (List Nat), x.modifyHead (fun h => [] ++ h) = x := by
    intro x
    cases x <;> rfl
  rw [hid]
  congr 2
  apply congrArg (fun p => List.takeWhile p l)
  funext c
  cases h0 : (c != 0) <;> cases h13 : (c != 13) <;> cases h10 : (c != 10) <;> simp

theorem fgets_aux_line_shape (room : Nat) :
    ∀ stream : List Nat, stream ≠ [] → 0 < room →
      (fgets_aux room stream).1 ≠ [] ∧ (fgets_aux room stream).1.length ≤ room ∧
      (∀ c ∈ (fgets_aux room stream).1.dropLast, c ≠ 10) ∧
      ((fgets_aux room stream).2 ≠ [] →
        (fgets_aux room stream).1.getLast? = some 10 ∨
          (fgets_aux room stream).1.length = room) := by
  induction room with
  | zero => intro stream _ h; omega
  | succ room ih =>
    intro stream hne _
    cases stream with
    | nil => exact absurd rfl hne
    | cons c s =>
      by_cases hc : c = 10
      · simp [fgets_aux, hc]
      · simp only [fgets_aux, hc, if_false]
        by_cases hroom : room = 0
        · subst hroom
          simp [fgets_aux]
        · cases s with
          | nil =>
            cases room with
            | zero => exact absurd rfl hroom
            | succ r => simp [fgets_aux]
          | cons d s =>
            obtain ⟨i1, i2, i3, i4⟩ := ih (d :: s) (by simp) (by omega)
            obtain ⟨x, xs, hx⟩ := List.exists_cons_of_ne_nil i1
            rw [hx] at i2 i3 i4 ⊢
            refine ⟨by simp, by simp only [List.length_cons] at i2 ⊢; omega, ?_, ?_⟩
            · rw [List.dropLast_cons₂]
              intro y hy
              rcases List.mem_cons.1 hy with rfl | hy
              · exact hc
              · exact i3 y hy
            · intro hr
              rw [List.getLast?_cons_cons]
              rcases i4 hr with h | h
              · exact Or.inl h
              · right
                simp only [List.length_cons] at h ⊢
                omega

theorem file_lines_ne_nil (fuel : Nat) (c : Nat) (s : List Nat) :
    file_lines (fuel + 1) (c :: s) ≠ [] := by
  simp [file_lines]

/-- The lines read by `fgets`: each is non-empty, of at most 1023 characters, with no LF
before its last character, and each but the last ends with LF or has 1023 characters. -/
theorem file_lines_shape (fuel : Nat) :
    ∀ stream : List Nat, stream.length < fuel →
      (∀ l ∈ file_lines fuel stream,
        l ≠ [] ∧ l.length ≤ 1023 ∧ ∀ c ∈ l.dropLast, c ≠ 10) ∧
      (∀ l ∈ (file_lines fuel stream).dropLast, l.getLast? = some 10 ∨ l.length = 1023) := by
  induction fuel with
  | zero => intro stream h; omega
  | succ fuel ih =>
    intro stream hfuel
    cases stream with
    | nil => simp [file_lines]
    | cons c s =>
      have hl : file_lines (fuel + 1) (c :: s) =
          (fgets 1024 (c :: s)).1 :: file_lines fuel (fgets 1024 (c :: s)).2 := rfl
      have hrest := fgets_rest_lt c s
      have hfuel' : (fgets 1024 (c :: s)).2.length < fuel := by
        simp only [List.length_cons] at hfuel hrest
        omega
      obtain ⟨j1, j2⟩ := ih _ hfuel'
      obtain ⟨i1, i2, i3, i4⟩ := fgets_aux_line_shape 1023 (c :: s) (by simp) (by decide)
      rw [hl]
      constructor
      · intro l hl'
        rcases List.mem_cons.1 hl' with rfl | hl'
        · exact ⟨i1, i2, i3⟩
        · exact j1 l hl'
      · cases hr : (fgets 1024 (c :: s)).2 with
        | nil =>
          cases fuel with
          | zero => simp [file_lines]
          | succ fuel => simp [file_lines]
        | cons d t =>
          cases fuel with
          | zero => rw [hr] at hfuel'; simp at hfuel'
          | succ fuel =>
            have hne := file_lines_ne_nil fuel d t
            rw [hr] at j2
            obtain ⟨y, ys, hy⟩ := List.exists_cons_of_ne_nil hne
            rw [hy] at j2 ⊢
            rw [List.dropLast_cons₂]
            intro l hl'
            rcases List.mem_cons.1 hl' with rfl | hl'
            · exact i4 (by
                show (fgets 1024 (c :: s)).2 ≠ []
                rw [hr]; simp)
            · exact j2 l hl'

theorem symbol_of_field_length (f : List Nat) (d : Nat)
    (h : ((bracket_text f).getD []).length ≤ 4) :
    (symbol_of_field f d).length ≤ 4 := by
  unfold symbol_of_field
  cases hb : bracket_text f with
  | none => simp
  | some t =>
    by_cases ht : t = []
    · simp [ht]
    · simp only [ht, if_false]
      rw [hb] at h
      exact h

/-- For a first field whose bracket text has at most 4 characters, the entry stored for
the fields of a line is the entry in the words of the claim. -/
theorem entry_of_fields_eq (fields : List (List Nat))
    (h : ((bracket_text (fields.headD [])).getD []).length ≤ 4) :
    entry_of_fields fields = line_entry fields := by
  unfold entry_of_fields line_entry
  by_cases h4 : 4 ≤ fields.length
  · have hn : ¬ fields.length < 4 := by omega
    simp only [h4, if_true, hn, if_false, extract_symbol_eq]
    rw [List.take_of_length_le]
    have := symbol_of_field_length (fields.headD [])
      (if fields.length = 4 then 93 else 44) h
    omega
  · have hn : fields.length < 4 := by omega
    simp only [h4, if_false, hn, if_true]

/-- The loop of `load_codebook` goes through all lines of the file and appends their
entries. -/
theorem load_codebook_loop_lines (fuel : Nat) :
    ∀ (stream : List Nat) (cb : List CodebookEntry), stream.length < fuel →
      (∀ l ∈ file_lines fuel stream, (comma_fields l).length ≤ 10) →
      (∀ l ∈ file_lines fuel stream,
        ((bracket_text ((comma_fields l).headD [])).getD []).length ≤ 4) →
      cb.length + ((file_lines fuel stream).filterMap
        (fun l => line_entry (comma_fields l))).length ≤ MAX_ENTRIES →
      load_codebook_loop fuel stream cb =
        some (cb ++ (file_lines fuel stream).filterMap
          (fun l => line_entry (comma_fields l))) := by
  induction fuel with
  | zero => intro stream cb h; omega
  | succ fuel ih =>
    intro stream cb hfuel hfields htext hroom
    cases stream with
    | nil => simp [load_codebook_loop, file_lines]
    | cons c s =>
      have hl : file_lines (fuel + 1) (c :: s) =
          (fgets 1024 (c :: s)).1 :: file_lines fuel (fgets 1024 (c :: s)).2 := rfl
      rw [hl] at hfields htext hroom ⊢
      have hf := hfields _ (List.mem_cons_self _ _)
      have ht := htext _ (List.mem_cons_self _ _)
      have hrest := fgets_rest_lt c s
      have hfuel' : (fgets 1024 (c :: s)).2.length < fuel := by
        simp only [List.length_cons] at hfuel hrest
        omega
      have hnot : ¬ 10 < (comma_fields (fgets 1024 (c :: s)).1).length := by omega
      rw [load_codebook_loop_succ fuel _ cb (by simp), line_fields_eq, if_neg hnot,
        entry_of_fields_eq _ ht]
      cases he : line_entry (comma_fields (fgets 1024 (c :: s)).1) with
      | none =>
        simp only [List.filterMap_cons, he] at hroom ⊢
        exact ih _ cb hfuel' (fun l hl' => hfields l (List.mem_cons_of_mem _ hl'))
          (fun l hl' => htext l (List.mem_cons_of_mem _ hl')) hroom
      | some e =>
        simp only [List.filterMap_cons, he, List.length_cons] at hroom ⊢
        have hlt : cb.length < MAX_ENTRIES := by omega
        simp only [hlt, if_true]
        rw [ih _ (cb ++ [e]) hfuel' (fun l hl' => hfields l (List.mem_cons_of_mem _ hl'))
          (fun l hl' => htext l (List.mem_cons_of_mem _ hl'))
          (by simp only [List.length_append, List.length_cons, List.length_nil]; omega)]
        simp

theorem concat_file_lines (fuel : Nat) :
    ∀ stream : List Nat, stream.length < fuel →
      concat_codewords (file_lines fuel stream) = stream := by
  induction fuel with
  | zero => intro stream h; omega
  | succ fuel ih =>
    intro stream hfuel
    cases stream with
    | nil => rfl
    | cons c s =>
      have hrest := fgets_rest_lt c s
      have hfuel' : (fgets 1024 (c :: s)).2.length < fuel := by
        simp only [List.length_cons] at hfuel hrest
        omega
      show (fgets 1024 (c :: s)).1 ++ concat_codewords (file_lines fuel (fgets 1024 (c :: s)).2)
        = c :: s
      rw [ih _ hfuel']
      show (fgets_aux 1023 (c :: s)).1 ++ (fgets_aux 1023 (c :: s)).2 = c :: s
      generalize 1023 = room
      generalize c :: s = l
      induction room generalizing l with
      | zero => simp [fgets_aux]
      | succ room ihr =>
        cases l with
        | nil => simp [fgets_aux]
        | cons x l =>
          by_cases hx : x = 10
          · simp [fgets_aux, hx]
          · simp only [fgets_aux, hx, if_false, List.cons_append, ihr l]

/-- C19 (amended): for every codebook file each of whose lines splits into at most 10
fields and holds a bracket text of at most 4 bytes (the longest symbol `write_codebook`
writes), and which gives at most 1024 entries, `load_codebook` reads the file to its end
and returns the entries of its lines, in order: a line adds no entry when it has fewer
than 4 fields, and otherwise exactly one entry, whose code is the first 31 characters of
the last field and whose symbol is the text between the first `[` and the first `]` of
the first field when the `[` comes first and that text is not empty, and otherwise the
placeholder `]` when the line has exactly 4 fields and `,` when it has more.  The lines
are what the calls of `fgets` read: put together they are the file, each ends at its
first LF or after 1023 characters, and the fields of a line are the non-empty pieces
between the commas of the line cut at its first NUL, CR or LF. -/
theorem load_codebook_line (file : List Nat)
    (hfields : ∀ l ∈ file_lines (file.length + 1) file, (comma_fields l).length ≤ 10)
    (htext : ∀ l ∈ file_lines (file.length + 1) file,
      ((bracket_text ((comma_fields l).headD [])).getD []).length ≤ 4)
    (hroom : ((file_lines (file.length + 1) file).filterMap
      (fun l => line_entry (comma_fields l))).length ≤ MAX_ENTRIES) :
    load_codebook file =
      some ((file_lines (file.length + 1) file).filterMap
        (fun l => line_entry (comma_fields l))) ∧
    concat_codewords (file_lines (file.length + 1) file) = file ∧
    (∀ l ∈ file_lines (file.length + 1) file,
      l ≠ [] ∧ l.length ≤ 1023 ∧ ∀ c ∈ l.dropLast, c ≠ 10) ∧
    (∀ l ∈ (file_lines (file.length + 1) file).dropLast,
      l.getLast? = some 10 ∨ l.length = 1023) := by
  refine ⟨?_, concat_file_lines _ file (by omega),
    (file_lines_shape _ file (by omega)).1, (file_lines_shape _ file (by omega)).2⟩
  unfold load_codebook
  rw [load_codebook_loop_lines (file.length + 1) file [] (by omega) hfields htext
    (by simpa using hroom)]
  simp

theorem load_codebook_line_witness :
    ((∀ l ∈ file_lines
          ([91, 97, 93, 44, 49, 44, 48, 46, 53, 44, 48, 48, 48, 48, 48, 48, 49, 10,
            120, 44, 49, 44, 48, 46, 53, 44, 48, 48, 48, 48, 48, 49, 48, 10,
            106, 117, 110, 107, 10,
            91, 44, 93, 44, 51, 44, 48, 46, 49, 44, 48, 48, 48, 48, 48, 49, 49].length + 1)
          [91, 97, 93, 44, 49, 44, 48, 46, 53, 44, 48, 48, 48, 48, 48, 48, 49, 10,
            120, 44, 49, 44, 48, 46, 53, 44, 48, 48, 48, 48, 48, 49, 48, 10,
            106, 117, 110, 107, 10,
            91, 44, 93, 44, 51, 44, 48, 46, 49, 44, 48, 48, 48, 48, 48, 49, 49],
        (comma_fields l).length ≤ 10) ∧
      (∀ l ∈ file_lines
          ([91, 97, 93, 44, 49, 44, 48, 46, 53, 44, 48, 48, 48, 48, 48, 48, 49, 10,
            120, 44, 49, 44, 48, 46, 53, 44, 48, 48, 48, 48, 48, 49, 48, 10,
            106, 117, 110, 107, 10,
            91, 44, 93, 44, 51, 44, 48, 46, 49, 44, 48, 48, 48, 48, 48, 49, 49].length + 1)
          [91, 97, 93, 44, 49, 44, 48, 46, 53, 44, 48, 48, 48, 48, 48, 48, 49, 10,
            120, 44, 49, 44, 48, 46, 53, 44, 48, 48, 48, 48, 48, 49, 48, 10,
            106, 117, 110, 107, 10,
            91, 44, 93, 44, 51, 44, 48, 46, 49, 44, 48, 48, 48, 48, 48, 49, 49],
        ((bracket_text ((comma_fields l).headD [])).getD []).length ≤ 4) ∧
      ((file_lines
          ([91, 97, 93, 44, 49, 44, 48, 46, 53, 44, 48, 48, 48, 48, 48, 48, 49, 10,
            120, 44, 49, 44, 48, 46, 53, 44, 48, 48, 48, 48, 48, 49, 48, 10,
            106, 117, 110, 107, 10,
            91, 44, 93, 44, 51, 44, 48, 46, 49, 44, 48, 48, 48, 48, 48, 49, 49].length + 1)
          [91, 97, 93, 44, 49, 44, 48, 46, 53, 44, 48, 48, 48, 48, 48, 48, 49, 10,
            120, 44, 49, 44, 48, 46, 53, 44, 48, 48, 48, 48, 48, 49, 48, 10,
            106, 117, 110, 107, 10,
            91, 44, 93, 44, 51, 44, 48, 46, 49, 44, 48, 48, 48, 48, 48, 49, 49]).filterMap
        (fun l => line_entry (comma_fields l))).length ≤ MAX_ENTRIES) ∧
    load_codebook
        [91, 97, 93, 44, 49, 44, 48, 46, 53, 44, 48, 48, 48, 48, 48, 48, 49, 10,
          120, 44, 49, 44, 48, 46, 53, 44, 48, 48, 48, 48, 48, 49, 48, 10,
          106, 117, 110, 107, 10,
          91, 44, 93, 44, 51, 44, 48, 46, 49, 44, 48, 48, 48, 48, 48, 49, 49] =
      some [⟨[97], [48, 48, 48, 48, 48, 48, 49]⟩, ⟨[93], [48, 48, 48, 48, 48, 49, 48]⟩,
        ⟨[44], [48, 48, 48, 48, 48, 49, 49]⟩] :=
  ⟨⟨by decide!, by decide!, by decide!⟩,
    (load_codebook_line _ (by decide!) (by decide!) (by decide!)).1.trans (by decide!)⟩

end TextCodec
